import Mathlib

/-!
# xv6 kernel cores: page allocator (`kernel/kalloc.c`) and buffer cache (`kernel/bio.c`)

A shallow embedding of the two C files and the properties stated about them.

## Page allocator

`kalloc.c` keeps, for each of the `NCPU` CPUs, the head pointer `kmems[i].freelist` of an
intrusive singly linked list: the link `r->next` of a free frame is the first machine word
of the frame itself.  The embedding keeps exactly this representation:

* `KState.freelist i` is the pointer `kmems[i].freelist` (`0` is the null pointer);
* `KState.mem a` is the 64-bit word stored at the (8-byte aligned) address `a`, which is
  what `((struct run*)a)->next` reads.

`NCPU`, `PHYSTOP` (from `param.h`, `memlayout.h`) and the linker symbol `end` are not part of
the sources at hand; they are the fields of `KConfig`.  Addresses are natural numbers; the
symbol `end` is called `kernel_end` because `end` is reserved in Lean.

The spin-locks `kmems[i].lock` protect the lists against other CPUs; the embedding gives the
sequential meaning of each function (what one call does to the lists when it runs alone),
so `acquire`/`release` and `push_off`/`pop_off` do not appear, and the result of `cpuid()`
is the argument `id`.
-/

namespace Kalloc

/-- Size of a page frame in bytes (`PGSIZE`). -/
def PGSIZE : Nat := 4096

/-- Constants of the allocator that come from headers and the linker script. -/
structure KConfig where
  /-- Number of CPUs, the length of `kmems`. -/
  NCPU : Nat
  /-- The linker symbol `end`: first address after the kernel image. -/
  kernel_end : Nat
  /-- Top of physical memory. -/
  PHYSTOP : Nat

/-- The memory of the allocator as `kalloc.c` uses it. -/
structure KState where
  /-- Head pointers: `kmems[i].freelist`. -/
  freelist : Nat → Nat
  /-- The word stored at an address: `((struct run*)a)->next`. -/
  mem : Nat → Nat

/-- Result of a call that may end in `panic`.  A panic halts the kernel; the state it
carries is the memory at the moment of the halt. -/
inductive Outcome (α : Type) where
  | ok (val : α)
  | panic (msg : String) (s : α)

/-- The word made of eight copies of the byte `c`, as left by `memset`. -/
def fillWord (c : Nat) : Nat := (c % 256) * 0x0101010101010101

/-- Effect of `memset(dst, c, n)` on the words of memory: every word inside
`[dst, dst + n)` becomes `fillWord c`. -/
def memset (mem : Nat → Nat) (dst c n : Nat) : Nat → Nat :=
  fun a => if dst ≤ a ∧ a < dst + n then fillWord c else mem a

/-- Store of one word: `*(uint64*)a = v`. -/
def store (mem : Nat → Nat) (a v : Nat) : Nat → Nat :=
  fun x => if x = a then v else mem x

/-- Assignment `kmems[i].freelist = v`. -/
def setHead (fl : Nat → Nat) (i v : Nat) : Nat → Nat :=
  fun j => if j = i then v else fl j

/-- `kfree(pa)` executed on CPU `id` (kalloc.c lines 52-77). -/
def kfree (cfg : KConfig) (id : Nat) (pa : Nat) (s : KState) : Outcome KState :=
  if pa % PGSIZE ≠ 0 ∨ pa < cfg.kernel_end ∨ pa ≥ cfg.PHYSTOP then
    .panic "kfree" s
  else
    -- memset(pa, 1, PGSIZE)
    let mem1 := memset s.mem pa 1 PGSIZE
    -- r->next = kmems[id].freelist; kmems[id].freelist = r
    .ok { freelist := setHead s.freelist id pa
          mem := store mem1 pa (s.freelist id) }

/-- The steal loop of `kalloc` (lines 113-129), entered with `r = 0`.  The first argument
counts the iterations that remain (`NCPU - i`); the result is the final `r` and the
state. -/
def kalloc_steal (id : Nat) (s : KState) : Nat → Nat → Nat × KState
  | 0, _ => (0, s)
  | n + 1, i =>
    if i = id then kalloc_steal id s n (i + 1)
    else if s.freelist i = 0 then kalloc_steal id s n (i + 1)
    else
      -- r = kmems[i].freelist; kmems[i].freelist = r->next; break
      (s.freelist i, { s with freelist := setHead s.freelist i (s.mem (s.freelist i)) })

/-- `kalloc()` executed on CPU `id` (kalloc.c lines 86-137): the returned pointer
(`0` when nothing could be allocated) and the new state.  The function has no `panic`. -/
def kalloc (cfg : KConfig) (id : Nat) (s : KState) : Nat × KState :=
  let r := s.freelist id
  let p : Nat × KState :=
    if r ≠ 0 then (r, { s with freelist := setHead s.freelist id (s.mem r) })
    else kalloc_steal id s cfg.NCPU 0
  if p.1 ≠ 0 then
    -- memset((char*)r, 5, PGSIZE)
    (p.1, { p.2 with mem := memset p.2.mem p.1 5 PGSIZE })
  else p

/-- Modelled from the spec: `PGROUNDUP` comes from `riscv.h`, which is not among the
sources; it rounds an address up to the next page boundary (frames are "page-aligned"
4096-byte regions). -/
def PGROUNDUP (a : Nat) : Nat := (a + PGSIZE - 1) / PGSIZE * PGSIZE

/-- The loop of `freerange` (lines 43-44) from the pointer `p` on; the first argument
bounds the number of iterations. -/
def freerange_loop (cfg : KConfig) (id : Nat) (pa_end : Nat) : Nat → Nat → KState → Outcome KState
  | 0, _, s => .ok s
  | n + 1, p, s =>
    if p + PGSIZE ≤ pa_end then
      match kfree cfg id p s with
      | .ok s1 => freerange_loop cfg id pa_end n (p + PGSIZE) s1
      | .panic m s1 => .panic m s1
    else .ok s

/-- `freerange(pa_start, pa_end)` (lines 38-45).  The loop runs at most
`pa_end / PGSIZE` times, which is the bound handed to `freerange_loop`. -/
def freerange (cfg : KConfig) (id : Nat) (pa_start pa_end : Nat) (s : KState) : Outcome KState :=
  freerange_loop cfg id pa_end (pa_end / PGSIZE + 1) (PGROUNDUP pa_start) s

/-- `kinit()` (lines 28-36) run on CPU `id`, from a state in which `kmems` is still
zero-initialised and memory holds arbitrary words. -/
def kinit (cfg : KConfig) (id : Nat) (mem0 : Nat → Nat) : Outcome KState :=
  freerange cfg id cfg.kernel_end cfg.PHYSTOP { freelist := fun _ => 0, mem := mem0 }

/-- The pointer `h` heads a null-terminated chain of `next` links through exactly the
addresses of `l`, in order. -/
def IsFreeList (mem : Nat → Nat) : Nat → List Nat → Prop
  | h, [] => h = 0
  | h, a :: l => h = a ∧ a ≠ 0 ∧ IsFreeList mem (mem a) l

instance (mem : Nat → Nat) : ∀ h l, Decidable (IsFreeList mem h l)
  | h, [] => by unfold IsFreeList; infer_instance
  | h, a :: l => by
    unfold IsFreeList
    have := instDecidableIsFreeList mem (mem a) l
    infer_instance

/-- An address that `kfree` accepts: page-aligned and inside `[end, PHYSTOP)`. -/
def ValidFrame (cfg : KConfig) (a : Nat) : Prop :=
  a % PGSIZE = 0 ∧ cfg.kernel_end ≤ a ∧ a < cfg.PHYSTOP

instance (cfg : KConfig) (a : Nat) : Decidable (ValidFrame cfg a) := by
  unfold ValidFrame; infer_instance

/-- Whether a call returned (did not panic). -/
def Outcome.returned {α : Type} : Outcome α → Bool
  | .ok _ => true
  | .panic _ _ => false

/-- The state a call ended in. -/
def Outcome.state {α : Type} : Outcome α → α
  | .ok s => s
  | .panic _ s => s

/-- The frames of the free lists `L 0, ..., L (n-1)`, shard after shard. -/
def allFree (n : Nat) (L : Nat → List Nat) : List Nat :=
  (List.range n).flatMap L

/-- The partition of the frames of the free range: `L i` is the free list of shard `i`,
`H` are the frames handed out and not yet returned; all of them are frames `kfree`
accepts, and no frame occurs twice. -/
structure Partition (cfg : KConfig) (s : KState) (L : Nat → List Nat) (H : List Nat) : Prop where
  lists : ∀ i, i < cfg.NCPU → IsFreeList s.mem (s.freelist i) (L i)
  valid : ∀ a, a ∈ allFree cfg.NCPU L ++ H → ValidFrame cfg a
  nodup : (allFree cfg.NCPU L ++ H).Nodup

/-- Number of frames that `freerange(end, PHYSTOP)` walks over. -/
def nframes (cfg : KConfig) : Nat :=
  (cfg.PHYSTOP - PGROUNDUP cfg.kernel_end) / PGSIZE

/-- States reachable from `kinit` (run on CPU `boot` over the memory `mem0`) by calls of
`kalloc` and by calls of `kfree` on frames that are currently held, on any CPU.  The
second index is the list of held frames: those returned by `kalloc` and not yet given
back. -/
inductive Reach (cfg : KConfig) (boot : Nat) (mem0 : Nat → Nat) : KState → List Nat → Prop
  | init (s : KState) : kinit cfg boot mem0 = .ok s → Reach cfg boot mem0 s []
  | alloc (s : KState) (H : List Nat) (id : Nat) :
      Reach cfg boot mem0 s H → id < cfg.NCPU → (kalloc cfg id s).1 ≠ 0 →
      Reach cfg boot mem0 (kalloc cfg id s).2 ((kalloc cfg id s).1 :: H)
  | alloc_none (s : KState) (H : List Nat) (id : Nat) :
      Reach cfg boot mem0 s H → id < cfg.NCPU → (kalloc cfg id s).1 = 0 →
      Reach cfg boot mem0 (kalloc cfg id s).2 H
  | free (s s1 : KState) (H : List Nat) (id pa : Nat) :
      Reach cfg boot mem0 s H → id < cfg.NCPU → pa ∈ H → kfree cfg id pa s = .ok s1 →
      Reach cfg boot mem0 s1 (H.erase pa)

/-- A small machine for concrete runs: two CPUs, kernel ending at `4096`, memory up to
`16384`, so three frames `4096`, `8192`, `12288`. -/
def cfg0 : KConfig := ⟨2, 4096, 16384⟩

/-- The state `kinit` leaves on `cfg0` when run on CPU 0 over zeroed memory. -/
def boot0 : KState := (kinit cfg0 0 (fun _ => 0)).state

/-- A state of `cfg0` with one free frame per shard: shard 0 holds `4096`, shard 1 holds
`8192`; all links are null. -/
def twoShards : KState :=
  { freelist := fun i => if i = 0 then 4096 else if i = 1 then 8192 else 0
    mem := fun _ => 0 }

/-- The free lists of `twoShards`. -/
def twoShardsLists : Nat → List Nat :=
  fun i => if i = 0 then [4096] else if i = 1 then [8192] else []

end Kalloc

/-!
## Buffer cache

`bio.c` keeps `NBUF` buffers `bcache.buf[i]` and `NBUCKET` sentinel nodes
`bcache.buckets[i]`, all of type `struct buf`, linked into circular doubly linked lists
by their `next`/`prev` pointers.  The embedding keeps the pointers: a `Ptr` is the address
of one of these nodes, and `Bcache.mem` maps each address to the node stored there.

The global `ticks` of `trap.c`, read by `bget` and `brelse`, is a field of the state.
Calls of primitives that live outside `bio.c` (spin-locks, sleep-locks, the disk driver)
are recorded, in call order, in the field `log`.

`NBUF` and `NBUCKET` come from `param.h`, which is not among the sources; they are the
fields of `BConfig`.  The functions take the id `pid` of the calling process, which is
what the sleep-lock compares in `holdingsleep`.  Loops that follow `next` pointers take a
bound `fuel` on the number of iterations; `Res.timeout` reports that the bound was hit.
-/

namespace Bio

/-- Sizes of the cache, from `param.h`. -/
structure BConfig where
  /-- Number of buffers in `bcache.buf`. -/
  NBUF : Nat
  /-- Number of hash buckets in `bcache.buckets`. -/
  NBUCKET : Nat

/-- Address of a `struct buf` inside `bcache`. -/
inductive Ptr where
  /-- The address `&bcache.buf[i]`. -/
  | buf (i : Nat)
  /-- The address `&bcache.buckets[i]` of a sentinel. -/
  | bucket (i : Nat)
  deriving DecidableEq, Repr

/-- Modelled from the spec: `struct buf` is declared in `buf.h`, which is not among the
sources.  The fields are the attributes the spec lists for a Buffer: `device`, `blockno`,
`valid` flag, `refcnt`, `lastuse`, a sleep-lock and the list pointers; the 1024-byte
payload is not represented.  The sleep-lock is represented by its holder: `none` when
free, `some pid` when process `pid` holds it. -/
structure Buf where
  valid : Nat
  dev : Nat
  blockno : Nat
  lock : Option Nat
  refcnt : Nat
  lastuse : Nat
  prev : Ptr
  next : Ptr

/-- Calls that leave `bio.c`, as they are logged. -/
inductive Event where
  /-- The call `acquire(&bcache.lks[i])`. -/
  | acquire (i : Nat)
  /-- The call `release(&bcache.lks[i])`. -/
  | release (i : Nat)
  /-- The call `acquiresleep(&b->lock)`. -/
  | acquiresleep (b : Ptr)
  /-- The call `releasesleep(&b->lock)`. -/
  | releasesleep (b : Ptr)
  /-- The call `virtio_disk_rw(b, write)`. -/
  | disk_rw (b : Ptr) (write : Bool)
  deriving DecidableEq, Repr

/-- The memory `bio.c` works on. -/
structure Bcache where
  /-- The nodes `bcache.buf[i]` and `bcache.buckets[i]`. -/
  mem : Ptr → Buf
  /-- The global counter `ticks` (an unsigned 32-bit integer). -/
  ticks : Nat
  /-- External calls made so far, oldest first. -/
  log : List Event

/-- How a call ends. -/
inductive Res (α : Type) where
  /-- The call returns `val`. -/
  | ok (val : α) (s : Bcache)
  /-- The call ends in `panic(msg)`. -/
  | panic (msg : String) (s : Bcache)
  /-- The call sleeps in `acquiresleep` on a lock that is held. -/
  | sleeps (s : Bcache)
  /-- The call indexes `bcache.buckets` or `bcache.lks` outside `[0, NBUCKET)`. -/
  | undefined
  /-- The iteration bound of a list traversal was reached. -/
  | timeout

/-- Memory after an assignment to fields of the node at `p`: `*p = f(*p)`. -/
def write (mem : Ptr → Buf) (p : Ptr) (f : Buf → Buf) : Ptr → Buf :=
  fun q => if q = p then f (mem p) else mem q

/-- Assignment to fields of the node at `p`, as a step of the state. -/
def modify (s : Bcache) (p : Ptr) (f : Buf → Buf) : Bcache :=
  { s with mem := write s.mem p f }

/-- Record an external call. -/
def emit (s : Bcache) (e : Event) : Bcache :=
  { s with log := s.log ++ [e] }

/-- Conversion of a `uint` argument to the `int` parameter of `myhash` (two's
complement). -/
def toInt32 (x : Nat) : Int :=
  if x % 2 ^ 32 < 2 ^ 31 then (x % 2 ^ 32 : Nat) else ((x % 2 ^ 32 : Nat) : Int) - 2 ^ 32

/-- `myhash(x)` (bio.c lines 42-46) applied to a `uint`: `x % NBUCKET` on `int`, where
`%` truncates towards zero. -/
def myhash (cfg : BConfig) (x : Nat) : Int :=
  Int.tmod (toInt32 x) (cfg.NBUCKET : Int)

/-- Whether `id` is a valid index into `bcache.buckets` and `bcache.lks`. -/
def inBounds (cfg : BConfig) (id : Int) : Prop :=
  0 ≤ id ∧ id < (cfg.NBUCKET : Int)

instance (cfg : BConfig) (id : Int) : Decidable (inBounds cfg id) := by
  unfold inBounds; infer_instance

/-- Increment of a `uint`. -/
def incr32 (x : Nat) : Nat := (x + 1) % 2 ^ 32

/-- Decrement of a `uint`. -/
def decr32 (x : Nat) : Nat := (x + 2 ^ 32 - 1) % 2 ^ 32

/-- `bufinit(b, dev, blockno)` (lines 35-41). -/
def bufinit (mem : Ptr → Buf) (b : Ptr) (dev blockno : Nat) : Ptr → Buf :=
  write mem b (fun x => { x with dev := dev, blockno := blockno, valid := 0, refcnt := 1 })

/-- Modelled from the spec: `acquiresleep` belongs to `sleeplock.c`, which is not among
the sources.  The caller obtains the lock if it is free and otherwise "blocks (sleeps)"
because "another client currently holds the sleep-lock". -/
def acquiresleep (pid : Nat) (b : Ptr) (s : Bcache) : Res Ptr :=
  let s1 := emit s (.acquiresleep b)
  match (s.mem b).lock with
  | none => .ok b (modify s1 b (fun x => { x with lock := some pid }))
  | some _ => .sleeps s1

/-- Modelled from the spec: `holdingsleep` belongs to `sleeplock.c`; it is the "`holding`
query (used in fatal precondition checks)": does the calling process hold the lock? -/
def holdingsleep (pid : Nat) (b : Ptr) (s : Bcache) : Bool :=
  (s.mem b).lock == some pid

/-- Modelled from the spec: `releasesleep` belongs to `sleeplock.c`; it frees the lock. -/
def releasesleep (b : Ptr) (s : Bcache) : Bcache :=
  modify (emit s (.releasesleep b)) b (fun x => { x with lock := none })

/-- The loop of lines 85-96: follow `next` from `b` until the sentinel `head`, looking
for `(dev, blockno)`.  `none`: iteration bound reached; `some none`: loop ran to the end;
`some (some b)`: the `if` of line 86 fired at `b`. -/
def scan_hit (mem : Ptr → Buf) (head : Ptr) (dev blockno : Nat) :
    Nat → Ptr → Option (Option Ptr)
  | 0, _ => none
  | fuel + 1, b =>
    if b = head then some none
    else if (mem b).dev = dev ∧ (mem b).blockno = blockno then some (some b)
    else scan_hit mem head dev blockno fuel (mem b).next

/-- The loops of lines 104-111 and 133-138: follow `next` from `b` until the sentinel
`head`, updating `minticks` and `victm`.  `none`: iteration bound reached; `some v`: the
loop ended with `victm = v` (`none` is the null pointer). -/
def scan_victim (mem : Ptr → Buf) (head : Ptr) :
    Nat → Ptr → Nat → Option Ptr → Option (Option Ptr)
  | 0, _, _, _ => none
  | fuel + 1, b, minticks, victm =>
    if b = head then some victm
    else if (mem b).refcnt = 0 ∧ (mem b).lastuse ≤ minticks then
      scan_victim mem head fuel (mem b).next (mem b).lastuse (some b)
    else scan_victim mem head fuel (mem b).next minticks victm

/-- Lines 146-147: take `v` out of its list.
`victm->next->prev = victm->prev; victm->prev->next = victm->next;` -/
def unlink (mem : Ptr → Buf) (v : Ptr) : Ptr → Buf :=
  let m1 := write mem (mem v).next (fun x => { x with prev := (mem v).prev })
  write m1 (m1 v).prev (fun x => { x with next := (m1 v).next })

/-- Lines 152-157: put `v` at the head of bucket `id`. -/
def insert_head (mem : Ptr → Buf) (id : Nat) (v : Ptr) : Ptr → Buf :=
  -- victm->next = bcache.buckets[id].next
  let m1 := write mem v (fun x => { x with next := (mem (.bucket id)).next })
  -- bcache.buckets[id].next->prev = victm
  let m2 := write m1 (m1 (.bucket id)).next (fun x => { x with prev := v })
  -- bcache.buckets[id].next = victm
  let m3 := write m2 (.bucket id) (fun x => { x with next := v })
  -- victm->prev = &bcache.buckets[id]
  write m3 v (fun x => { x with prev := .bucket id })

/-- The steal loop of `bget` (lines 126-163), entered with `victm = 0` while the lock of
the home bucket `id` is held.  The first numeric argument counts the iterations that
remain (`NBUCKET - i`). -/
def bget_steal (fuel pid dev blockno id : Nat) : Nat → Nat → Bcache → Res Ptr
  | 0, _, s => .panic "bget: no buf" (emit s (.release id))
  | n + 1, i, s =>
    if i = id then bget_steal fuel pid dev blockno id n (i + 1) s
    else
      let s1 := emit s (.acquire i)
      match scan_victim s1.mem (.bucket i) fuel (s1.mem (.bucket i)).next s1.ticks none with
      | none => .timeout
      | some none => bget_steal fuel pid dev blockno id n (i + 1) (emit s1 (.release i))
      | some (some v) =>
        let s2 := { s1 with mem := bufinit s1.mem v dev blockno }
        let s3 := { s2 with mem := unlink s2.mem v }
        let s4 := emit s3 (.release i)
        let s5 := { s4 with mem := insert_head s4.mem id v }
        let s6 := emit s5 (.release id)
        acquiresleep pid v s6

/-- `bget(dev, blockno)` (lines 76-164), called by process `pid`. -/
def bget (cfg : BConfig) (fuel pid dev blockno : Nat) (s : Bcache) : Res Ptr :=
  if ¬ inBounds cfg (myhash cfg blockno) then .undefined
  else
    let id := (myhash cfg blockno).toNat
    let s1 := emit s (.acquire id)
    match scan_hit s1.mem (.bucket id) dev blockno fuel (s1.mem (.bucket id)).next with
    | none => .timeout
    | some (some b) =>
      let s2 := modify s1 b (fun x => { x with refcnt := incr32 x.refcnt })
      acquiresleep pid b (emit s2 (.release id))
    | some none =>
      match scan_victim s1.mem (.bucket id) fuel (s1.mem (.bucket id)).next s1.ticks none with
      | none => .timeout
      | some (some v) =>
        let s2 := { s1 with mem := bufinit s1.mem v dev blockno }
        acquiresleep pid v (emit s2 (.release id))
      | some none => bget_steal fuel pid dev blockno id cfg.NBUCKET 0 s1

/-- `bread(dev, blockno)` (lines 167-178), called by process `pid`.  The disk driver is
outside `bio.c`; the call `virtio_disk_rw(b, 0)` is logged. -/
def bread (cfg : BConfig) (fuel pid dev blockno : Nat) (s : Bcache) : Res Ptr :=
  match bget cfg fuel pid dev blockno s with
  | .ok b s1 =>
    if (s1.mem b).valid = 0 then
      .ok b (modify (emit s1 (.disk_rw b false)) b (fun x => { x with valid := 1 }))
    else .ok b s1
  | r => r

/-- `brelse(b)` (lines 191-220), called by process `pid`. -/
def brelse (cfg : BConfig) (pid : Nat) (b : Ptr) (s : Bcache) : Res Unit :=
  if ¬ holdingsleep pid b s then .panic "brelse" s
  else
    let s1 := releasesleep b s
    if ¬ inBounds cfg (myhash cfg (s1.mem b).blockno) then .undefined
    else
      let id := (myhash cfg (s1.mem b).blockno).toNat
      let s2 := emit s1 (.acquire id)
      let s3 := modify s2 b (fun x => { x with refcnt := decr32 x.refcnt })
      let s4 := if (s3.mem b).refcnt = 0 then modify s3 b (fun x => { x with lastuse := s3.ticks })
                else s3
      .ok () (emit s4 (.release id))

/-- `bpin(b)` (lines 225-230). -/
def bpin (cfg : BConfig) (b : Ptr) (s : Bcache) : Res Unit :=
  if ¬ inBounds cfg (myhash cfg (s.mem b).blockno) then .undefined
  else
    let id := (myhash cfg (s.mem b).blockno).toNat
    let s1 := emit s (.acquire id)
    let s2 := modify s1 b (fun x => { x with refcnt := incr32 x.refcnt })
    .ok () (emit s2 (.release id))

/-- `bunpin(b)` (lines 232-237). -/
def bunpin (cfg : BConfig) (b : Ptr) (s : Bcache) : Res Unit :=
  if ¬ inBounds cfg (myhash cfg (s.mem b).blockno) then .undefined
  else
    let id := (myhash cfg (s.mem b).blockno).toNat
    let s1 := emit s (.acquire id)
    let s2 := modify s1 b (fun x => { x with refcnt := decr32 x.refcnt })
    .ok () (emit s2 (.release id))

/-- `clockintr()` of `trap.c` (lines 195-202), as far as `bio.c` sees it: `ticks++` on an
unsigned 32-bit counter. -/
def clockintr (s : Bcache) : Bcache :=
  { s with ticks := incr32 s.ticks }

/-- A `struct buf` in zero-initialised memory.  The pointer fields are never read before
`binit` assigns them; they are given the address of `bcache.buckets[0]`. -/
def zeroBuf : Buf :=
  { valid := 0, dev := 0, blockno := 0, lock := none, refcnt := 0, lastuse := 0,
    prev := .bucket 0, next := .bucket 0 }

/-- The state of `bcache` and `ticks` at boot, before `binit`. -/
def zeroed : Bcache :=
  { mem := fun _ => zeroBuf, ticks := 0, log := [] }

/-- Body of the loop of lines 59-62 for index `i`. -/
def binit_bucket (mem : Ptr → Buf) (i : Nat) : Ptr → Buf :=
  let m1 := write mem (.bucket i) (fun x => { x with prev := .bucket i })
  write m1 (.bucket i) (fun x => { x with next := .bucket i })

/-- Body of the loop of lines 64-70 for `b = &bcache.buf[i]`.  `initsleeplock` leaves the
lock free. -/
def binit_buf (mem : Ptr → Buf) (i : Nat) : Ptr → Buf :=
  let b := Ptr.buf i
  let m1 := write mem b (fun x => { x with next := (mem (.bucket 0)).next })
  let m2 := write m1 b (fun x => { x with prev := .bucket 0 })
  let m3 := write m2 b (fun x => { x with lock := none })
  let m4 := write m3 (m3 (.bucket 0)).next (fun x => { x with prev := b })
  write m4 (.bucket 0) (fun x => { x with next := b })

/-- `binit()` (lines 50-71), run on the state `s`.  It uses `bcache.buckets[0]`, so it
needs `NBUCKET ≥ 1`. -/
def binit (cfg : BConfig) (s : Bcache) : Bcache :=
  let m1 := (List.range cfg.NBUCKET).foldl binit_bucket s.mem
  { s with mem := (List.range cfg.NBUF).foldl binit_buf m1 }

/-! ### The lists behind the pointers -/

/-- The `next` pointers lead from `p` through the buffers `l`, in order, to `q`, and the
`prev` pointers lead back the same way. -/
def IsChain (mem : Ptr → Buf) : Ptr → List Nat → Ptr → Prop
  | p, [], q => (mem p).next = q ∧ (mem q).prev = p
  | p, i :: l, q => (mem p).next = .buf i ∧ (mem (.buf i)).prev = p ∧ IsChain mem (.buf i) l q

instance (mem : Ptr → Buf) : ∀ p l q, Decidable (IsChain mem p l q)
  | p, [], q => by unfold IsChain; infer_instance
  | p, i :: l, q => by
    unfold IsChain
    have := instDecidableIsChain mem (.buf i) l q
    infer_instance

/-- The last node of the chain that starts at `p` and runs through `l`. -/
def lastPtr : Ptr → List Nat → Ptr
  | p, [] => p
  | _, i :: l => lastPtr (.buf i) l

/-- The first node of the chain through `l` that ends at `q`. -/
def firstPtr : List Nat → Ptr → Ptr
  | [], q => q
  | i :: _, _ => .buf i

/-- Two nodes agree on every field other than the list pointers. -/
def SameData (a b : Buf) : Prop :=
  a.valid = b.valid ∧ a.dev = b.dev ∧ a.blockno = b.blockno ∧ a.lock = b.lock ∧
  a.refcnt = b.refcnt ∧ a.lastuse = b.lastuse

/-- Two nodes agree on the fields `valid`, `dev`, `blockno` and `refcnt`. -/
def SameKey (a b : Buf) : Prop :=
  a.valid = b.valid ∧ a.dev = b.dev ∧ a.blockno = b.blockno ∧ a.refcnt = b.refcnt

/-- Bucket `k` is a circular doubly linked list through its sentinel whose members are
the buffers `l`, in traversal order. -/
def IsBucket (mem : Ptr → Buf) (k : Nat) (l : List Nat) : Prop :=
  IsChain mem (.bucket k) l (.bucket k)

instance (mem : Ptr → Buf) (k : Nat) (l : List Nat) : Decidable (IsBucket mem k l) := by
  unfold IsBucket; infer_instance

/-- The members of buckets `0, ..., n-1`, bucket after bucket. -/
def allBufs (n : Nat) (L : Nat → List Nat) : List Nat :=
  (List.range n).flatMap L

/-- Structural well-formedness of the cache: every bucket is a circular doubly linked
list with members `L k`, and each of the `NBUF` buffers is a member of exactly one
bucket, exactly once. -/
structure WF (cfg : BConfig) (mem : Ptr → Buf) (L : Nat → List Nat) : Prop where
  buckets : ∀ k, k < cfg.NBUCKET → IsBucket mem k (L k)
  nodup : (allBufs cfg.NBUCKET L).Nodup
  cover : ∀ i, i ∈ allBufs cfg.NBUCKET L ↔ i < cfg.NBUF

/-- The `valid` field of every buffer is a flag, 0 or 1.  `bio.c` stores no other value
in it (`bufinit` stores 0, `bread` stores 1, boot memory is zero), so the property holds
in every reachable state. -/
def ValidFlags (cfg : BConfig) (mem : Ptr → Buf) : Prop :=
  ∀ i, i < cfg.NBUF → (mem (.buf i)).valid ≤ 1

/-- Does buffer `i` carry the key `(dev, blockno)`? (the test of line 86) -/
def isKey (mem : Ptr → Buf) (dev blockno : Nat) (i : Nat) : Bool :=
  decide ((mem (.buf i)).dev = dev ∧ (mem (.buf i)).blockno = blockno)

/-- What the loop of lines 104-111 computes on a list of buffers: the running
`victm`, starting from `minticks = m` and `victm = v`. -/
def pickVictim (mem : Ptr → Buf) : List Nat → Nat → Option Nat → Option Nat
  | [], _, v => v
  | i :: l, m, v =>
    if (mem (.buf i)).refcnt = 0 ∧ (mem (.buf i)).lastuse ≤ m then
      pickVictim mem l (mem (.buf i)).lastuse (some i)
    else pickVictim mem l m v

/-- The state a call ended in, if it ended in one. -/
def Res.state? {α : Type} : Res α → Option Bcache
  | .ok _ s => some s
  | .panic _ s => some s
  | .sleeps s => some s
  | .undefined => none
  | .timeout => none

/-- The state a call ended in, or the boot state if it ended in none. -/
def Res.stateD {α : Type} (r : Res α) : Bcache :=
  match r.state? with
  | some s => s
  | none => { mem := fun _ => zeroBuf, ticks := 0, log := [] }

/-- Is the event a call of the disk driver? -/
def Event.isDisk : Event → Bool
  | .disk_rw _ _ => true
  | _ => false

/-! ### Buffer uniqueness -/

/-- Buffers `a` and `b` carry the same key `(dev, blockno)`. -/
def SameBlock (mem : Ptr → Buf) (a b : Nat) : Prop :=
  (mem (.buf a)).dev = (mem (.buf b)).dev ∧ (mem (.buf a)).blockno = (mem (.buf b)).blockno

instance (mem : Ptr → Buf) (a b : Nat) : Decidable (SameBlock mem a b) := by
  unfold SameBlock; infer_instance

/-- Buffer `i` is in use: valid, referenced or locked. -/
def Active (mem : Ptr → Buf) (i : Nat) : Prop :=
  (mem (.buf i)).valid ≠ 0 ∨ (mem (.buf i)).refcnt ≠ 0 ∨ (mem (.buf i)).lock ≠ none

/-- Property P3: for every key at most one of the `NBUF` buffers has that key together
with `valid = 1` or `refcnt > 0`. -/
def P3 (cfg : BConfig) (mem : Ptr → Buf) : Prop :=
  ∀ i j, i < cfg.NBUF → j < cfg.NBUF → SameBlock mem i j →
    ((mem (.buf i)).valid = 1 ∨ 0 < (mem (.buf i)).refcnt) →
    ((mem (.buf j)).valid = 1 ∨ 0 < (mem (.buf j)).refcnt) → i = j

/-- The invariant behind P3, for a cache whose buffers `R` have been handed out by `bget`
so far: the cache is well-formed, every buffer sits in the bucket its block number hashes
to, every pointer handed out is one of the `NBUF` buffers, and a buffer that is in use or
has been handed out is the first member of its bucket with its key. -/
structure Inv (cfg : BConfig) (mem : Ptr → Buf) (L : Nat → List Nat) (R : List Ptr) : Prop where
  wf : WF cfg mem L
  homed : ∀ k, k < cfg.NBUCKET → ∀ i, i ∈ L k → myhash cfg (mem (.buf i)).blockno = (k : Int)
  pool : ∀ p, p ∈ R → ∃ i, i < cfg.NBUF ∧ p = .buf i
  first : ∀ k, k < cfg.NBUCKET →
    (L k).Pairwise (fun a b => (Active mem b ∨ Ptr.buf b ∈ R) → ¬ SameBlock mem a b)

/-- States reachable from `binit` (run on the boot state) by timer ticks and by returning
calls of `bget`, `bread`, `brelse`, `bpin` and `bunpin`, together with the list of the
buffer pointers that `bget` and `bread` have returned so far.  `brelse` and `bunpin` are
called on pointers obtained from `bget` or `bread`, and a returning `brelse` is one whose
caller held the sleep-lock.  With `pinAny = false` the same holds for `bpin`; with
`pinAny = true` a `bpin` may be given the address of any node.  Calls that walk lists get
an iteration bound above `NBUF`, which is enough for every well-formed list. -/
inductive Reach (cfg : BConfig) (pinAny : Bool) : Bcache → List Ptr → Prop
  | init : Reach cfg pinAny (binit cfg zeroed) []
  | tick (s : Bcache) (R : List Ptr) : Reach cfg pinAny s R → Reach cfg pinAny (clockintr s) R
  | bget (s s1 : Bcache) (R : List Ptr) (fuel pid dev blockno : Nat) (p : Ptr) :
      Reach cfg pinAny s R → cfg.NBUF < fuel → bget cfg fuel pid dev blockno s = .ok p s1 →
      Reach cfg pinAny s1 (p :: R)
  | bread (s s1 : Bcache) (R : List Ptr) (fuel pid dev blockno : Nat) (p : Ptr) :
      Reach cfg pinAny s R → cfg.NBUF < fuel → bread cfg fuel pid dev blockno s = .ok p s1 →
      Reach cfg pinAny s1 (p :: R)
  | brelse (s s1 : Bcache) (R : List Ptr) (pid : Nat) (p : Ptr) :
      Reach cfg pinAny s R → p ∈ R → brelse cfg pid p s = .ok () s1 →
      Reach cfg pinAny s1 R
  | bpin (s s1 : Bcache) (R : List Ptr) (p : Ptr) :
      Reach cfg pinAny s R → (pinAny = true ∨ p ∈ R) →
      bpin cfg p s = .ok () s1 → Reach cfg pinAny s1 R
  | bunpin (s s1 : Bcache) (R : List Ptr) (p : Ptr) :
      Reach cfg pinAny s R → p ∈ R →
      bunpin cfg p s = .ok () s1 → Reach cfg pinAny s1 R

/-- The bucket lists `binit` produces: every buffer in bucket 0, last buffer first. -/
def initLists (cfg : BConfig) : Nat → List Nat :=
  fun k => if k = 0 then (List.range cfg.NBUF).reverse else []

/-- A node as `binit` leaves it, up to the list pointers: all fields zero, lock free. -/
def Pristine (x : Buf) : Prop :=
  x.valid = 0 ∧ x.dev = 0 ∧ x.blockno = 0 ∧ x.lock = none ∧ x.refcnt = 0 ∧ x.lastuse = 0

/-- Two buffers and two buckets, the configuration of scenario 3. -/
def c22 : BConfig := ⟨2, 2⟩

/-- The cache of `c22` after `binit`. -/
def st0 : Bcache := binit c22 zeroed

/-- The cache of `c22` after `binit` and `bread(1, 1)` by process 7: buffer 0 was stolen
into bucket 1 and is held. -/
def st1 : Bcache := (bread c22 3 7 1 1 st0).stateD

/-- The cache of `c22` after `binit` and `bpin` of buffer 0, which nobody holds. -/
def stPin : Bcache := (bpin c22 (.buf 0) st0).stateD

/-- The cache of `c22` after `binit`, `bpin` of buffer 0 and `bread(0, 0)` by process 7. -/
def stTwo : Bcache := (bread c22 3 7 0 0 stPin).stateD

/-- The lists of `st1`: buffer 1 in bucket 0, buffer 0 in bucket 1. -/
def st1Lists : Nat → List Nat :=
  fun k => if k = 0 then [1] else if k = 1 then [0] else []

/-! ### Lock discipline -/

/-- The bucket spin-locks the caller holds after one more logged call:
`acquire(&bcache.lks[i])` adds `i` in front, `release(&bcache.lks[i])` removes `i`, the
other calls leave the set alone. -/
def lockStep (held : List Nat) : Event → List Nat
  | .acquire i => i :: held
  | .release i => held.erase i
  | _ => held

/-- The bucket spin-locks held after the calls `es`, for a caller that held `held`
before them. -/
def heldAfter : List Nat → List Event → List Nat
  | held, [] => held
  | held, e :: es => heldAfter (lockStep held e) es

/-- The sets of bucket spin-locks a call of `bget` with home bucket `home` may hold:
none, the home lock alone, or the home lock and on top of it the lock of one candidate
bucket other than `home`. -/
def Allowed (home : Nat) : List Nat → Prop
  | [] => True
  | [a] => a = home
  | [c, a] => a = home ∧ c ≠ home
  | _ => False

/-- The calls `es`, made by a caller holding `held`, keep the held set allowed at every
point and call `acquiresleep` only when no spin-lock is held. -/
def Discipline (home : Nat) : List Nat → List Event → Prop
  | held, [] => Allowed home held
  | held, e :: es =>
    Allowed home held ∧ (∀ b, e = .acquiresleep b → held = []) ∧
    Discipline home (lockStep held e) es

/-! ### Scenario runs -/

/-- The scenario step "read/release": `bread(dev, blockno)` by process `pid` followed,
when it returns, by `brelse` of the returned buffer by the same process.  The result is
the state at the end. -/
def readRelease (cfg : BConfig) (fuel pid dev blockno : Nat) (s : Bcache) : Bcache :=
  match bread cfg fuel pid dev blockno s with
  | .ok b s1 => (brelse cfg pid b s1).stateD
  | r => r.stateD

/-- Scenario 3 on `c22`, after `binit` and `read/release (1,1)`. -/
def sc1 : Bcache := readRelease c22 3 7 1 1 st0

/-- Scenario 3 after `read/release (1,1)` and `read/release (1,3)`. -/
def sc2 : Bcache := readRelease c22 3 7 1 3 sc1

/-- Scenario 3 after the last step, `read (1,0)`. -/
def sc3 : Bcache := (bread c22 3 7 1 0 sc2).stateD

/-- The bucket lists of `sc1`, `sc2` and `sc3`: buffer 1 in bucket 0, buffer 0 in
bucket 1. -/
def scLists : Nat → List Nat :=
  fun k => if k = 0 then [1] else if k = 1 then [0] else []

/-- On `c22`: `binit`, one timer tick, `read/release (1,1)`.  Buffer 0 is in bucket 1
with `lastuse = 1`. -/
def wrapA1 : Bcache := readRelease c22 3 7 1 1 (clockintr st0)

/-- On `c22`: `wrapA1`, then `read/release (1,0)`.  Both buffers are idle with
`lastuse = 1`; `ticks` is 1. -/
def wrapA2 : Bcache := readRelease c22 3 7 1 0 wrapA1

/-- The state `wrapA2` after `2^32 - 1` more timer ticks: `ticks` has wrapped to 0. -/
def wrapA : Bcache := { wrapA2 with ticks := 0 }

/-- Two buffers and three buckets. -/
def c23 : BConfig := ⟨2, 3⟩

/-- On `c23`: `binit`, `read/release (1,1)`, one timer tick.  Buffer 0 is in bucket 1
with `lastuse = 0`; `ticks` is 1. -/
def wrapB1 : Bcache := clockintr (readRelease c23 3 7 1 1 (binit c23 zeroed))

/-- On `c23`: `wrapB1`, then `read/release (1,0)`.  Buffer 1 is in bucket 0 with
`lastuse = 1`. -/
def wrapB2 : Bcache := readRelease c23 3 7 1 0 wrapB1

/-- The state `wrapB2` after `2^32 - 1` more timer ticks: `ticks` has wrapped to 0.
Bucket 0 holds buffer 1 (idle, `lastuse = 1`), bucket 1 holds buffer 0 (idle,
`lastuse = 0`), bucket 2 is empty. -/
def wrapB : Bcache := { wrapB2 with ticks := 0 }

/-! ### Bucket membership -/

/-- Every buffer of the bucket lists `L` sits in the bucket whose index is `myhash` of
its block number. -/
def Homed (cfg : BConfig) (mem : Ptr → Buf) (L : Nat → List Nat) : Prop :=
  ∀ k, k < cfg.NBUCKET → ∀ i, i ∈ L k → myhash cfg (mem (.buf i)).blockno = (k : Int)

/-- States reachable from `binit` (run on the boot state) by timer ticks and by calls of
`bget`, `bread`, `brelse`, `bpin` and `bunpin` with any arguments, each call ending in a
state: by returning, by going to sleep in `acquiresleep`, or in a panic.  Calls that walk
lists get an iteration bound above `NBUF`, which is enough for every well-formed list. -/
inductive Run (cfg : BConfig) : Bcache → Prop
  | init : Run cfg (binit cfg zeroed)
  | tick (s : Bcache) : Run cfg s → Run cfg (clockintr s)
  | bget (s s1 : Bcache) (fuel pid dev blockno : Nat) :
      Run cfg s → cfg.NBUF < fuel → (bget cfg fuel pid dev blockno s).state? = some s1 →
      Run cfg s1
  | bread (s s1 : Bcache) (fuel pid dev blockno : Nat) :
      Run cfg s → cfg.NBUF < fuel → (bread cfg fuel pid dev blockno s).state? = some s1 →
      Run cfg s1
  | brelse (s s1 : Bcache) (pid : Nat) (p : Ptr) :
      Run cfg s → (brelse cfg pid p s).state? = some s1 → Run cfg s1
  | bpin (s s1 : Bcache) (p : Ptr) :
      Run cfg s → (bpin cfg p s).state? = some s1 → Run cfg s1
  | bunpin (s s1 : Bcache) (p : Ptr) :
      Run cfg s → (bunpin cfg p s).state? = some s1 → Run cfg s1

/-! ### Bucket index -/

/-- The sizes used for concrete values of the hash: 30 buffers and the 13 buckets the
specification suggests as default. -/
def c13 : BConfig := ⟨30, 13⟩

/-! ### A reference count at the top of its range -/

/-- On `c22`: `binit`, `bread(1, 1)` by process 7, then `bunpin` and `brelse` of the
returned buffer.  Buffer 0 carries the key `(1, 1)` with `valid = 1`, its sleep-lock is
free and its `refcnt`, decremented twice from 1, is `2^32 - 1`.  (The same contents
arise without `bunpin`, from `bread`, `2^32 - 1` calls of `bpin` and `brelse`.) -/
def stTop : Bcache := (brelse c22 7 (.buf 0) (bunpin c22 (.buf 0) st1).stateD).stateD

end Bio

namespace Kalloc

/-! ### Basic facts about the steal loop and `kalloc` -/

theorem kalloc_steal_zero_iff (id : Nat) (s : KState) (n i : Nat) :
    (kalloc_steal id s n i).1 = 0 ↔ ∀ j, i ≤ j → j < i + n → j ≠ id → s.freelist j = 0 := by
  induction n generalizing i with
  | zero =>
    simp only [kalloc_steal, true_iff]
    intro j h1 h2; omega
  | succ n ih =>
    unfold kalloc_steal
    by_cases hi : i = id
    · simp only [hi, if_true]
      rw [ih]
      constructor
      · intro h j h1 h2 h3
        exact h j (by omega) (by omega) h3
      · intro h j h1 h2 h3
        exact h j (by omega) (by omega) h3
    · simp only [hi, if_false]
      by_cases h0 : s.freelist i = 0
      · simp only [h0, if_true]
        rw [ih]
        constructor
        · intro h j h1 h2 h3
          by_cases hj : j = i
          · rw [hj]; exact h0
          · exact h j (by omega) (by omega) h3
        · intro h j h1 h2 h3
          exact h j (by omega) (by omega) h3
      · rw [if_neg h0]
        constructor
        · intro h; exact absurd h h0
        · intro h; exact h i (le_refl _) (by omega) hi

theorem kalloc_steal_zero_state (id : Nat) (s : KState) (n i : Nat)
    (h : (kalloc_steal id s n i).1 = 0) : (kalloc_steal id s n i).2 = s := by
  induction n generalizing i with
  | zero => simp only [kalloc_steal]
  | succ n ih =>
    unfold kalloc_steal at h ⊢
    by_cases hi : i = id
    · simp only [hi, if_true] at h ⊢
      exact ih _ h
    · simp only [hi, if_false] at h ⊢
      by_cases h0 : s.freelist i = 0
      · simp only [h0, if_true] at h ⊢
        exact ih _ h
      · rw [if_neg h0] at h
        exact absurd h h0

theorem kalloc_home (cfg : KConfig) (id : Nat) (s : KState) (h : s.freelist id ≠ 0) :
    kalloc cfg id s =
      (s.freelist id,
        { freelist := setHead s.freelist id (s.mem (s.freelist id))
          mem := memset s.mem (s.freelist id) 5 PGSIZE }) := by
  simp only [kalloc, if_pos h]

theorem kalloc_away (cfg : KConfig) (id : Nat) (s : KState) (h : s.freelist id = 0) :
    kalloc cfg id s =
      if (kalloc_steal id s cfg.NCPU 0).1 ≠ 0 then
        ((kalloc_steal id s cfg.NCPU 0).1,
          { freelist := (kalloc_steal id s cfg.NCPU 0).2.freelist
            mem := memset (kalloc_steal id s cfg.NCPU 0).2.mem
              (kalloc_steal id s cfg.NCPU 0).1 5 PGSIZE })
      else kalloc_steal id s cfg.NCPU 0 := by
  simp only [kalloc, h, ne_eq, not_true_eq_false, if_false]

/-- C1. On every allocator state and every CPU id below `NCPU`, `kalloc` returns the null
pointer exactly when the free list of every shard is empty, and a call that returns null
leaves the whole allocator state (all heads and all of memory) as it was.  `kalloc` has no
panic: it is a total function that always returns. -/
theorem kalloc_null_iff_all_empty (cfg : KConfig) (id : Nat) (s : KState)
    (hid : id < cfg.NCPU) :
    ((kalloc cfg id s).1 = 0 ↔ ∀ i, i < cfg.NCPU → IsFreeList s.mem (s.freelist i) []) ∧
    ((kalloc cfg id s).1 = 0 → (kalloc cfg id s).2 = s) := by
  have key : (kalloc cfg id s).1 = 0 ↔
      (s.freelist id = 0 ∧ (kalloc_steal id s cfg.NCPU 0).1 = 0) := by
    by_cases hr : s.freelist id = 0
    · rw [kalloc_away cfg id s hr]
      by_cases hp : (kalloc_steal id s cfg.NCPU 0).1 = 0
      · simp [hp, hr]
      · simp [hp]
    · rw [kalloc_home cfg id s hr]
      simp [hr]
  constructor
  · rw [key, kalloc_steal_zero_iff]
    simp only [IsFreeList]
    constructor
    · rintro ⟨h1, h2⟩ i hi
      by_cases hie : i = id
      · rw [hie]; exact h1
      · exact h2 i (Nat.zero_le _) (by omega) hie
    · intro h
      exact ⟨h id hid, fun j _ h2 _ => h j (by omega)⟩
  · intro h
    have h2 := key.mp h
    rw [kalloc_away cfg id s h2.1]
    simp only [h2.2, ne_eq, not_true_eq_false, if_false]
    exact kalloc_steal_zero_state id s cfg.NCPU 0 h2.2

/-- Witness for C1: two CPUs, both shards empty, call on CPU 1. -/
theorem kalloc_null_iff_all_empty_witness :
    (1 < 2) ∧
    (((kalloc ⟨2, 4096, 16384⟩ 1 ⟨fun _ => 0, fun _ => 0⟩).1 = 0 ↔
        ∀ i, i < 2 → IsFreeList (fun _ => 0) ((fun _ => 0) i) []) ∧
      ((kalloc ⟨2, 4096, 16384⟩ 1 ⟨fun _ => 0, fun _ => 0⟩).1 = 0 →
        (kalloc ⟨2, 4096, 16384⟩ 1 ⟨fun _ => 0, fun _ => 0⟩).2 = ⟨fun _ => 0, fun _ => 0⟩)) :=
  ⟨by decide, kalloc_null_iff_all_empty ⟨2, 4096, 16384⟩ 1 ⟨fun _ => 0, fun _ => 0⟩ (by decide)⟩

/-- C3. If `pa` is not a multiple of `PGSIZE`, or lies below `end`, or at or above
`PHYSTOP`, then `kfree(pa)` panics with the message "kfree", and the state at the halt is
the state of the call: no head pointer and no word of memory was written. -/
theorem kfree_invalid_panics (cfg : KConfig) (id pa : Nat) (s : KState)
    (h : pa % PGSIZE ≠ 0 ∨ pa < cfg.kernel_end ∨ cfg.PHYSTOP ≤ pa) :
    kfree cfg id pa s = .panic "kfree" s := by
  unfold kfree
  rw [if_pos h]

/-- Witness for C3: a misaligned address. -/
theorem kfree_invalid_panics_witness :
    (4100 % PGSIZE ≠ 0 ∨ 4100 < 4096 ∨ 16384 ≤ 4100) ∧
    kfree ⟨2, 4096, 16384⟩ 0 4100 ⟨fun _ => 0, fun _ => 0⟩
      = .panic "kfree" ⟨fun _ => 0, fun _ => 0⟩ :=
  ⟨by decide, kfree_invalid_panics ⟨2, 4096, 16384⟩ 0 4100 ⟨fun _ => 0, fun _ => 0⟩ (by decide)⟩

/-! ### Chains of links and stores that do not touch them -/

theorem isFreeList_congr (mem mem1 : Nat → Nat) (l : List Nat) (h : Nat)
    (hm : ∀ a, a ∈ l → mem1 a = mem a) (hl : IsFreeList mem h l) : IsFreeList mem1 h l := by
  induction l generalizing h with
  | nil => exact hl
  | cons a l ih =>
    obtain ⟨h1, h2, h3⟩ := hl
    refine ⟨h1, h2, ?_⟩
    rw [hm a (List.mem_cons_self a l)]
    exact ih _ (fun x hx => hm x (List.mem_cons_of_mem a hx)) h3

theorem isFreeList_unique (mem : Nat → Nat) (l1 l2 : List Nat) (h : Nat)
    (h1 : IsFreeList mem h l1) (h2 : IsFreeList mem h l2) : l1 = l2 := by
  induction l1 generalizing h l2 with
  | nil =>
    cases l2 with
    | nil => rfl
    | cons b l2 =>
      obtain ⟨e, ne, _⟩ := h2
      exact absurd (e.symm.trans h1) ne
  | cons a l1 ih =>
    cases l2 with
    | nil =>
      obtain ⟨e, ne, _⟩ := h1
      exact absurd (e.symm.trans h2) ne
    | cons b l2 =>
      obtain ⟨e1, _, t1⟩ := h1
      obtain ⟨e2, _, t2⟩ := h2
      have hab : a = b := e1.symm.trans e2
      subst hab
      rw [ih l2 _ t1 t2]

theorem kfree_valid (cfg : KConfig) (id pa : Nat) (s : KState) (h : ValidFrame cfg pa) :
    kfree cfg id pa s =
      .ok { freelist := setHead s.freelist id pa
            mem := store (memset s.mem pa 1 PGSIZE) pa (s.freelist id) } := by
  obtain ⟨h1, h2, h3⟩ := h
  unfold kfree
  rw [if_neg]
  intro hc
  rcases hc with hc | hc | hc
  · exact hc h1
  · exact absurd h2 (Nat.not_le.mpr hc)
  · exact absurd hc (Nat.not_le.mpr h3)

/-- The lists after a push of `pa` on shard `id`, when frame `pa` holds no node of a list. -/
theorem kfree_lists (cfg : KConfig) (id pa : Nat) (s : KState) (L : Nat → List Nat)
    (hpa : pa ≠ 0)
    (hL : ∀ i, i < cfg.NCPU → IsFreeList s.mem (s.freelist i) (L i))
    (hfresh : ∀ i, i < cfg.NCPU → ∀ a, a ∈ L i → ¬ (pa ≤ a ∧ a < pa + PGSIZE)) :
    ∀ j, j < cfg.NCPU →
      IsFreeList (store (memset s.mem pa 1 PGSIZE) pa (s.freelist id))
        (setHead s.freelist id pa j) (Function.update L id (pa :: L id) j) := by
  have hmem : ∀ i, i < cfg.NCPU → ∀ a, a ∈ L i →
      store (memset s.mem pa 1 PGSIZE) pa (s.freelist id) a = s.mem a := by
    intro i hi a ha
    have hf := hfresh i hi a ha
    have hne : a ≠ pa := by
      intro e
      apply hf
      rw [e]
      exact ⟨le_refl _, by unfold PGSIZE; omega⟩
    simp only [store, memset, if_neg hne, if_neg hf]
  intro j hj
  by_cases hji : j = id
  · subst hji
    simp only [setHead, if_true, Function.update_same]
    refine ⟨rfl, hpa, ?_⟩
    have : store (memset s.mem pa 1 PGSIZE) pa (s.freelist j) pa = s.freelist j := by
      simp only [store, if_true]
    rw [this]
    exact isFreeList_congr _ _ _ _ (hmem j hj) (hL j hj)
  · simp only [setHead, if_neg hji, Function.update_noteq hji]
    exact isFreeList_congr _ _ _ _ (hmem j hj) (hL j hj)

/-! ### The frames of all shards under a change of one list -/

theorem allFree_succ (n : Nat) (L : Nat → List Nat) :
    allFree (n + 1) L = allFree n L ++ L n := by
  unfold allFree
  rw [List.range_succ, List.flatMap_append, List.flatMap_singleton]

theorem allFree_update_ge (n j : Nat) (L : Nat → List Nat) (l : List Nat) (h : n ≤ j) :
    allFree n (Function.update L j l) = allFree n L := by
  unfold allFree
  apply List.flatMap_congr
  intro x hx
  have hxn : x < n := List.mem_range.mp hx
  have hne : x ≠ j := by omega
  rw [Function.update_noteq hne]

theorem allFree_update_cons (n j a : Nat) (L : Nat → List Nat) (h : j < n) :
    List.Perm (allFree n (Function.update L j (a :: L j))) (a :: allFree n L) := by
  induction n with
  | zero => omega
  | succ n ih =>
    rw [allFree_succ, allFree_succ]
    by_cases hj : j = n
    · subst hj
      rw [allFree_update_ge _ _ _ _ (le_refl _), Function.update_same]
      exact List.perm_middle
    · rw [Function.update_noteq (Ne.symm hj)]
      exact List.Perm.append_right (L n) (ih (by omega))

theorem allFree_update_tail (n j r : Nat) (t : List Nat) (L : Nat → List Nat) (h : j < n)
    (hj : L j = r :: t) :
    List.Perm (allFree n L) (r :: allFree n (Function.update L j t)) := by
  have h1 := allFree_update_cons n j r (Function.update L j t) h
  have h2 : Function.update (Function.update L j t) j (r :: Function.update L j t j) = L := by
    funext k
    by_cases hk : k = j
    · subst hk; simp [hj]
    · simp [Function.update_noteq hk]
  rw [h2] at h1
  exact h1

theorem mem_allFree (n : Nat) (L : Nat → List Nat) (a : Nat) :
    a ∈ allFree n L ↔ ∃ i, i < n ∧ a ∈ L i := by
  unfold allFree
  rw [List.mem_flatMap]
  constructor
  · rintro ⟨i, hi, ha⟩
    exact ⟨i, List.mem_range.mp hi, ha⟩
  · rintro ⟨i, hi, ha⟩
    exact ⟨i, List.mem_range.mpr hi, ha⟩

/-- What the steal loop does, in terms of the head pointers: nothing when every shard it
looks at is empty, otherwise it pops the head of the first non-empty shard other than
`id`. -/
theorem kalloc_steal_spec (id : Nat) (s : KState) (n i : Nat) :
    ((∀ j, i ≤ j → j < i + n → j ≠ id → s.freelist j = 0) ∧ kalloc_steal id s n i = (0, s)) ∨
    (∃ j, i ≤ j ∧ j < i + n ∧ j ≠ id ∧ s.freelist j ≠ 0 ∧
      (∀ k, i ≤ k → k < j → k ≠ id → s.freelist k = 0) ∧
      kalloc_steal id s n i =
        (s.freelist j, { s with freelist := setHead s.freelist j (s.mem (s.freelist j)) })) := by
  induction n generalizing i with
  | zero =>
    left
    exact ⟨fun j h1 h2 => by omega, rfl⟩
  | succ n ih =>
    have step : (i = id ∨ s.freelist i = 0) →
        kalloc_steal id s (n + 1) i = kalloc_steal id s n (i + 1) := by
      intro h
      conv_lhs => unfold kalloc_steal
      by_cases hi : i = id
      · rw [if_pos hi]
      · rw [if_neg hi, if_pos (h.resolve_left hi)]
    by_cases hskip : i = id ∨ s.freelist i = 0
    · rw [step hskip]
      rcases ih (i + 1) with ⟨h1, h2⟩ | ⟨j, h1, h2, h3, h4, h5, h6⟩
      · left
        refine ⟨?_, h2⟩
        intro j hj1 hj2 hj3
        by_cases hji : j = i
        · subst hji
          exact hskip.resolve_left hj3
        · exact h1 j (by omega) (by omega) hj3
      · right
        refine ⟨j, by omega, by omega, h3, h4, ?_, h6⟩
        intro k hk1 hk2 hk3
        by_cases hki : k = i
        · subst hki
          exact hskip.resolve_left hk3
        · exact h5 k (by omega) hk2 hk3
    · right
      have hi : i ≠ id := fun e => hskip (Or.inl e)
      have h0 : s.freelist i ≠ 0 := fun e => hskip (Or.inr e)
      refine ⟨i, le_refl _, by omega, hi, h0, fun k h1 h2 => by omega, ?_⟩
      conv_lhs => unfold kalloc_steal
      rw [if_neg hi, if_neg h0]

theorem kalloc_spec (cfg : KConfig) (id : Nat) (s : KState) (hid : id < cfg.NCPU) :
    ((∀ i, i < cfg.NCPU → s.freelist i = 0) ∧ kalloc cfg id s = (0, s)) ∨
    (∃ j, j < cfg.NCPU ∧ s.freelist j ≠ 0 ∧
      (j = id ∨ (s.freelist id = 0 ∧ ∀ k, k < j → k ≠ id → s.freelist k = 0)) ∧
      kalloc cfg id s =
        (s.freelist j,
          { freelist := setHead s.freelist j (s.mem (s.freelist j))
            mem := memset s.mem (s.freelist j) 5 PGSIZE })) := by
  by_cases hr : s.freelist id = 0
  · rw [kalloc_away cfg id s hr]
    rcases kalloc_steal_spec id s cfg.NCPU 0 with ⟨h1, h2⟩ | ⟨j, _, h2, h3, h4, h5, h6⟩
    · left
      refine ⟨?_, ?_⟩
      · intro i hi
        by_cases hie : i = id
        · rw [hie]; exact hr
        · exact h1 i (Nat.zero_le _) (by omega) hie
      · rw [h2]; simp
    · right
      refine ⟨j, by omega, h4, Or.inr ⟨hr, fun k hk hk2 => h5 k (Nat.zero_le _) hk hk2⟩, ?_⟩
      rw [h6]
      simp only [ne_eq, h4, not_false_eq_true, if_true]
  · right
    exact ⟨id, hid, hr, Or.inl rfl, kalloc_home cfg id s hr⟩

theorem frame_apart (a b : Nat) (ha : a % PGSIZE = 0) (hb : b % PGSIZE = 0) (hne : a ≠ b) :
    ¬ (b ≤ a ∧ a < b + PGSIZE) := by
  unfold PGSIZE at *
  omega

theorem partition_push (cfg : KConfig) (id pa : Nat) (s : KState) (L : Nat → List Nat)
    (H : List Nat) (hP : Partition cfg s L H) (hid : id < cfg.NCPU)
    (hv : ValidFrame cfg pa) (hne0 : pa ≠ 0) (hfresh : pa ∉ allFree cfg.NCPU L ++ H) :
    Partition cfg
      { freelist := setHead s.freelist id pa
        mem := store (memset s.mem pa 1 PGSIZE) pa (s.freelist id) }
      (Function.update L id (pa :: L id)) H := by
  have hperm : List.Perm (allFree cfg.NCPU (Function.update L id (pa :: L id)) ++ H)
      (pa :: (allFree cfg.NCPU L ++ H)) :=
    List.Perm.append_right _ (allFree_update_cons cfg.NCPU id pa L hid)
  refine ⟨?_, ?_, ?_⟩
  · apply kfree_lists cfg id pa s L hne0 hP.lists
    intro i hi a ha
    have hain : a ∈ allFree cfg.NCPU L := (mem_allFree _ _ _).mpr ⟨i, hi, ha⟩
    have hva : ValidFrame cfg a := hP.valid a (List.mem_append_left _ hain)
    have hne : a ≠ pa := by
      intro e
      subst e
      exact hfresh (List.mem_append_left _ hain)
    exact frame_apart a pa hva.1 hv.1 hne
  · intro a ha
    rcases List.mem_cons.mp (hperm.mem_iff.mp ha) with e | h
    · rw [e]; exact hv
    · exact hP.valid a h
  · exact hperm.nodup_iff.mpr (List.nodup_cons.mpr ⟨hfresh, hP.nodup⟩)

theorem partition_erase (cfg : KConfig) (pa : Nat) (s : KState) (L : Nat → List Nat)
    (H : List Nat) (hP : Partition cfg s L H) :
    Partition cfg s L (H.erase pa) := by
  have hsub : List.Sublist (allFree cfg.NCPU L ++ H.erase pa) (allFree cfg.NCPU L ++ H) :=
    List.Sublist.append_left (List.erase_sublist pa H) _
  exact ⟨hP.lists, fun a ha => hP.valid a (hsub.subset ha), hP.nodup.sublist hsub⟩

theorem partition_kfree (cfg : KConfig) (id pa : Nat) (s : KState) (L : Nat → List Nat)
    (H : List Nat) (hend : 0 < cfg.kernel_end) (hP : Partition cfg s L H)
    (hid : id < cfg.NCPU) (hpa : pa ∈ H) :
    ∃ s1, kfree cfg id pa s = .ok s1 ∧
      Partition cfg s1 (Function.update L id (pa :: L id)) (H.erase pa) := by
  have hv : ValidFrame cfg pa := hP.valid pa (List.mem_append_right _ hpa)
  refine ⟨_, kfree_valid cfg id pa s hv, ?_⟩
  apply partition_push cfg id pa s L (H.erase pa) (partition_erase cfg pa s L H hP) hid hv
    (by have := hv.2.1; omega)
  intro hmem
  have hnd := List.nodup_append.mp hP.nodup
  rcases List.mem_append.mp hmem with h | h
  · exact hnd.2.2 h hpa
  · exact (List.Nodup.mem_erase_iff hnd.2.1).mp h |>.1 rfl

theorem partition_pop (cfg : KConfig) (j : Nat) (s : KState) (L : Nat → List Nat)
    (H : List Nat) (hP : Partition cfg s L H) (hj : j < cfg.NCPU) (h0 : s.freelist j ≠ 0) :
    ∃ t, L j = s.freelist j :: t ∧
      Partition cfg
        { freelist := setHead s.freelist j (s.mem (s.freelist j))
          mem := memset s.mem (s.freelist j) 5 PGSIZE }
        (Function.update L j t) (s.freelist j :: H) := by
  have hl := hP.lists j hj
  cases hLj : L j with
  | nil =>
    rw [hLj] at hl
    exact absurd hl h0
  | cons a t =>
    rw [hLj] at hl
    obtain ⟨e, _, ht⟩ := hl
    rw [e]
    refine ⟨t, rfl, ?_⟩
    have hperm : List.Perm (allFree cfg.NCPU L ++ H)
        (allFree cfg.NCPU (Function.update L j t) ++ a :: H) := by
      have h1 := allFree_update_tail cfg.NCPU j a t L hj hLj
      exact (List.Perm.append_right _ h1).trans List.perm_middle.symm
    have hnd : (allFree cfg.NCPU (Function.update L j t) ++ a :: H).Nodup :=
      hperm.nodup_iff.mp hP.nodup
    have hval : ∀ x, x ∈ allFree cfg.NCPU (Function.update L j t) ++ a :: H → ValidFrame cfg x :=
      fun x hx => hP.valid x (hperm.mem_iff.mpr hx)
    have hmem : ∀ i, i < cfg.NCPU → ∀ x, x ∈ Function.update L j t i →
        memset s.mem a 5 PGSIZE x = s.mem x := by
      intro i hi x hx
      have hxin : x ∈ allFree cfg.NCPU (Function.update L j t) :=
        (mem_allFree _ _ _).mpr ⟨i, hi, hx⟩
      have hne : x ≠ a := by
        intro e
        subst e
        exact (List.nodup_append.mp hnd).2.2 hxin (List.mem_cons_self _ _)
      have hvx := hval x (List.mem_append_left _ hxin)
      have hva := hval a (List.mem_append_right _ (List.mem_cons_self _ _))
      simp only [memset, if_neg (frame_apart x a hvx.1 hva.1 hne)]
    refine ⟨?_, hval, hnd⟩
    intro i hi
    by_cases hij : i = j
    · subst hij
      have hx := hmem i hi
      simp only [Function.update_same] at hx ⊢
      simp only [setHead, if_true]
      exact isFreeList_congr _ _ _ _ hx ht
    · have hx := hmem i hi
      simp only [Function.update_noteq hij] at hx ⊢
      simp only [setHead, if_neg hij]
      exact isFreeList_congr _ _ _ _ hx (hP.lists i hi)

theorem allFree_nil (n : Nat) : allFree n (fun _ => []) = [] := by
  induction n with
  | zero => rfl
  | succ n ih => rw [allFree_succ, ih]; rfl

theorem PGROUNDUP_aligned (a : Nat) : PGROUNDUP a % PGSIZE = 0 := by
  unfold PGROUNDUP PGSIZE
  omega

theorem PGROUNDUP_ge (a : Nat) : a ≤ PGROUNDUP a := by
  unfold PGROUNDUP PGSIZE
  omega

/-- The loop of `freerange`, given enough iterations, pushes every page of
`[p, PHYSTOP)` and never panics. -/
theorem freerange_loop_spec (cfg : KConfig) (id : Nat) (hid : id < cfg.NCPU) (n : Nat) :
    ∀ (p : Nat) (s : KState) (L : Nat → List Nat),
      0 < p → p % PGSIZE = 0 → cfg.kernel_end ≤ p →
      Partition cfg s L [] → (∀ a, a ∈ allFree cfg.NCPU L → a < p) →
      (cfg.PHYSTOP - p) / PGSIZE < n →
      ∃ s1 L1, freerange_loop cfg id cfg.PHYSTOP n p s = .ok s1 ∧ Partition cfg s1 L1 [] ∧
        (allFree cfg.NCPU L1).length = (allFree cfg.NCPU L).length + (cfg.PHYSTOP - p) / PGSIZE := by
  induction n with
  | zero => intro p s L _ _ _ _ _ h; exact absurd h (Nat.not_lt_zero _)
  | succ n ih =>
    intro p s L hp hal hge hP hlt hfuel
    unfold freerange_loop
    by_cases hc : p + PGSIZE ≤ cfg.PHYSTOP
    · rw [if_pos hc]
      have hv : ValidFrame cfg p := ⟨hal, hge, by unfold PGSIZE at hc; omega⟩
      rw [kfree_valid cfg id p s hv]
      have hfresh : p ∉ allFree cfg.NCPU L ++ [] := by
        rw [List.append_nil]
        intro h
        exact absurd (hlt p h) (lt_irrefl _)
      have hP1 := partition_push cfg id p s L [] hP hid hv (by omega) hfresh
      have hperm := allFree_update_cons cfg.NCPU id p L hid
      have hdiv : (cfg.PHYSTOP - p) / PGSIZE = (cfg.PHYSTOP - (p + PGSIZE)) / PGSIZE + 1 := by
        unfold PGSIZE at *
        omega
      obtain ⟨s1, L1, h1, h2, h3⟩ := ih (p + PGSIZE) _ _ (by omega)
        (by unfold PGSIZE at *; omega) (by omega) hP1
        (by
          intro a ha
          rcases List.mem_cons.mp (hperm.mem_iff.mp ha) with e | h
          · rw [e]; unfold PGSIZE; omega
          · have := hlt a h; omega)
        (by omega)
      refine ⟨s1, L1, h1, h2, ?_⟩
      rw [h3, hperm.length_eq, List.length_cons, hdiv]
      omega
    · rw [if_neg hc]
      refine ⟨s, L, rfl, hP, ?_⟩
      have : (cfg.PHYSTOP - p) / PGSIZE = 0 := by
        unfold PGSIZE at *
        omega
      omega

theorem kinit_spec (cfg : KConfig) (boot : Nat) (mem0 : Nat → Nat)
    (hboot : boot < cfg.NCPU) (hend : 0 < cfg.kernel_end) :
    ∃ s L, kinit cfg boot mem0 = .ok s ∧ Partition cfg s L [] ∧
      (allFree cfg.NCPU L).length = nframes cfg := by
  have hP0 : Partition cfg { freelist := fun _ => 0, mem := mem0 } (fun _ => []) [] := by
    refine ⟨fun i _ => rfl, ?_, ?_⟩
    · intro a ha
      rw [allFree_nil] at ha
      exact absurd ha (List.not_mem_nil a)
    · rw [allFree_nil]; exact List.nodup_nil
  obtain ⟨s1, L1, h1, h2, h3⟩ := freerange_loop_spec cfg boot hboot (cfg.PHYSTOP / PGSIZE + 1)
    (PGROUNDUP cfg.kernel_end) _ (fun _ => [])
    (by have := PGROUNDUP_ge cfg.kernel_end; omega) (PGROUNDUP_aligned _) (PGROUNDUP_ge _) hP0
    (by intro a ha; rw [allFree_nil] at ha; exact absurd ha (List.not_mem_nil a))
    (by
      have : (cfg.PHYSTOP - PGROUNDUP cfg.kernel_end) / PGSIZE ≤ cfg.PHYSTOP / PGSIZE :=
        Nat.div_le_div_right (Nat.sub_le _ _)
      omega)
  refine ⟨s1, L1, h1, h2, ?_⟩
  rw [h3, allFree_nil]
  simp [nframes]

theorem allFree_nodup_parts (n : Nat) (L : Nat → List Nat) (h : (allFree n L).Nodup) :
    (∀ i, i < n → (L i).Nodup) ∧
    (∀ i j, i < n → j < n → i ≠ j → List.Disjoint (L i) (L j)) := by
  induction n with
  | zero => exact ⟨fun i hi => by omega, fun i j hi => by omega⟩
  | succ n ih =>
    rw [allFree_succ] at h
    obtain ⟨h1, h2, h3⟩ := List.nodup_append.mp h
    obtain ⟨ih1, ih2⟩ := ih h1
    constructor
    · intro i hi
      by_cases e : i = n
      · rw [e]; exact h2
      · exact ih1 i (by omega)
    · intro i j hi hj hij
      by_cases ei : i = n
      · have hjn : j < n := by omega
        rw [ei]
        intro a ha1 ha2
        exact h3 ((mem_allFree _ _ _).mpr ⟨j, hjn, ha2⟩) ha1
      · by_cases ej : j = n
        · have hin : i < n := by omega
          rw [ej]
          intro a ha1 ha2
          exact h3 ((mem_allFree _ _ _).mpr ⟨i, hin, ha1⟩) ha2
        · exact ih2 i j (by omega) (by omega) hij

/-- Every reachable state has a partition, and the partition accounts for every frame of
the initial free range. -/
theorem reach_partition (cfg : KConfig) (boot : Nat) (mem0 : Nat → Nat)
    (hboot : boot < cfg.NCPU) (hend : 0 < cfg.kernel_end) (s : KState) (H : List Nat)
    (hr : Reach cfg boot mem0 s H) :
    ∃ L, Partition cfg s L H ∧ (allFree cfg.NCPU L).length + H.length = nframes cfg := by
  induction hr with
  | init s hs =>
    obtain ⟨s1, L, h1, h2, h3⟩ := kinit_spec cfg boot mem0 hboot hend
    rw [h1] at hs
    injection hs with hs
    subst hs
    exact ⟨L, h2, by simpa using h3⟩
  | alloc s H id _ hid hne ih =>
    obtain ⟨L, hP, hlen⟩ := ih
    rcases kalloc_spec cfg id s hid with ⟨_, h2⟩ | ⟨j, hj, h0, _, h4⟩
    · rw [h2] at hne
      exact absurd rfl hne
    · obtain ⟨t, hLj, hP1⟩ := partition_pop cfg j s L H hP hj h0
      rw [h4]
      refine ⟨_, hP1, ?_⟩
      have hperm := allFree_update_tail cfg.NCPU j _ t L hj hLj
      have := hperm.length_eq
      simp only [List.length_cons] at this ⊢
      omega
  | alloc_none s H id _ hid he ih =>
    obtain ⟨L, hP, hlen⟩ := ih
    rcases kalloc_spec cfg id s hid with ⟨_, h2⟩ | ⟨j, _, h0, _, h4⟩
    · rw [h2]
      exact ⟨L, hP, hlen⟩
    · rw [h4] at he
      exact absurd he h0
  | free s s1 H id pa _ hid hpa hk ih =>
    obtain ⟨L, hP, hlen⟩ := ih
    obtain ⟨s2, h1, h2⟩ := partition_kfree cfg id pa s L H hend hP hid hpa
    rw [h1] at hk
    injection hk with hk
    subst hk
    refine ⟨_, h2, ?_⟩
    have hperm := allFree_update_cons cfg.NCPU id pa L hid
    have h3 := hperm.length_eq
    have h4 := List.length_erase_of_mem hpa
    have h5 : 0 < H.length := List.length_pos_of_mem hpa
    simp only [List.length_cons] at h3
    omega

/-- C2. Partition invariant of the page allocator.  `kinit` (on any boot CPU, over any
memory contents, with the kernel not ending at address 0) returns without panic, and in
every state reached from it by calls of `kalloc` and by calls of `kfree` on currently held
frames, on arbitrary CPUs, each shard's head pointer heads a finite list `L i`; these
lists are duplicate-free and pairwise disjoint, no frame is both on a free list and held,
and the number of free frames plus the number of held frames is the number of frames of
the initial free range. -/
theorem kalloc_partition_invariant (cfg : KConfig) (boot : Nat) (mem0 : Nat → Nat)
    (s : KState) (H : List Nat)
    (hboot : boot < cfg.NCPU) (hend : 0 < cfg.kernel_end)
    (hr : Reach cfg boot mem0 s H) :
    (∃ s0, kinit cfg boot mem0 = .ok s0) ∧
    ∃ L : Nat → List Nat,
      (∀ i, i < cfg.NCPU → IsFreeList s.mem (s.freelist i) (L i)) ∧
      (∀ i, i < cfg.NCPU → (L i).Nodup) ∧
      (∀ i j, i < cfg.NCPU → j < cfg.NCPU → i ≠ j → List.Disjoint (L i) (L j)) ∧
      (∀ i, i < cfg.NCPU → List.Disjoint (L i) H) ∧
      H.Nodup ∧
      (allFree cfg.NCPU L).length + H.length = nframes cfg := by
  constructor
  · obtain ⟨s0, _, h, _⟩ := kinit_spec cfg boot mem0 hboot hend
    exact ⟨s0, h⟩
  · obtain ⟨L, hP, hlen⟩ := reach_partition cfg boot mem0 hboot hend s H hr
    obtain ⟨h1, h2, h3⟩ := List.nodup_append.mp hP.nodup
    obtain ⟨h4, h5⟩ := allFree_nodup_parts cfg.NCPU L h1
    refine ⟨L, hP.lists, h4, h5, ?_, h2, hlen⟩
    intro i hi a ha1 ha2
    exact h3 ((mem_allFree _ _ _).mpr ⟨i, hi, ha1⟩) ha2

theorem reach_boot0 : Reach cfg0 0 (fun _ => 0) boot0 [] :=
  Reach.init boot0 rfl

theorem reach_boot0_alloc :
    Reach cfg0 0 (fun _ => 0) (kalloc cfg0 1 boot0).2 [12288] :=
  Reach.alloc boot0 [] 1 reach_boot0 (by decide) (by decide)

/-- Witness for C2: the state after `kinit` on CPU 0 and one `kalloc` on CPU 1 (which
steals frame `12288` from shard 0). -/
theorem kalloc_partition_invariant_witness :
    (0 < cfg0.NCPU) ∧ (0 < cfg0.kernel_end) ∧
    Reach cfg0 0 (fun _ => 0) (kalloc cfg0 1 boot0).2 [12288] ∧
    ((∃ s0, kinit cfg0 0 (fun _ => 0) = .ok s0) ∧
    ∃ L : Nat → List Nat,
      (∀ i, i < cfg0.NCPU →
        IsFreeList (kalloc cfg0 1 boot0).2.mem ((kalloc cfg0 1 boot0).2.freelist i) (L i)) ∧
      (∀ i, i < cfg0.NCPU → (L i).Nodup) ∧
      (∀ i j, i < cfg0.NCPU → j < cfg0.NCPU → i ≠ j → List.Disjoint (L i) (L j)) ∧
      (∀ i, i < cfg0.NCPU → List.Disjoint (L i) [12288]) ∧
      [12288].Nodup ∧
      (allFree cfg0.NCPU L).length + [12288].length = nframes cfg0) :=
  ⟨by decide, by decide, reach_boot0_alloc,
    kalloc_partition_invariant cfg0 0 (fun _ => 0) (kalloc cfg0 1 boot0).2 [12288]
      (by decide) (by decide) reach_boot0_alloc⟩

theorem twoShards_lists :
    ∀ i, i < cfg0.NCPU → IsFreeList twoShards.mem (twoShards.freelist i) (twoShardsLists i) := by
  intro i hi
  have h2 : i < 2 := hi
  interval_cases i <;> decide

/-- C4, counterexample.  The claim as stated (for every aligned in-range `pa` the lists
after `kfree` are `pa :: old` on the caller's shard and unchanged elsewhere) fails when
`pa` is already free: in `twoShards`, `kfree(8192)` on CPU 0 writes the link of frame
`8192`, which is the node of shard 1, so shard 1's list is no longer `[8192]`. -/
theorem kfree_push_counterexample :
    ¬ (∀ (cfg : KConfig) (id pa : Nat) (s : KState) (L : Nat → List Nat),
        id < cfg.NCPU → ValidFrame cfg pa →
        (∀ i, i < cfg.NCPU → IsFreeList s.mem (s.freelist i) (L i)) →
        ∃ s1, kfree cfg id pa s = .ok s1 ∧
          IsFreeList s1.mem (s1.freelist id) (pa :: L id) ∧
          ∀ j, j < cfg.NCPU → j ≠ id → IsFreeList s1.mem (s1.freelist j) (L j)) := by
  intro h
  obtain ⟨s1, h1, _, h3⟩ := h cfg0 0 8192 twoShards twoShardsLists (by decide) (by decide)
    twoShards_lists
  rw [kfree_valid cfg0 0 8192 twoShards (by decide)] at h1
  injection h1 with h1
  subst h1
  exact absurd (h3 1 (by decide) (by decide)) (by decide)

/-- C4, amended.  For every page-aligned `pa` in `[end, PHYSTOP)` and every CPU id,
`kfree(pa)` does not panic; it makes `pa` the head pointer of shard `id`, stores the old
head pointer in the link of `pa`, and leaves every other head pointer as it was.  If
moreover no node of any free list lies inside frame `pa` (the frame is not already free),
then the list of shard `id` becomes `pa :: old list` and the list of every other shard is
unchanged. -/
theorem kfree_push (cfg : KConfig) (id pa : Nat) (s : KState)
    (hend : 0 < cfg.kernel_end) (hv : ValidFrame cfg pa) :
    ∃ s1, kfree cfg id pa s = .ok s1 ∧
      s1.freelist id = pa ∧ s1.mem pa = s.freelist id ∧
      (∀ j, j ≠ id → s1.freelist j = s.freelist j) ∧
      ∀ L : Nat → List Nat, id < cfg.NCPU →
        (∀ i, i < cfg.NCPU → IsFreeList s.mem (s.freelist i) (L i)) →
        (∀ i, i < cfg.NCPU → ∀ a, a ∈ L i → ¬ (pa ≤ a ∧ a < pa + PGSIZE)) →
        IsFreeList s1.mem (s1.freelist id) (pa :: L id) ∧
        ∀ j, j < cfg.NCPU → j ≠ id → IsFreeList s1.mem (s1.freelist j) (L j) := by
  refine ⟨_, kfree_valid cfg id pa s hv, ?_, ?_, ?_, ?_⟩
  · simp only [setHead, if_true]
  · simp only [store, if_true]
  · intro j hj
    simp only [setHead, if_neg hj]
  · intro L hid hL hfresh
    have hpa : pa ≠ 0 := by have := hv.2.1; omega
    have key := kfree_lists cfg id pa s L hpa hL hfresh
    constructor
    · have := key id hid
      rw [Function.update_same] at this
      exact this
    · intro j hj hne
      have := key j hj
      rw [Function.update_noteq hne] at this
      exact this

/-- Witness for C4: `kfree(12288)` on CPU 1 of `twoShards`. -/
theorem kfree_push_witness :
    (0 < cfg0.kernel_end) ∧ ValidFrame cfg0 12288 ∧
    ∃ s1, kfree cfg0 1 12288 twoShards = .ok s1 ∧
      s1.freelist 1 = 12288 ∧ s1.mem 12288 = twoShards.freelist 1 ∧
      (∀ j, j ≠ 1 → s1.freelist j = twoShards.freelist j) ∧
      ∀ L : Nat → List Nat, 1 < cfg0.NCPU →
        (∀ i, i < cfg0.NCPU → IsFreeList twoShards.mem (twoShards.freelist i) (L i)) →
        (∀ i, i < cfg0.NCPU → ∀ a, a ∈ L i → ¬ (12288 ≤ a ∧ a < 12288 + PGSIZE)) →
        IsFreeList s1.mem (s1.freelist 1) (12288 :: L 1) ∧
        ∀ j, j < cfg0.NCPU → j ≠ 1 → IsFreeList s1.mem (s1.freelist j) (L j) :=
  ⟨by decide, by decide, kfree_push cfg0 1 12288 twoShards (by decide) (by decide)⟩

/-- C5, counterexample.  A double free is not fatal: in `twoShards` frame `4096` is on
the free list of shard 0, and `kfree(4096)` on CPU 0 returns. -/
theorem kfree_double_free_counterexample :
    ¬ (∀ (cfg : KConfig) (id pa : Nat) (s : KState) (L : Nat → List Nat) (i : Nat),
        i < cfg.NCPU → IsFreeList s.mem (s.freelist i) (L i) → pa ∈ L i →
        (kfree cfg id pa s).returned = false) := by
  intro h
  have := h cfg0 0 4096 twoShards twoShardsLists 0 (by decide) (by decide) (by decide)
  exact absurd this (by decide)

/-- C5, amended.  `kfree` has no double-free check: for every allocator state and every
frame `pa` that is already on some shard's free list and passes the alignment and range
test, `kfree(pa)` does not panic; it pushes the frame again, making `pa` the head of the
caller's shard and overwriting the link of `pa` with the old head pointer. -/
theorem kfree_double_free (cfg : KConfig) (id pa : Nat) (s : KState) (L : Nat → List Nat)
    (i : Nat) :
    i < cfg.NCPU → IsFreeList s.mem (s.freelist i) (L i) → pa ∈ L i → ValidFrame cfg pa →
    (kfree cfg id pa s).returned = true ∧
    (kfree cfg id pa s).state.freelist id = pa ∧
    (kfree cfg id pa s).state.mem pa = s.freelist id := by
  intro _ _ _ hv
  rw [kfree_valid cfg id pa s hv]
  refine ⟨rfl, ?_, ?_⟩
  · simp only [Outcome.state, setHead, if_true]
  · simp only [Outcome.state, store, if_true]

/-- Witness for C5: the double free of frame `4096` in `twoShards`. -/
theorem kfree_double_free_witness :
    (0 < cfg0.NCPU) ∧ IsFreeList twoShards.mem (twoShards.freelist 0) (twoShardsLists 0) ∧
    4096 ∈ twoShardsLists 0 ∧ ValidFrame cfg0 4096 ∧
    ((kfree cfg0 0 4096 twoShards).returned = true ∧
      (kfree cfg0 0 4096 twoShards).state.freelist 0 = 4096 ∧
      (kfree cfg0 0 4096 twoShards).state.mem 4096 = twoShards.freelist 0) :=
  ⟨by decide, by decide, by decide, by decide,
    kfree_double_free cfg0 0 4096 twoShards twoShardsLists 0 (by decide) (by decide)
      (by decide) (by decide)⟩

/-- C6. Round trip R3.  In every allocator state whose free lists `L` and held frames `H`
form a partition, with at least one free frame, and for every CPU id: `kalloc` on `id`
returns a frame (not null), `kfree` of that frame on the same `id` returns, and in the
resulting state the shards have free lists `L2` such that the frames of all shards
together are a permutation of those before the `kalloc` (same multiset); only the shard
`j` the frame was taken from and the home shard `id` can differ from before, the frame
now being the head of shard `id`; the state is again a partition with the same held
frames; and when the home shard `id` was non-empty, every shard's free list is exactly as
before. -/
theorem kalloc_kfree_roundtrip (cfg : KConfig) (id : Nat) (s : KState)
    (L : Nat → List Nat) (H : List Nat)
    (hend : 0 < cfg.kernel_end) (hid : id < cfg.NCPU) (hP : Partition cfg s L H)
    (hfree : allFree cfg.NCPU L ≠ []) :
    (kalloc cfg id s).1 ≠ 0 ∧
    ∃ s2 L2, kfree cfg id (kalloc cfg id s).1 (kalloc cfg id s).2 = .ok s2 ∧
      (∀ i, i < cfg.NCPU → IsFreeList s2.mem (s2.freelist i) (L2 i)) ∧
      List.Perm (allFree cfg.NCPU L2) (allFree cfg.NCPU L) ∧
      (∃ j, j < cfg.NCPU ∧ (kalloc cfg id s).1 ∈ L j ∧
        ∀ i, i < cfg.NCPU → i ≠ j → i ≠ id → L2 i = L i) ∧
      (L2 id).head? = some (kalloc cfg id s).1 ∧
      Partition cfg s2 L2 H ∧
      (L id ≠ [] → ∀ i, i < cfg.NCPU → L2 i = L i) := by
  rcases kalloc_spec cfg id s hid with ⟨h1, _⟩ | ⟨j, hj, h0, hsel, h4⟩
  · exfalso
    apply hfree
    cases hall : allFree cfg.NCPU L with
    | nil => rfl
    | cons a l =>
      have ha : a ∈ allFree cfg.NCPU L := by rw [hall]; exact List.mem_cons_self _ _
      obtain ⟨i, hi, hai⟩ := (mem_allFree _ _ _).mp ha
      have hl := hP.lists i hi
      rw [h1 i hi] at hl
      cases hLi : L i with
      | nil => rw [hLi] at hai; exact absurd hai (List.not_mem_nil a)
      | cons b t =>
        rw [hLi] at hl
        exact absurd hl.1.symm hl.2.1
  · obtain ⟨t, hLj, hP1⟩ := partition_pop cfg j s L H hP hj h0
    obtain ⟨s2, hk, hP2⟩ := partition_kfree cfg id (s.freelist j) _ _ _ hend hP1 hid
      (List.mem_cons_self _ _)
    rw [h4]
    simp only [List.erase_cons_head] at hP2
    refine ⟨h0, s2, _, hk, hP2.lists, ?_, ⟨j, hj, ?_, ?_⟩, ?_, hP2, ?_⟩
    · exact (allFree_update_cons cfg.NCPU id _ _ hid).trans
        (allFree_update_tail cfg.NCPU j _ t L hj hLj).symm
    · rw [hLj]; exact List.mem_cons_self _ _
    · intro i _ hij hiid
      rw [Function.update_noteq hiid, Function.update_noteq hij]
    · rw [Function.update_same]; rfl
    · intro hne i _
      have hjid : j = id := by
        rcases hsel with e | ⟨e, _⟩
        · exact e
        · exfalso
          apply hne
          have hl := hP.lists id hid
          rw [e] at hl
          cases hLi : L id with
          | nil => rfl
          | cons b t =>
            rw [hLi] at hl
            exact absurd hl.1.symm hl.2.1
      subst hjid
      by_cases hij : i = j
      · subst hij
        rw [Function.update_same, Function.update_same, hLj]
      · rw [Function.update_noteq hij, Function.update_noteq hij]

/-- Witness for C6: `twoShards` with nothing held, round trip on CPU 1. -/
theorem kalloc_kfree_roundtrip_witness :
    (0 < cfg0.kernel_end) ∧ (1 < cfg0.NCPU) ∧ Partition cfg0 twoShards twoShardsLists [] ∧
    allFree cfg0.NCPU twoShardsLists ≠ [] ∧
    ((kalloc cfg0 1 twoShards).1 ≠ 0 ∧
    ∃ s2 L2, kfree cfg0 1 (kalloc cfg0 1 twoShards).1 (kalloc cfg0 1 twoShards).2 = .ok s2 ∧
      (∀ i, i < cfg0.NCPU → IsFreeList s2.mem (s2.freelist i) (L2 i)) ∧
      List.Perm (allFree cfg0.NCPU L2) (allFree cfg0.NCPU twoShardsLists) ∧
      (∃ j, j < cfg0.NCPU ∧ (kalloc cfg0 1 twoShards).1 ∈ twoShardsLists j ∧
        ∀ i, i < cfg0.NCPU → i ≠ j → i ≠ 1 → L2 i = twoShardsLists i) ∧
      (L2 1).head? = some (kalloc cfg0 1 twoShards).1 ∧
      Partition cfg0 s2 L2 [] ∧
      (twoShardsLists 1 ≠ [] → ∀ i, i < cfg0.NCPU → L2 i = twoShardsLists i)) :=
  have hP : Partition cfg0 twoShards twoShardsLists [] :=
    ⟨twoShards_lists, by decide, by decide⟩
  ⟨by decide, by decide, hP, by decide,
    kalloc_kfree_roundtrip cfg0 1 twoShards twoShardsLists [] (by decide) (by decide) hP
      (by decide)⟩

end Kalloc

namespace Bio

/-! ### Reading memory after a write -/

theorem write_same (mem : Ptr → Buf) (p : Ptr) (f : Buf → Buf) :
    write mem p f p = f (mem p) := by
  simp only [write, if_true]

theorem write_other (mem : Ptr → Buf) (p q : Ptr) (f : Buf → Buf) (h : q ≠ p) :
    write mem p f q = mem q := by
  simp only [write, if_neg h]

theorem buf_ne_bucket (i k : Nat) : Ptr.buf i ≠ Ptr.bucket k := by
  intro h; cases h

theorem bucket_ne_buf (i k : Nat) : Ptr.bucket k ≠ Ptr.buf i := by
  intro h; cases h

/-! ### Chains and the loops that walk them -/

/-- A chain only depends on the `next` field of its start, both pointer fields of its
members and the `prev` field of its end. -/
theorem isChain_congr (mem mem1 : Ptr → Buf) (l : List Nat) (p q : Ptr)
    (hp : (mem1 p).next = (mem p).next)
    (hl : ∀ i, i ∈ l → (mem1 (.buf i)).next = (mem (.buf i)).next ∧
      (mem1 (.buf i)).prev = (mem (.buf i)).prev)
    (hq : (mem1 q).prev = (mem q).prev)
    (h : IsChain mem p l q) : IsChain mem1 p l q := by
  induction l generalizing p with
  | nil =>
    obtain ⟨h1, h2⟩ := h
    exact ⟨hp.trans h1, hq.trans h2⟩
  | cons i l ih =>
    obtain ⟨h1, h2, h3⟩ := h
    have hi := hl i (List.mem_cons_self _ _)
    exact ⟨hp.trans h1, hi.2.trans h2,
      ih (.buf i) hi.1 (fun j hj => hl j (List.mem_cons_of_mem _ hj)) h3⟩

theorem isChain_append (mem : Ptr → Buf) (l1 l2 : List Nat) (i : Nat) (p q : Ptr) :
    IsChain mem p (l1 ++ i :: l2) q ↔ IsChain mem p l1 (.buf i) ∧ IsChain mem (.buf i) l2 q := by
  induction l1 generalizing p with
  | nil =>
    simp only [List.nil_append, IsChain]
    tauto
  | cons j l1 ih =>
    show ((mem p).next = .buf j ∧ (mem (.buf j)).prev = p ∧
        IsChain mem (.buf j) (l1 ++ i :: l2) q) ↔
      ((mem p).next = .buf j ∧ (mem (.buf j)).prev = p ∧ IsChain mem (.buf j) l1 (.buf i)) ∧
        IsChain mem (.buf i) l2 q
    rw [ih]
    tauto

/-- On a chain that ends in the sentinel `head`, the hit loop finds the first member with
the requested key, provided the iteration bound exceeds the length of the chain. -/
theorem scan_hit_chain (mem : Ptr → Buf) (k dev blockno : Nat) (l : List Nat) :
    ∀ (p : Ptr) (fuel : Nat), IsChain mem p l (.bucket k) → l.length < fuel →
      scan_hit mem (.bucket k) dev blockno fuel (mem p).next =
        some ((l.find? (isKey mem dev blockno)).map Ptr.buf) := by
  induction l with
  | nil =>
    intro p fuel h hf
    obtain ⟨h1, _⟩ := h
    cases fuel with
    | zero => exact absurd hf (Nat.lt_irrefl _)
    | succ f =>
      rw [h1]
      simp only [scan_hit, if_true, List.find?_nil, Option.map_none']
  | cons i l ih =>
    intro p fuel h hf
    obtain ⟨h1, _, h3⟩ := h
    cases fuel with
    | zero => exact absurd hf (Nat.not_lt_zero _)
    | succ f =>
      rw [h1]
      unfold scan_hit
      rw [if_neg (buf_ne_bucket i k)]
      by_cases hk : (mem (.buf i)).dev = dev ∧ (mem (.buf i)).blockno = blockno
      · rw [if_pos hk]
        have : isKey mem dev blockno i = true := by simp only [isKey, hk, and_self, decide_True]
        simp only [List.find?_cons, this, Option.map_some']
      · rw [if_neg hk]
        have : isKey mem dev blockno i = false := by simp only [isKey, hk, decide_False]
        simp only [List.find?_cons, this]
        exact ih (.buf i) f h3 (by simpa using hf)

/-- On a chain that ends in the sentinel `head`, the victim loop computes `pickVictim`. -/
theorem scan_victim_chain (mem : Ptr → Buf) (k : Nat) (l : List Nat) :
    ∀ (p : Ptr) (fuel m : Nat) (v : Option Nat), IsChain mem p l (.bucket k) →
      l.length < fuel →
      scan_victim mem (.bucket k) fuel (mem p).next m (v.map Ptr.buf) =
        some ((pickVictim mem l m v).map Ptr.buf) := by
  induction l with
  | nil =>
    intro p fuel m v h hf
    obtain ⟨h1, _⟩ := h
    cases fuel with
    | zero => exact absurd hf (Nat.lt_irrefl _)
    | succ f =>
      rw [h1]
      simp only [scan_victim, if_true, pickVictim]
  | cons i l ih =>
    intro p fuel m v h hf
    obtain ⟨h1, _, h3⟩ := h
    cases fuel with
    | zero => exact absurd hf (Nat.not_lt_zero _)
    | succ f =>
      rw [h1]
      unfold scan_victim pickVictim
      rw [if_neg (buf_ne_bucket i k)]
      by_cases hk : (mem (.buf i)).refcnt = 0 ∧ (mem (.buf i)).lastuse ≤ m
      · rw [if_pos hk, if_pos hk]
        exact ih (.buf i) f _ (some i) h3 (by simpa using hf)
      · rw [if_neg hk, if_neg hk]
        exact ih (.buf i) f m v h3 (by simpa using hf)

theorem isChain_of_ptr_eq (mem mem1 : Ptr → Buf) (l : List Nat) (p q : Ptr)
    (h1 : ∀ x, (mem1 x).next = (mem x).next) (h2 : ∀ x, (mem1 x).prev = (mem x).prev)
    (h : IsChain mem p l q) : IsChain mem1 p l q :=
  isChain_congr mem mem1 l p q (h1 p) (fun _ _ => ⟨h1 _, h2 _⟩) (h2 q) h

theorem isChain_first (mem : Ptr → Buf) (l : List Nat) (p q : Ptr) (h : IsChain mem p l q) :
    (mem p).next = firstPtr l q := by
  cases l with
  | nil => exact h.1
  | cons i l => exact h.1

theorem isChain_last (mem : Ptr → Buf) (l : List Nat) (p q : Ptr) (h : IsChain mem p l q) :
    (mem q).prev = lastPtr p l := by
  induction l generalizing p with
  | nil => exact h.2
  | cons i l ih => exact ih (.buf i) h.2.2

theorem lastPtr_cons_mem (u : Nat) (l : List Nat) :
    ∃ j, j ∈ u :: l ∧ lastPtr (.buf u) l = .buf j := by
  induction l generalizing u with
  | nil => exact ⟨u, List.mem_cons_self _ _, rfl⟩
  | cons w l ih =>
    obtain ⟨j, hj, e⟩ := ih w
    exact ⟨j, List.mem_cons_of_mem _ hj, e⟩

/-! ### Taking a buffer out of a list and putting it at the head of another -/

/-- The two stores of `unlink` when the successor of the victim is not the victim. -/
theorem unlink_eq (mem : Ptr → Buf) (v : Ptr) (h : (mem v).next ≠ v) :
    unlink mem v =
      write (write mem (mem v).next (fun x => { x with prev := (mem v).prev }))
        (mem v).prev (fun x => { x with next := (mem v).next }) := by
  unfold unlink
  simp only [write_other _ _ _ _ h.symm]

theorem bypass_next (mem : Ptr → Buf) (a b x : Ptr) (h : x ≠ a) :
    (write (write mem b (fun y => { y with prev := a })) a
      (fun y => { y with next := b }) x).next = (mem x).next := by
  rw [write_other _ _ _ _ h]
  by_cases hb : x = b
  · rw [hb, write_same]
  · rw [write_other _ _ _ _ hb]

theorem bypass_prev (mem : Ptr → Buf) (a b x : Ptr) (h : x ≠ b) :
    (write (write mem b (fun y => { y with prev := a })) a
      (fun y => { y with next := b }) x).prev = (mem x).prev := by
  by_cases ha : x = a
  · rw [ha, write_same]
    rw [ha] at h
    rw [write_other _ _ _ _ h]
  · rw [write_other _ _ _ _ ha, write_other _ _ _ _ h]

theorem bypass_next_a (mem : Ptr → Buf) (a b : Ptr) :
    (write (write mem b (fun y => { y with prev := a })) a
      (fun y => { y with next := b }) a).next = b := by
  rw [write_same]

theorem bypass_prev_b (mem : Ptr → Buf) (a b : Ptr) :
    (write (write mem b (fun y => { y with prev := a })) a
      (fun y => { y with next := b }) b).prev = a := by
  by_cases hab : b = a
  · rw [hab, write_same, write_same]
  · rw [write_other _ _ _ _ hab, write_same]

theorem bypass_other (mem : Ptr → Buf) (a b x : Ptr) (f g : Buf → Buf)
    (ha : x ≠ a) (hb : x ≠ b) : write (write mem b f) a g x = mem x := by
  rw [write_other _ _ _ _ ha, write_other _ _ _ _ hb]

/-- Linking the predecessor `a` of `v` to its successor `b` removes `v` from the chain. -/
theorem chain_bypass (mem : Ptr → Buf) (v : Nat) (post : List Nat) (q a b : Ptr)
    (hb : b = firstPtr post q) :
    ∀ (pre : List Nat) (p : Ptr), IsChain mem p (pre ++ v :: post) q → a = lastPtr p pre →
      (pre ++ v :: post).Nodup → (∀ i, i ∈ pre ++ v :: post → Ptr.buf i ≠ p) →
      (∀ i, i ∈ pre ++ v :: post → Ptr.buf i ≠ q) →
      IsChain (write (write mem b (fun y => { y with prev := a })) a
        (fun y => { y with next := b })) p (pre ++ post) q := by
  intro pre
  induction pre with
  | nil =>
    intro p h ha hnd hp hq
    simp only [List.nil_append] at h hnd hp hq ⊢
    simp only [lastPtr] at ha
    subst ha
    obtain ⟨_, _, h3⟩ := h
    cases post with
    | nil =>
      simp only [firstPtr] at hb
      subst hb
      exact ⟨bypass_next_a _ _ _, bypass_prev_b _ _ _⟩
    | cons w post =>
      simp only [firstPtr] at hb
      subst hb
      have hnd2 := (List.nodup_cons.mp hnd).2
      obtain ⟨_, _, h4⟩ := h3
      refine ⟨bypass_next_a _ _ _, bypass_prev_b _ _ _, ?_⟩
      apply isChain_congr mem _ post (.buf w) q _ _ _ h4
      · exact bypass_next _ _ _ _ (hp w (by simp))
      · intro i hi
        have hiw : i ≠ w := fun e => (List.nodup_cons.mp hnd2).1 (e ▸ hi)
        have h1 : Ptr.buf i ≠ a := hp i (by simp [hi])
        have h2 : Ptr.buf i ≠ Ptr.buf w := fun e => hiw (Ptr.buf.inj e)
        rw [bypass_other _ _ _ _ _ _ h1 h2]
        exact ⟨rfl, rfl⟩
      · exact bypass_prev _ _ _ _ (fun e => hq w (by simp) e.symm)
  | cons u pre ih =>
    intro p h ha hnd hp hq
    obtain ⟨h1, h2, h3⟩ := h
    simp only [lastPtr] at ha
    have hnd1 := List.nodup_cons.mp hnd
    have hrec := ih (.buf u) h3 ha hnd1.2
      (fun i hi e => hnd1.1 ((Ptr.buf.inj e) ▸ hi))
      (fun i hi => hq i (List.mem_cons_of_mem _ hi))
    refine ⟨?_, ?_, hrec⟩
    · rw [bypass_next, h1]
      obtain ⟨j, hj, e⟩ := lastPtr_cons_mem u pre
      rw [ha, e]
      intro e2
      apply hp j _ e2.symm
      rcases List.mem_cons.mp hj with hj | hj
      · rw [hj]; simp
      · simp [hj]
    · rw [bypass_prev, h2]
      rw [hb]
      cases post with
      | nil =>
        simp only [firstPtr]
        exact hq u (by simp)
      | cons w post =>
        simp only [firstPtr]
        intro e
        have : u = w := Ptr.buf.inj e
        apply hnd1.1
        rw [this]
        simp

theorem lastPtr_mem (p : Ptr) (l : List Nat) :
    lastPtr p l = p ∨ ∃ j, j ∈ l ∧ lastPtr p l = .buf j := by
  cases l with
  | nil => exact Or.inl rfl
  | cons u l => exact Or.inr (lastPtr_cons_mem u l)

theorem firstPtr_mem (l : List Nat) (q : Ptr) :
    firstPtr l q = q ∨ ∃ j, j ∈ l ∧ firstPtr l q = .buf j := by
  cases l with
  | nil => exact Or.inl rfl
  | cons u l => exact Or.inr ⟨u, List.mem_cons_self _ _, rfl⟩

/-- Where the pointers of a member of a bucket point. -/
theorem bucket_member_ptrs (mem : Ptr → Buf) (k v : Nat) (pre post : List Nat)
    (h : IsBucket mem k (pre ++ v :: post)) :
    (mem (.buf v)).prev = lastPtr (.bucket k) pre ∧
    (mem (.buf v)).next = firstPtr post (.bucket k) := by
  obtain ⟨h1, h2⟩ := (isChain_append mem pre post v _ _).mp h
  exact ⟨isChain_last mem pre _ _ h1, isChain_first mem post _ _ h2⟩

theorem bucket_member_next_ne (mem : Ptr → Buf) (k v : Nat) (pre post : List Nat)
    (h : IsBucket mem k (pre ++ v :: post)) (hnd : (pre ++ v :: post).Nodup) :
    (mem (.buf v)).next ≠ .buf v := by
  rw [(bucket_member_ptrs mem k v pre post h).2]
  rcases firstPtr_mem post (.bucket k) with e | ⟨j, hj, e⟩
  · rw [e]; exact bucket_ne_buf v k
  · rw [e]
    intro e2
    have hjv : j = v := Ptr.buf.inj e2
    have := (List.nodup_append.mp hnd).2.1
    exact (List.nodup_cons.mp this).1 (hjv ▸ hj)

/-- `unlink` removes the victim from its bucket and keeps the order of the others. -/
theorem unlink_bucket (mem : Ptr → Buf) (k v : Nat) (pre post : List Nat)
    (h : IsBucket mem k (pre ++ v :: post)) (hnd : (pre ++ v :: post).Nodup) :
    IsBucket (unlink mem (.buf v)) k (pre ++ post) := by
  rw [unlink_eq mem _ (bucket_member_next_ne mem k v pre post h hnd)]
  obtain ⟨h1, h2⟩ := bucket_member_ptrs mem k v pre post h
  exact chain_bypass mem v post (.bucket k) _ _ h2 pre (.bucket k) h h1 hnd
    (fun i _ => buf_ne_bucket i k) (fun i _ => buf_ne_bucket i k)

/-- `unlink` writes only to the two neighbours of the victim. -/
theorem unlink_frame (mem : Ptr → Buf) (k v : Nat) (pre post : List Nat)
    (h : IsBucket mem k (pre ++ v :: post)) (hnd : (pre ++ v :: post).Nodup) (x : Ptr)
    (hk : x ≠ .bucket k) (hx : ∀ i, i ∈ pre ++ v :: post → x ≠ .buf i) :
    unlink mem (.buf v) x = mem x := by
  rw [unlink_eq mem _ (bucket_member_next_ne mem k v pre post h hnd)]
  obtain ⟨h1, h2⟩ := bucket_member_ptrs mem k v pre post h
  apply bypass_other
  · rw [h1]
    rcases lastPtr_mem (.bucket k) pre with e | ⟨j, hj, e⟩
    · rw [e]; exact hk
    · rw [e]; exact hx j (by simp [hj])
  · rw [h2]
    rcases firstPtr_mem post (.bucket k) with e | ⟨j, hj, e⟩
    · rw [e]; exact hk
    · rw [e]; exact hx j (by simp [hj])

theorem unlink_other_bucket (mem : Ptr → Buf) (k k2 v : Nat) (pre post l2 : List Nat)
    (h : IsBucket mem k (pre ++ v :: post)) (hnd : (pre ++ v :: post).Nodup)
    (h2 : IsBucket mem k2 l2) (hk : k2 ≠ k) (hdisj : ∀ i, i ∈ l2 → i ∉ pre ++ v :: post) :
    IsBucket (unlink mem (.buf v)) k2 l2 := by
  have hb : unlink mem (.buf v) (.bucket k2) = mem (.bucket k2) :=
    unlink_frame mem k v pre post h hnd _ (fun e => hk (Ptr.bucket.inj e))
      (fun i _ => bucket_ne_buf i k2)
  apply isChain_congr mem _ l2 _ _ _ _ _ h2
  · rw [hb]
  · intro i hi
    have : unlink mem (.buf v) (.buf i) = mem (.buf i) :=
      unlink_frame mem k v pre post h hnd _ (buf_ne_bucket i k)
        (fun j hj e => hdisj i hi ((Ptr.buf.inj e) ▸ hj))
    rw [this]
    exact ⟨rfl, rfl⟩
  · rw [hb]

theorem sameData_refl (a : Buf) : SameData a a :=
  ⟨rfl, rfl, rfl, rfl, rfl, rfl⟩

theorem sameData_trans (a b c : Buf) (h1 : SameData a b) (h2 : SameData b c) : SameData a c :=
  ⟨h1.1.trans h2.1, h1.2.1.trans h2.2.1, h1.2.2.1.trans h2.2.2.1,
    h1.2.2.2.1.trans h2.2.2.2.1, h1.2.2.2.2.1.trans h2.2.2.2.2.1,
    h1.2.2.2.2.2.trans h2.2.2.2.2.2⟩

theorem write_data (mem : Ptr → Buf) (p x : Ptr) (f : Buf → Buf)
    (hf : ∀ y, SameData (f y) y) : SameData (write mem p f x) (mem x) := by
  by_cases h : x = p
  · rw [h, write_same]; exact hf _
  · rw [write_other _ _ _ _ h]; exact sameData_refl _

/-- `unlink` and `insert_head` assign pointer fields only. -/
theorem unlink_data (mem : Ptr → Buf) (v x : Ptr) : SameData (unlink mem v x) (mem x) := by
  unfold unlink
  exact sameData_trans _ _ _ (write_data _ _ _ _ (fun y => sameData_refl y))
    (write_data _ _ _ _ (fun y => sameData_refl y))

theorem insert_head_data (mem : Ptr → Buf) (id : Nat) (v x : Ptr) :
    SameData (insert_head mem id v x) (mem x) := by
  unfold insert_head
  exact sameData_trans _ _ _ (write_data _ _ _ _ (fun y => sameData_refl y))
    (sameData_trans _ _ _ (write_data _ _ _ _ (fun y => sameData_refl y))
      (sameData_trans _ _ _ (write_data _ _ _ _ (fun y => sameData_refl y))
        (write_data _ _ _ _ (fun y => sameData_refl y))))

/-- The four stores of `insert_head` for a buffer `v`. -/
theorem insert_head_eq (mem : Ptr → Buf) (id v : Nat) :
    insert_head mem id (.buf v) =
      write (write (write (write mem (.buf v)
        (fun x => { x with next := (mem (.bucket id)).next }))
        (mem (.bucket id)).next (fun x => { x with prev := .buf v }))
        (.bucket id) (fun x => { x with next := .buf v }))
        (.buf v) (fun x => { x with prev := .bucket id }) := by
  unfold insert_head
  simp only [write_other _ _ _ _ (bucket_ne_buf v id)]

theorem ins_other (mem : Ptr → Buf) (v hd f x : Ptr) (g1 g2 g3 g4 : Buf → Buf)
    (hv : x ≠ v) (hh : x ≠ hd) (hf : x ≠ f) :
    write (write (write (write mem v g1) f g2) hd g3) v g4 x = mem x := by
  rw [write_other _ _ _ _ hv, write_other _ _ _ _ hh, write_other _ _ _ _ hf,
    write_other _ _ _ _ hv]

theorem ins_v (mem : Ptr → Buf) (v hd f : Ptr) (hvh : v ≠ hd) :
    (write (write (write (write mem v (fun x => { x with next := f }))
      f (fun x => { x with prev := v })) hd (fun x => { x with next := v }))
      v (fun x => { x with prev := hd }) v).prev = hd ∧
    (write (write (write (write mem v (fun x => { x with next := f }))
      f (fun x => { x with prev := v })) hd (fun x => { x with next := v }))
      v (fun x => { x with prev := hd }) v).next = f := by
  rw [write_same, write_other _ _ _ _ hvh]
  refine ⟨rfl, ?_⟩
  by_cases hf : v = f
  · subst hf
    rw [write_same, write_same]
  · rw [write_other _ _ _ _ hf, write_same]

theorem ins_hd (mem : Ptr → Buf) (v hd f : Ptr) (hvh : v ≠ hd) :
    (write (write (write (write mem v (fun x => { x with next := f }))
      f (fun x => { x with prev := v })) hd (fun x => { x with next := v }))
      v (fun x => { x with prev := hd }) hd).next = v ∧
    (write (write (write (write mem v (fun x => { x with next := f }))
      f (fun x => { x with prev := v })) hd (fun x => { x with next := v }))
      v (fun x => { x with prev := hd }) hd).prev = if f = hd then v else (mem hd).prev := by
  rw [write_other _ _ _ _ hvh.symm, write_same]
  refine ⟨rfl, ?_⟩
  by_cases hf : f = hd
  · subst hf
    rw [if_pos rfl, write_same]
  · rw [if_neg hf, write_other _ _ _ _ (Ne.symm hf), write_other _ _ _ _ hvh.symm]

theorem ins_f (mem : Ptr → Buf) (v hd f : Ptr) (hfv : f ≠ v) (hfh : f ≠ hd) :
    (write (write (write (write mem v (fun x => { x with next := f }))
      f (fun x => { x with prev := v })) hd (fun x => { x with next := v }))
      v (fun x => { x with prev := hd }) f).prev = v ∧
    (write (write (write (write mem v (fun x => { x with next := f }))
      f (fun x => { x with prev := v })) hd (fun x => { x with next := v }))
      v (fun x => { x with prev := hd }) f).next = (mem f).next := by
  rw [write_other _ _ _ _ hfv, write_other _ _ _ _ hfh, write_same, write_other _ _ _ _ hfv]
  exact ⟨rfl, rfl⟩

/-- `insert_head` makes the buffer the first member of the bucket. -/
theorem insert_bucket (mem : Ptr → Buf) (id v : Nat) (m : List Nat)
    (h : IsBucket mem id m) (hv : v ∉ m) (hnd : m.Nodup) :
    IsBucket (insert_head mem id (.buf v)) id (v :: m) := by
  rw [insert_head_eq]
  have hvh : Ptr.buf v ≠ Ptr.bucket id := buf_ne_bucket v id
  have hf := isChain_first mem m _ _ h
  obtain ⟨hv1, hv2⟩ := ins_v mem (.buf v) (.bucket id) (mem (.bucket id)).next hvh
  obtain ⟨hh1, hh2⟩ := ins_hd mem (.buf v) (.bucket id) (mem (.bucket id)).next hvh
  refine ⟨hh1, hv1, ?_⟩
  cases m with
  | nil =>
    simp only [firstPtr] at hf
    refine ⟨hv2.trans hf, ?_⟩
    rw [hh2, if_pos hf]
  | cons w m =>
    simp only [firstPtr] at hf
    obtain ⟨_, h2, h3⟩ := h
    have hwv : w ≠ v := fun e => hv (e ▸ List.mem_cons_self _ _)
    have hfv : (mem (.bucket id)).next ≠ .buf v := by
      rw [hf]; exact fun e => hwv (Ptr.buf.inj e)
    have hfh : (mem (.bucket id)).next ≠ .bucket id := by
      rw [hf]; exact buf_ne_bucket w id
    obtain ⟨hf1, hf2⟩ := ins_f mem (.buf v) (.bucket id) (mem (.bucket id)).next hfv hfh
    refine ⟨hv2.trans hf, ?_, ?_⟩
    · rw [← hf]; exact hf1
    · apply isChain_congr mem _ m _ _ _ _ _ h3
      · rw [← hf]; exact hf2
      · intro i hi
        have hiw : i ≠ w := fun e => (List.nodup_cons.mp hnd).1 (e ▸ hi)
        have hiv : i ≠ v := fun e => hv (e ▸ List.mem_cons_of_mem _ hi)
        rw [ins_other mem _ _ _ (.buf i) _ _ _ _ (fun e => hiv (Ptr.buf.inj e))
          (buf_ne_bucket i id) (by rw [hf]; exact fun e => hiw (Ptr.buf.inj e))]
        exact ⟨rfl, rfl⟩
      · rw [hh2, if_neg hfh]

/-- `insert_head` writes only to the buffer, the sentinel and the old first member. -/
theorem insert_other_bucket (mem : Ptr → Buf) (id v k2 : Nat) (m l2 : List Nat)
    (h : IsBucket mem id m) (h2 : IsBucket mem k2 l2) (hk : k2 ≠ id) (hv : v ∉ l2)
    (hdisj : ∀ i, i ∈ l2 → i ∉ m) :
    IsBucket (insert_head mem id (.buf v)) k2 l2 := by
  rw [insert_head_eq]
  have hf := isChain_first mem m _ _ h
  have hfm : ∀ x : Ptr, x ≠ .bucket id → (∀ j, j ∈ m → x ≠ .buf j) →
      x ≠ (mem (.bucket id)).next := by
    intro x hx1 hx2
    rw [hf]
    rcases firstPtr_mem m (.bucket id) with e | ⟨j, hj, e⟩
    · rw [e]; exact hx1
    · rw [e]; exact hx2 j hj
  have hb : ∀ g1 g2 g3 g4, write (write (write (write mem (.buf v) g1)
      (mem (.bucket id)).next g2) (.bucket id) g3) (.buf v) g4 (.bucket k2) =
      mem (.bucket k2) := by
    intro g1 g2 g3 g4
    have hne : Ptr.bucket k2 ≠ Ptr.bucket id := fun e => hk (Ptr.bucket.inj e)
    exact ins_other mem _ _ _ _ _ _ _ _ (bucket_ne_buf v k2) hne
      (hfm _ hne (fun j _ => bucket_ne_buf j k2))
  apply isChain_congr mem _ l2 _ _ _ _ _ h2
  · rw [hb]
  · intro i hi
    have hiv : i ≠ v := fun e => hv (e ▸ hi)
    rw [ins_other mem _ _ _ (.buf i) _ _ _ _ (fun e => hiv (Ptr.buf.inj e))
      (buf_ne_bucket i id)
      (hfm _ (buf_ne_bucket i id) (fun j hj e => hdisj i hi ((Ptr.buf.inj e) ▸ hj)))]
    exact ⟨rfl, rfl⟩
  · rw [hb]

/-! ### The members of all buckets -/

theorem allBufs_succ (n : Nat) (L : Nat → List Nat) :
    allBufs (n + 1) L = allBufs n L ++ L n := by
  unfold allBufs
  rw [List.range_succ, List.flatMap_append, List.flatMap_singleton]

theorem mem_allBufs (n : Nat) (L : Nat → List Nat) (a : Nat) :
    a ∈ allBufs n L ↔ ∃ k, k < n ∧ a ∈ L k := by
  unfold allBufs
  rw [List.mem_flatMap]
  constructor
  · rintro ⟨k, hk, ha⟩
    exact ⟨k, List.mem_range.mp hk, ha⟩
  · rintro ⟨k, hk, ha⟩
    exact ⟨k, List.mem_range.mpr hk, ha⟩

theorem allBufs_update_ge (n j : Nat) (L : Nat → List Nat) (l : List Nat) (h : n ≤ j) :
    allBufs n (Function.update L j l) = allBufs n L := by
  unfold allBufs
  apply List.flatMap_congr
  intro x hx
  have hxn : x < n := List.mem_range.mp hx
  have hne : x ≠ j := by omega
  rw [Function.update_noteq hne]

/-- Replacing the list of one bucket by that list without one of its members removes
that member from the members of all buckets. -/
theorem allBufs_update_perm (n i x : Nat) (l1 : List Nat) (L : Nat → List Nat) (hi : i < n)
    (hp : List.Perm (L i) (x :: l1)) :
    List.Perm (allBufs n L) (x :: allBufs n (Function.update L i l1)) := by
  induction n with
  | zero => omega
  | succ n ih =>
    rw [allBufs_succ, allBufs_succ]
    by_cases hin : i = n
    · subst hin
      rw [allBufs_update_ge _ _ _ _ (le_refl _), Function.update_same]
      exact (List.Perm.append_left _ hp).trans List.perm_middle
    · rw [Function.update_noteq (Ne.symm hin)]
      exact List.Perm.append_right (L n) (ih (by omega))

theorem allBufs_update_cons (n i x : Nat) (L : Nat → List Nat) (hi : i < n) :
    List.Perm (allBufs n (Function.update L i (x :: L i))) (x :: allBufs n L) := by
  have h := allBufs_update_perm n i x (L i) (Function.update L i (x :: L i)) hi
    (by rw [Function.update_same])
  rw [Function.update_idem, Function.update_eq_self] at h
  exact h

theorem allBufs_nodup_parts (n : Nat) (L : Nat → List Nat) (h : (allBufs n L).Nodup) :
    (∀ i, i < n → (L i).Nodup) ∧
    (∀ i j, i < n → j < n → i ≠ j → ∀ a, a ∈ L i → a ∉ L j) := by
  induction n with
  | zero => exact ⟨fun i hi => by omega, fun i j hi => by omega⟩
  | succ n ih =>
    rw [allBufs_succ] at h
    obtain ⟨h1, h2, h3⟩ := List.nodup_append.mp h
    obtain ⟨ih1, ih2⟩ := ih h1
    constructor
    · intro i hi
      by_cases e : i = n
      · rw [e]; exact h2
      · exact ih1 i (by omega)
    · intro i j hi hj hij a ha1 ha2
      by_cases ei : i = n
      · have hjn : j < n := by omega
        rw [ei] at ha1
        exact h3 ((mem_allBufs _ _ _).mpr ⟨j, hjn, ha2⟩) ha1
      · by_cases ej : j = n
        · have hin : i < n := by omega
          rw [ej] at ha2
          exact h3 ((mem_allBufs _ _ _).mpr ⟨i, hin, ha1⟩) ha2
        · exact ih2 i j (by omega) (by omega) hij a ha1 ha2

/-! ### Well-formedness under the steps of `bget` -/

/-- Stores that leave all list pointers alone keep the cache well-formed. -/
theorem wf_of_ptr_eq (cfg : BConfig) (mem mem1 : Ptr → Buf) (L : Nat → List Nat)
    (h1 : ∀ x, (mem1 x).next = (mem x).next) (h2 : ∀ x, (mem1 x).prev = (mem x).prev)
    (h : WF cfg mem L) : WF cfg mem1 L :=
  ⟨fun k hk => isChain_of_ptr_eq mem mem1 _ _ _ h1 h2 (h.buckets k hk), h.nodup, h.cover⟩

/-- Moving buffer `v` from bucket `i` to the head of bucket `id`, as the steal path does,
keeps the cache well-formed; the lists change by exactly this move. -/
theorem wf_move (cfg : BConfig) (mem : Ptr → Buf) (L : Nat → List Nat) (i id v : Nat)
    (h : WF cfg mem L) (hi : i < cfg.NBUCKET) (hid : id < cfg.NBUCKET) (hne : i ≠ id)
    (hv : v ∈ L i) :
    WF cfg (insert_head (unlink mem (.buf v)) id (.buf v))
      (Function.update (Function.update L i ((L i).erase v)) id (v :: L id)) := by
  obtain ⟨hnd, hdis⟩ := allBufs_nodup_parts cfg.NBUCKET L h.nodup
  obtain ⟨pre, post, hsplit⟩ := List.append_of_mem hv
  have hndi : (pre ++ v :: post).Nodup := hsplit ▸ hnd i hi
  have hvpre : v ∉ pre := by
    intro hm
    have := (List.nodup_append.mp hndi).2.2 hm (List.mem_cons_self _ _)
    exact this
  have hvpost : v ∉ post := (List.nodup_cons.mp (List.nodup_append.mp hndi).2.1).1
  have herase : (L i).erase v = pre ++ post := by
    rw [hsplit, List.erase_append_right _ hvpre, List.erase_cons_head]
  have hbi : IsBucket mem i (pre ++ v :: post) := hsplit ▸ h.buckets i hi
  -- after `unlink`
  have hL1 : ∀ k, k < cfg.NBUCKET →
      IsBucket (unlink mem (.buf v)) k (Function.update L i (pre ++ post) k) := by
    intro k hk
    by_cases hki : k = i
    · subst hki
      rw [Function.update_same]
      exact unlink_bucket mem k v pre post hbi hndi
    · rw [Function.update_noteq hki]
      apply unlink_other_bucket mem i k v pre post (L k) hbi hndi (h.buckets k hk) hki
      intro a ha
      rw [← hsplit]
      exact hdis k i hk hi hki a ha
  have hvid : v ∉ L id := hdis i id hi hid hne v hv
  have hperm : List.Perm
      (allBufs cfg.NBUCKET (Function.update (Function.update L i (pre ++ post)) id (v :: L id)))
      (allBufs cfg.NBUCKET L) := by
    have e1 : Function.update L i (pre ++ post) id = L id := Function.update_noteq hne.symm _ _
    have p1 := allBufs_update_cons cfg.NBUCKET id v (Function.update L i (pre ++ post)) hid
    rw [e1] at p1
    have p2 := allBufs_update_perm cfg.NBUCKET i v (pre ++ post) L hi
      (by rw [hsplit]; exact List.perm_middle)
    exact p1.trans p2.symm
  rw [herase]
  refine ⟨?_, hperm.nodup_iff.mpr h.nodup, fun a => (hperm.mem_iff).trans (h.cover a)⟩
  intro k hk
  by_cases hkid : k = id
  · subst hkid
    rw [Function.update_same]
    have := hL1 k hk
    rw [Function.update_noteq hne.symm] at this
    exact insert_bucket _ k v (L k) this hvid (hnd k hk)
  · rw [Function.update_noteq hkid]
    have hidb := hL1 id hid
    rw [Function.update_noteq hne.symm] at hidb
    apply insert_other_bucket _ id v k (L id) _ hidb (hL1 k hk) hkid
    · by_cases hki : k = i
      · subst hki
        rw [Function.update_same]
        intro hm
        rcases List.mem_append.mp hm with hm | hm
        · exact hvpre hm
        · exact hvpost hm
      · rw [Function.update_noteq hki]
        exact fun hm => hdis i k hi hk (Ne.symm hki) v hv hm
    · intro a ha
      by_cases hki : k = i
      · subst hki
        rw [Function.update_same] at ha
        apply hdis k id hk hid hkid a
        rw [hsplit]
        rcases List.mem_append.mp ha with hm | hm
        · exact List.mem_append_left _ hm
        · exact List.mem_append_right _ (List.mem_cons_of_mem _ hm)
      · rw [Function.update_noteq hki] at ha
        exact hdis k id hk hid hkid a ha

theorem wf_length_le (cfg : BConfig) (mem : Ptr → Buf) (L : Nat → List Nat)
    (h : WF cfg mem L) (k : Nat) (hk : k < cfg.NBUCKET) : (L k).length ≤ cfg.NBUF := by
  have hnd := (allBufs_nodup_parts cfg.NBUCKET L h.nodup).1 k hk
  have hsub : L k ⊆ List.range cfg.NBUF := by
    intro a ha
    exact List.mem_range.mpr ((h.cover a).mp ((mem_allBufs _ _ _).mpr ⟨k, hk, ha⟩))
  have := (List.subperm_of_subset hnd hsub).length_le
  simpa using this

/-! ### What the victim loop selects -/

theorem pickVictim_some (mem : Ptr → Buf) (l : List Nat) :
    ∀ (m : Nat) (v0 : Option Nat) (v : Nat), pickVictim mem l m v0 = some v →
      v0 = some v ∨ (v ∈ l ∧ (mem (.buf v)).refcnt = 0 ∧ (mem (.buf v)).lastuse ≤ m) := by
  induction l with
  | nil =>
    intro m v0 v h
    exact Or.inl h
  | cons i l ih =>
    intro m v0 v h
    unfold pickVictim at h
    by_cases hc : (mem (.buf i)).refcnt = 0 ∧ (mem (.buf i)).lastuse ≤ m
    · rw [if_pos hc] at h
      rcases ih _ _ _ h with e | ⟨h1, h2, h3⟩
      · right
        have : i = v := Option.some.inj e
        subst this
        exact ⟨List.mem_cons_self _ _, hc.1, hc.2⟩
      · right
        exact ⟨List.mem_cons_of_mem _ h1, h2, le_trans h3 hc.2⟩
    · rw [if_neg hc] at h
      rcases ih _ _ _ h with e | ⟨h1, h2, h3⟩
      · exact Or.inl e
      · exact Or.inr ⟨List.mem_cons_of_mem _ h1, h2, h3⟩

theorem pickVictim_none (mem : Ptr → Buf) (l : List Nat) :
    ∀ (m : Nat) (v0 : Option Nat), pickVictim mem l m v0 = none ↔
      (v0 = none ∧ ∀ j, j ∈ l → ¬ ((mem (.buf j)).refcnt = 0 ∧ (mem (.buf j)).lastuse ≤ m)) := by
  induction l with
  | nil =>
    intro m v0
    simp [pickVictim]
  | cons i l ih =>
    intro m v0
    unfold pickVictim
    by_cases hc : (mem (.buf i)).refcnt = 0 ∧ (mem (.buf i)).lastuse ≤ m
    · rw [if_pos hc, ih]
      constructor
      · rintro ⟨h, _⟩; exact absurd h (by simp)
      · rintro ⟨_, h⟩; exact absurd hc (h i (List.mem_cons_self _ _))
    · rw [if_neg hc, ih]
      constructor
      · rintro ⟨h1, h2⟩
        refine ⟨h1, ?_⟩
        intro j hj
        rcases List.mem_cons.mp hj with e | hj
        · rw [e]; exact hc
        · exact h2 j hj
      · rintro ⟨h1, h2⟩
        exact ⟨h1, fun j hj => h2 j (List.mem_cons_of_mem _ hj)⟩

theorem pickVictim_idle (mem : Ptr → Buf) (l : List Nat) (m v : Nat)
    (h : pickVictim mem l m none = some v) : v ∈ l ∧ (mem (.buf v)).refcnt = 0 := by
  rcases pickVictim_some mem l m none v h with e | ⟨h1, h2, _⟩
  · exact absurd e (by simp)
  · exact ⟨h1, h2⟩

/-- No event of the list is a call of the disk driver. -/
theorem noDisk_append (l1 l2 : List Event) (h1 : ∀ e, e ∈ l1 → e.isDisk = false)
    (h2 : ∀ e, e ∈ l2 → e.isDisk = false) : ∀ e, e ∈ l1 ++ l2 → e.isDisk = false := by
  intro e he
  rcases List.mem_append.mp he with h | h
  · exact h1 e h
  · exact h2 e h

/-! ### The paths of `bget` on a well-formed cache -/

/-- The steal loop on a well-formed cache: either no bucket other than the home bucket
offers a victim and the loop ends in the panic, or the victim of the first bucket that
offers one is re-initialised and moved to the head of the home bucket. -/
theorem bget_steal_spec (cfg : BConfig) (fuel pid dev blockno id : Nat) (mem : Ptr → Buf)
    (L : Nat → List Nat) (hwf : WF cfg mem L) (hfuel : cfg.NBUF < fuel) (n : Nat) :
    ∀ (i : Nat) (s : Bcache), i + n = cfg.NBUCKET → s.mem = mem →
      ((∀ j, i ≤ j → j < cfg.NBUCKET → j ≠ id → pickVictim mem (L j) s.ticks none = none) ∧
        ∃ lg, (∀ e, e ∈ lg → e.isDisk = false) ∧
          bget_steal fuel pid dev blockno id n i s =
            .panic "bget: no buf" { mem := mem, ticks := s.ticks, log := s.log ++ lg }) ∨
      (∃ j v, i ≤ j ∧ j < cfg.NBUCKET ∧ j ≠ id ∧
        pickVictim mem (L j) s.ticks none = some v ∧
        (∀ j2, i ≤ j2 → j2 < j → j2 ≠ id → pickVictim mem (L j2) s.ticks none = none) ∧
        ∃ lg, (∀ e, e ∈ lg → e.isDisk = false) ∧
          bget_steal fuel pid dev blockno id n i s =
            acquiresleep pid (.buf v)
              { mem := insert_head (unlink (bufinit mem (.buf v) dev blockno) (.buf v)) id (.buf v)
                ticks := s.ticks, log := s.log ++ lg }) := by
  induction n with
  | zero =>
    intro i s hin hs
    left
    refine ⟨fun j h1 h2 => by omega, [.release id], by simp [Event.isDisk], ?_⟩
    simp only [bget_steal, emit, hs]
  | succ n ih =>
    intro i s hin hs
    by_cases hi : i = id
    · have : bget_steal fuel pid dev blockno id (n + 1) i s =
          bget_steal fuel pid dev blockno id n (i + 1) s := by
        conv_lhs => unfold bget_steal
        rw [if_pos hi]
      rw [this]
      rcases ih (i + 1) s (by omega) hs with ⟨h1, h2⟩ | ⟨j, v, h1, h2, h3, h4, h5, h6⟩
      · left
        refine ⟨?_, h2⟩
        intro j hj1 hj2 hj3
        exact h1 j (by omega) hj2 hj3
      · right
        refine ⟨j, v, by omega, h2, h3, h4, ?_, h6⟩
        intro j2 hj1 hj2 hj3
        exact h5 j2 (by omega) hj2 hj3
    · have hik : i < cfg.NBUCKET := by omega
      have hscan : scan_victim (emit s (.acquire i)).mem (.bucket i) fuel
          ((emit s (.acquire i)).mem (.bucket i)).next (emit s (.acquire i)).ticks none =
          some ((pickVictim mem (L i) s.ticks none).map Ptr.buf) := by
        have := scan_victim_chain mem i (L i) (.bucket i) fuel s.ticks none
          (hwf.buckets i hik) (lt_of_le_of_lt (wf_length_le cfg mem L hwf i hik) hfuel)
        simpa only [emit, hs, Option.map_none'] using this
      cases hpv : pickVictim mem (L i) s.ticks none with
      | none =>
        have : bget_steal fuel pid dev blockno id (n + 1) i s =
            bget_steal fuel pid dev blockno id n (i + 1)
              (emit (emit s (.acquire i)) (.release i)) := by
          conv_lhs => unfold bget_steal
          rw [if_neg hi]
          simp only [hscan, hpv, Option.map_none']
        rw [this]
        rcases ih (i + 1) (emit (emit s (.acquire i)) (.release i)) (by omega) hs with
          ⟨h1, lg, h2, h3⟩ | ⟨j, v, h1, h2, h3, h4, h5, lg, h6, h7⟩
        · left
          refine ⟨?_, [.acquire i, .release i] ++ lg, ?_, ?_⟩
          · intro j hj1 hj2 hj3
            by_cases hji : j = i
            · rw [hji]; exact hpv
            · exact h1 j (by omega) hj2 hj3
          · exact noDisk_append _ _ (by simp [Event.isDisk]) h2
          · rw [h3]
            simp [emit]
        · right
          refine ⟨j, v, by omega, h2, h3, h4, ?_, [.acquire i, .release i] ++ lg, ?_, ?_⟩
          · intro j2 hj1 hj2 hj3
            by_cases hji : j2 = i
            · rw [hji]; exact hpv
            · exact h5 j2 (by omega) hj2 hj3
          · exact noDisk_append _ _ (by simp [Event.isDisk]) h6
          · rw [h7]
            simp [emit]
      | some v =>
        right
        refine ⟨i, v, le_refl _, hik, hi, hpv, fun j2 h1 h2 => by omega,
          [.acquire i, .release i, .release id], by simp [Event.isDisk], ?_⟩
        conv_lhs => unfold bget_steal
        rw [if_neg hi]
        simp only [hscan, hpv, Option.map_some']
        simp [emit, hs]

/-- The four paths of `bget` on a well-formed cache, with the memory each path hands to
`acquiresleep`: hit, victim in the home bucket, steal, panic. -/
theorem bget_spec (cfg : BConfig) (fuel pid dev blockno : Nat) (s : Bcache)
    (L : Nat → List Nat) (hwf : WF cfg s.mem L) (hfuel : cfg.NBUF < fuel)
    (hb : inBounds cfg (myhash cfg blockno)) :
    (∃ b, (L (myhash cfg blockno).toNat).find? (isKey s.mem dev blockno) = some b ∧
      ∃ lg, (∀ e, e ∈ lg → e.isDisk = false) ∧
        bget cfg fuel pid dev blockno s =
          acquiresleep pid (.buf b)
            { mem := write s.mem (.buf b) (fun x => { x with refcnt := incr32 x.refcnt })
              ticks := s.ticks, log := s.log ++ lg }) ∨
    ((L (myhash cfg blockno).toNat).find? (isKey s.mem dev blockno) = none ∧
      ∃ v, pickVictim s.mem (L (myhash cfg blockno).toNat) s.ticks none = some v ∧
      ∃ lg, (∀ e, e ∈ lg → e.isDisk = false) ∧
        bget cfg fuel pid dev blockno s =
          acquiresleep pid (.buf v)
            { mem := bufinit s.mem (.buf v) dev blockno
              ticks := s.ticks, log := s.log ++ lg }) ∨
    ((L (myhash cfg blockno).toNat).find? (isKey s.mem dev blockno) = none ∧
      pickVictim s.mem (L (myhash cfg blockno).toNat) s.ticks none = none ∧
      ∃ j v, j < cfg.NBUCKET ∧ j ≠ (myhash cfg blockno).toNat ∧
        pickVictim s.mem (L j) s.ticks none = some v ∧
        (∀ j2, j2 < j → j2 ≠ (myhash cfg blockno).toNat →
          pickVictim s.mem (L j2) s.ticks none = none) ∧
        ∃ lg, (∀ e, e ∈ lg → e.isDisk = false) ∧
          bget cfg fuel pid dev blockno s =
            acquiresleep pid (.buf v)
              { mem := insert_head (unlink (bufinit s.mem (.buf v) dev blockno) (.buf v))
                  (myhash cfg blockno).toNat (.buf v)
                ticks := s.ticks, log := s.log ++ lg }) ∨
    ((L (myhash cfg blockno).toNat).find? (isKey s.mem dev blockno) = none ∧
      (∀ j, j < cfg.NBUCKET → pickVictim s.mem (L j) s.ticks none = none) ∧
      ∃ lg, (∀ e, e ∈ lg → e.isDisk = false) ∧
        bget cfg fuel pid dev blockno s =
          .panic "bget: no buf" { mem := s.mem, ticks := s.ticks, log := s.log ++ lg }) := by
  have hid : (myhash cfg blockno).toNat < cfg.NBUCKET := by
    have h1 := hb.1
    have h2 := hb.2
    omega
  generalize hidd : (myhash cfg blockno).toNat = id at hid ⊢
  have hlen := lt_of_le_of_lt (wf_length_le cfg s.mem L hwf id hid) hfuel
  have hscan1 : scan_hit (emit s (.acquire id)).mem (.bucket id) dev blockno fuel
      ((emit s (.acquire id)).mem (.bucket id)).next =
      some (((L id).find? (isKey s.mem dev blockno)).map Ptr.buf) :=
    scan_hit_chain s.mem id dev blockno (L id) (.bucket id) fuel (hwf.buckets id hid) hlen
  have hscan2 : scan_victim (emit s (.acquire id)).mem (.bucket id) fuel
      ((emit s (.acquire id)).mem (.bucket id)).next (emit s (.acquire id)).ticks none =
      some ((pickVictim s.mem (L id) s.ticks none).map Ptr.buf) :=
    scan_victim_chain s.mem id (L id) (.bucket id) fuel s.ticks none (hwf.buckets id hid) hlen
  have hunf : bget cfg fuel pid dev blockno s =
      match scan_hit (emit s (.acquire id)).mem (.bucket id) dev blockno fuel
          ((emit s (.acquire id)).mem (.bucket id)).next with
      | none => .timeout
      | some (some b) =>
        acquiresleep pid b (emit (modify (emit s (.acquire id)) b
          (fun x => { x with refcnt := incr32 x.refcnt })) (.release id))
      | some none =>
        match scan_victim (emit s (.acquire id)).mem (.bucket id) fuel
            ((emit s (.acquire id)).mem (.bucket id)).next (emit s (.acquire id)).ticks none with
        | none => .timeout
        | some (some v) =>
          acquiresleep pid v (emit { emit s (.acquire id) with
            mem := bufinit (emit s (.acquire id)).mem v dev blockno } (.release id))
        | some none => bget_steal fuel pid dev blockno id cfg.NBUCKET 0 (emit s (.acquire id)) := by
    unfold bget
    rw [if_neg (not_not.mpr hb)]
    simp only [hidd]
  rw [hunf, hscan1]
  cases hfind : (L id).find? (isKey s.mem dev blockno) with
  | some b =>
    left
    refine ⟨b, rfl, [.acquire id, .release id], by simp [Event.isDisk], ?_⟩
    simp [emit, modify]
  | none =>
    right
    simp only [Option.map_none', hscan2]
    cases hpv : pickVictim s.mem (L id) s.ticks none with
    | some v =>
      left
      refine ⟨trivial, v, rfl, [.acquire id, .release id], by simp [Event.isDisk], ?_⟩
      simp [emit]
    | none =>
      right
      simp only [Option.map_none']
      rcases bget_steal_spec cfg fuel pid dev blockno id s.mem L hwf hfuel cfg.NBUCKET 0
          (emit s (.acquire id)) (by omega) rfl with
        ⟨h1, lg, h2, h3⟩ | ⟨j, v, _, h2, h3, h4, h5, lg, h6, h7⟩
      · right
        refine ⟨trivial, ?_, [.acquire id] ++ lg, noDisk_append _ _ (by simp [Event.isDisk]) h2, ?_⟩
        · intro j hj
          by_cases hji : j = id
          · rw [hji]; exact hpv
          · exact h1 j (Nat.zero_le _) hj hji
        · rw [h3]
          simp [emit]
      · left
        refine ⟨trivial, trivial, j, v, h2, h3, h4, fun j2 hj2 hne => h5 j2 (Nat.zero_le _) hj2 hne,
          [.acquire id] ++ lg, noDisk_append _ _ (by simp [Event.isDisk]) h6, ?_⟩
        rw [h7]
        simp [emit]

/-! ### `acquiresleep` and the state a call ends in -/

theorem acquiresleep_free (pid : Nat) (b : Ptr) (s : Bcache) (h : (s.mem b).lock = none) :
    acquiresleep pid b s =
      .ok b { mem := write s.mem b (fun x => { x with lock := some pid })
              ticks := s.ticks, log := s.log ++ [.acquiresleep b] } := by
  simp only [acquiresleep, h, modify, emit]

theorem acquiresleep_held (pid : Nat) (b : Ptr) (s : Bcache) (h : (s.mem b).lock ≠ none) :
    acquiresleep pid b s =
      .sleeps { mem := s.mem, ticks := s.ticks, log := s.log ++ [.acquiresleep b] } := by
  cases hl : (s.mem b).lock with
  | none => exact absurd hl h
  | some q => simp only [acquiresleep, hl, emit]

theorem acquiresleep_ok (pid : Nat) (b p : Ptr) (s s1 : Bcache)
    (h : acquiresleep pid b s = .ok p s1) :
    (s.mem b).lock = none ∧ p = b ∧
    s1 = { mem := write s.mem b (fun x => { x with lock := some pid })
           ticks := s.ticks, log := s.log ++ [.acquiresleep b] } := by
  cases hl : (s.mem b).lock with
  | none =>
    rw [acquiresleep_free pid b s hl] at h
    injection h with h1 h2
    exact ⟨rfl, h1.symm, h2.symm⟩
  | some q =>
    rw [acquiresleep_held pid b s (by rw [hl]; simp)] at h
    cases h

theorem sameKey_refl (a : Buf) : SameKey a a := ⟨rfl, rfl, rfl, rfl⟩

theorem sameKey_trans (a b c : Buf) (h1 : SameKey a b) (h2 : SameKey b c) : SameKey a c :=
  ⟨h1.1.trans h2.1, h1.2.1.trans h2.2.1, h1.2.2.1.trans h2.2.2.1, h1.2.2.2.trans h2.2.2.2⟩

theorem sameKey_of_sameData (a b : Buf) (h : SameData a b) : SameKey a b :=
  ⟨h.1, h.2.1, h.2.2.1, h.2.2.2.2.1⟩

theorem write_key (mem : Ptr → Buf) (p x : Ptr) (f : Buf → Buf)
    (hf : ∀ y, SameKey (f y) y) : SameKey (write mem p f x) (mem x) := by
  by_cases h : x = p
  · rw [h, write_same]; exact hf _
  · rw [write_other _ _ _ _ h]; exact sameKey_refl _

/-- The state `acquiresleep` ends in differs from the one it starts in at most in the
sleep-lock of `b`. -/
theorem acquiresleep_state (pid : Nat) (b : Ptr) (s s1 : Bcache)
    (h : (acquiresleep pid b s).state? = some s1) :
    s1.ticks = s.ticks ∧ (∀ x, SameKey (s1.mem x) (s.mem x)) ∧
    (∀ x, (s1.mem x).next = (s.mem x).next ∧ (s1.mem x).prev = (s.mem x).prev) := by
  by_cases hl : (s.mem b).lock = none
  · rw [acquiresleep_free pid b s hl] at h
    simp only [Res.state?, Option.some.injEq] at h
    subst h
    refine ⟨rfl, fun x => write_key _ _ _ _ (fun y => sameKey_refl y), fun x => ?_⟩
    dsimp only
    by_cases hx : x = b
    · rw [hx, write_same]; exact ⟨rfl, rfl⟩
    · rw [write_other _ _ _ _ hx]; exact ⟨rfl, rfl⟩
  · rw [acquiresleep_held pid b s hl] at h
    simp only [Res.state?, Option.some.injEq] at h
    subst h
    exact ⟨rfl, fun x => sameKey_refl _, fun x => ⟨rfl, rfl⟩⟩

/-! ### Only idle buffers are re-initialised (any state of memory) -/

theorem scan_victim_idle (mem : Ptr → Buf) (head : Ptr) (fuel : Nat) :
    ∀ (b : Ptr) (m : Nat) (v0 : Option Ptr) (v : Ptr),
      scan_victim mem head fuel b m v0 = some (some v) → v0 = some v ∨ (mem v).refcnt = 0 := by
  induction fuel with
  | zero =>
    intro b m v0 v h
    simp only [scan_victim] at h
    cases h
  | succ f ih =>
    intro b m v0 v h
    unfold scan_victim at h
    by_cases hb : b = head
    · rw [if_pos hb] at h
      exact Or.inl (Option.some.inj h)
    · rw [if_neg hb] at h
      by_cases hc : (mem b).refcnt = 0 ∧ (mem b).lastuse ≤ m
      · rw [if_pos hc] at h
        rcases ih _ _ _ _ h with e | e
        · right
          have : b = v := Option.some.inj e
          rw [← this]; exact hc.1
        · exact Or.inr e
      · rw [if_neg hc] at h
        exact ih _ _ _ _ h

theorem bufinit_key (mem : Ptr → Buf) (v x : Ptr) (dev blockno : Nat) (h : x ≠ v) :
    bufinit mem v dev blockno x = mem x := by
  unfold bufinit
  exact write_other _ _ _ _ h

/-- The steal loop changes `valid`, `dev`, `blockno`, `refcnt` only of a node whose
`refcnt` was 0. -/
theorem bget_steal_keeps_busy (fuel pid dev blockno id : Nat) (n : Nat) :
    ∀ (i : Nat) (s s1 : Bcache),
      (bget_steal fuel pid dev blockno id n i s).state? = some s1 →
      ∀ x, (s.mem x).refcnt ≠ 0 → SameKey (s1.mem x) (s.mem x) := by
  induction n with
  | zero =>
    intro i s s1 h x _
    simp only [bget_steal, Res.state?, Option.some.injEq] at h
    subst h
    exact sameKey_refl _
  | succ n ih =>
    intro i s s1 h x hx
    unfold bget_steal at h
    by_cases hi : i = id
    · rw [if_pos hi] at h
      exact ih _ _ _ h x hx
    · rw [if_neg hi] at h
      simp only at h
      cases hsc : scan_victim (emit s (.acquire i)).mem (.bucket i) fuel
          ((emit s (.acquire i)).mem (.bucket i)).next (emit s (.acquire i)).ticks none with
      | none =>
        rw [hsc] at h
        simp only [Res.state?] at h
        cases h
      | some r =>
        rw [hsc] at h
        cases r with
        | none =>
          simp only at h
          exact ih _ _ _ h x hx
        | some v =>
          simp only at h
          have hidle : (s.mem v).refcnt = 0 := by
            rcases scan_victim_idle _ _ _ _ _ _ _ hsc with e | e
            · cases e
            · exact e
          have hxv : x ≠ v := fun e => hx (e ▸ hidle)
          obtain ⟨_, hk, _⟩ := acquiresleep_state _ _ _ _ h
          refine sameKey_trans _ _ _ (hk x) ?_
          simp only [emit]
          refine sameKey_trans _ _ _ (sameKey_of_sameData _ _ (insert_head_data _ _ _ _)) ?_
          refine sameKey_trans _ _ _ (sameKey_of_sameData _ _ (unlink_data _ _ _)) ?_
          rw [bufinit_key _ _ _ _ _ hxv]
          exact sameKey_refl _

theorem bget_steal_ok_idle (fuel pid dev blockno id : Nat) (n : Nat) :
    ∀ (i : Nat) (s s1 : Bcache) (p : Ptr),
      bget_steal fuel pid dev blockno id n i s = .ok p s1 → (s.mem p).refcnt = 0 := by
  induction n with
  | zero =>
    intro i s s1 p h
    simp only [bget_steal] at h
    cases h
  | succ n ih =>
    intro i s s1 p h
    unfold bget_steal at h
    by_cases hi : i = id
    · rw [if_pos hi] at h
      have := ih _ _ _ _ h
      exact this
    · rw [if_neg hi] at h
      simp only at h
      cases hsc : scan_victim (emit s (.acquire i)).mem (.bucket i) fuel
          ((emit s (.acquire i)).mem (.bucket i)).next (emit s (.acquire i)).ticks none with
      | none =>
        rw [hsc] at h
        cases h
      | some r =>
        rw [hsc] at h
        cases r with
        | none =>
          simp only at h
          have := ih _ _ _ _ h
          exact this
        | some v =>
          simp only at h
          have hidle : (s.mem v).refcnt = 0 := by
            rcases scan_victim_idle _ _ _ _ _ _ _ hsc with e | e
            · cases e
            · exact e
          rw [(acquiresleep_ok _ _ _ _ _ h).2.1]
          exact hidle

/-- `bget` changes `valid`, `dev`, `blockno` of no node whose `refcnt` is not 0, and
changes the `refcnt` of such a node only if it is the node the hit loop stops at. -/
theorem bget_keeps_busy (cfg : BConfig) (fuel pid dev blockno : Nat) (s s1 : Bcache)
    (h : (bget cfg fuel pid dev blockno s).state? = some s1) (x : Ptr)
    (hx : (s.mem x).refcnt ≠ 0) :
    (s1.mem x).dev = (s.mem x).dev ∧ (s1.mem x).blockno = (s.mem x).blockno ∧
    (s1.mem x).valid = (s.mem x).valid ∧
    ((s1.mem x).refcnt ≠ (s.mem x).refcnt →
      scan_hit s.mem (.bucket (myhash cfg blockno).toNat) dev blockno fuel
        (s.mem (.bucket (myhash cfg blockno).toNat)).next = some (some x)) := by
  have key : ∀ y : Buf, SameKey y (s.mem x) →
      y.dev = (s.mem x).dev ∧ y.blockno = (s.mem x).blockno ∧ y.valid = (s.mem x).valid ∧
      (y.refcnt ≠ (s.mem x).refcnt →
        scan_hit s.mem (.bucket (myhash cfg blockno).toNat) dev blockno fuel
          (s.mem (.bucket (myhash cfg blockno).toNat)).next = some (some x)) :=
    fun y hy => ⟨hy.2.1, hy.2.2.1, hy.1, fun hne => absurd hy.2.2.2 hne⟩
  unfold bget at h
  by_cases hb : inBounds cfg (myhash cfg blockno)
  · rw [if_neg (not_not.mpr hb)] at h
    simp only at h
    generalize (myhash cfg blockno).toNat = id at h key ⊢
    have e1 : (emit s (.acquire id)).mem = s.mem := rfl
    rw [e1] at h
    cases hsc : scan_hit s.mem (.bucket id) dev blockno fuel (s.mem (.bucket id)).next with
    | none =>
      rw [hsc] at h
      cases h
    | some r =>
      rw [hsc] at h
      cases r with
      | some b =>
        simp only at h
        rw [hsc] at key
        obtain ⟨_, hk, _⟩ := acquiresleep_state _ _ _ _ h
        have hk := hk x
        simp only [emit, modify] at hk
        by_cases hxb : x = b
        · subst hxb
          rw [write_same] at hk
          exact ⟨hk.2.1, hk.2.2.1, hk.1, fun _ => rfl⟩
        · rw [write_other _ _ _ _ hxb] at hk
          exact key _ hk
      | none =>
        simp only at h
        rw [hsc] at key
        cases hsv : scan_victim s.mem (.bucket id) fuel (s.mem (.bucket id)).next
            (emit s (.acquire id)).ticks none with
        | none =>
          rw [hsv] at h
          cases h
        | some r2 =>
          rw [hsv] at h
          cases r2 with
          | some v =>
            simp only at h
            have hidle : (s.mem v).refcnt = 0 := by
              rcases scan_victim_idle _ _ _ _ _ _ _ hsv with e | e
              · cases e
              · exact e
            have hxv : x ≠ v := fun e => hx (e ▸ hidle)
            obtain ⟨_, hk, _⟩ := acquiresleep_state _ _ _ _ h
            have hk := hk x
            simp only [emit] at hk
            rw [bufinit_key _ _ _ _ _ hxv] at hk
            exact key _ hk
          | none =>
            simp only at h
            exact key _ (bget_steal_keeps_busy fuel pid dev blockno id cfg.NBUCKET 0
              (emit s (.acquire id)) s1 h x hx)
  · rw [if_pos hb] at h
    cases h

/-- On a miss, the node `bget` returns (the one it re-initialised) had `refcnt = 0`. -/
theorem bget_miss_idle (cfg : BConfig) (fuel pid dev blockno : Nat) (s s1 : Bcache) (p : Ptr)
    (h : bget cfg fuel pid dev blockno s = .ok p s1)
    (hmiss : scan_hit s.mem (.bucket (myhash cfg blockno).toNat) dev blockno fuel
      (s.mem (.bucket (myhash cfg blockno).toNat)).next = some none) :
    (s.mem p).refcnt = 0 := by
  unfold bget at h
  by_cases hb : inBounds cfg (myhash cfg blockno)
  · rw [if_neg (not_not.mpr hb)] at h
    simp only at h
    generalize (myhash cfg blockno).toNat = id at h hmiss
    have e1 : (emit s (.acquire id)).mem = s.mem := rfl
    rw [e1, hmiss] at h
    simp only at h
    cases hsv : scan_victim s.mem (.bucket id) fuel (s.mem (.bucket id)).next
        (emit s (.acquire id)).ticks none with
    | none =>
      rw [hsv] at h
      cases h
    | some r2 =>
      rw [hsv] at h
      cases r2 with
      | some v =>
        simp only at h
        rw [(acquiresleep_ok _ _ _ _ _ h).2.1]
        rcases scan_victim_idle _ _ _ _ _ _ _ hsv with e | e
        · cases e
        · exact e
      | none =>
        simp only at h
        have := bget_steal_ok_idle fuel pid dev blockno id cfg.NBUCKET 0 _ _ _ h
        exact this
  · rw [if_pos hb] at h
    cases h

theorem wf_write_data (cfg : BConfig) (mem : Ptr → Buf) (L : Nat → List Nat) (p : Ptr)
    (f : Buf → Buf) (hf : ∀ y, (f y).next = y.next ∧ (f y).prev = y.prev)
    (h : WF cfg mem L) : WF cfg (write mem p f) L := by
  apply wf_of_ptr_eq cfg mem _ L _ _ h
  · intro x
    by_cases hx : x = p
    · rw [hx, write_same]; exact (hf _).1
    · rw [write_other _ _ _ _ hx]
  · intro x
    by_cases hx : x = p
    · rw [hx, write_same]; exact (hf _).2
    · rw [write_other _ _ _ _ hx]

theorem wf_bufinit (cfg : BConfig) (mem : Ptr → Buf) (L : Nat → List Nat) (p : Ptr)
    (dev blockno : Nat) (h : WF cfg mem L) : WF cfg (bufinit mem p dev blockno) L :=
  wf_write_data cfg mem L p _ (fun _ => ⟨rfl, rfl⟩) h

theorem inBounds_toNat_lt (cfg : BConfig) (x : Int) (h : inBounds cfg x) :
    x.toNat < cfg.NBUCKET := by
  have h1 := h.1
  have h2 := h.2
  omega

/-- A call of `bget` that returns, on a well-formed cache: the returned pointer is a
buffer `b`; the final memory is the memory `M` of one of the three returning paths with
the sleep-lock of `b` taken; `M` is well-formed with lists `L1`. -/
theorem bget_ok_spec (cfg : BConfig) (fuel pid dev blockno : Nat) (s s1 : Bcache) (p : Ptr)
    (L : Nat → List Nat) (hwf : WF cfg s.mem L) (hfuel : cfg.NBUF < fuel)
    (h : bget cfg fuel pid dev blockno s = .ok p s1) :
    inBounds cfg (myhash cfg blockno) ∧
    ∃ b lg M L1, p = .buf b ∧ s1.ticks = s.ticks ∧
      s1.log = s.log ++ lg ++ [.acquiresleep (.buf b)] ∧ (∀ e, e ∈ lg → e.isDisk = false) ∧
      s1.mem = write M (.buf b) (fun x => { x with lock := some pid }) ∧
      (M (.buf b)).lock = none ∧ WF cfg M L1 ∧
      (((L (myhash cfg blockno).toNat).find? (isKey s.mem dev blockno) = some b ∧
          M = write s.mem (.buf b) (fun x => { x with refcnt := incr32 x.refcnt }) ∧ L1 = L) ∨
        ((L (myhash cfg blockno).toNat).find? (isKey s.mem dev blockno) = none ∧
          pickVictim s.mem (L (myhash cfg blockno).toNat) s.ticks none = some b ∧
          M = bufinit s.mem (.buf b) dev blockno ∧ L1 = L) ∨
        ((L (myhash cfg blockno).toNat).find? (isKey s.mem dev blockno) = none ∧
          pickVictim s.mem (L (myhash cfg blockno).toNat) s.ticks none = none ∧
          ∃ j, j < cfg.NBUCKET ∧ j ≠ (myhash cfg blockno).toNat ∧
            pickVictim s.mem (L j) s.ticks none = some b ∧
            (∀ j2, j2 < j → j2 ≠ (myhash cfg blockno).toNat →
              pickVictim s.mem (L j2) s.ticks none = none) ∧
            M = insert_head (unlink (bufinit s.mem (.buf b) dev blockno) (.buf b))
              (myhash cfg blockno).toNat (.buf b) ∧
            L1 = Function.update (Function.update L j ((L j).erase b))
              (myhash cfg blockno).toNat (b :: L (myhash cfg blockno).toNat))) := by
  have hb : inBounds cfg (myhash cfg blockno) := by
    by_contra hc
    unfold bget at h
    rw [if_pos hc] at h
    cases h
  refine ⟨hb, ?_⟩
  have hid := inBounds_toNat_lt cfg _ hb
  rcases bget_spec cfg fuel pid dev blockno s L hwf hfuel hb with
    ⟨b, h1, lg, h2, h3⟩ | ⟨h0, v, h1, lg, h2, h3⟩ |
    ⟨h0, h1, j, v, hj, hjne, hv, hfirst, lg, h2, h3⟩ | ⟨_, _, lg, _, h3⟩
  · rw [h3] at h
    obtain ⟨hl, hp, hs⟩ := acquiresleep_ok _ _ _ _ _ h
    refine ⟨b, lg, write s.mem (.buf b) (fun x => { x with refcnt := incr32 x.refcnt }), L,
      hp, by rw [hs], by rw [hs], h2, by rw [hs], hl,
      wf_write_data cfg s.mem L (.buf b) (fun x => { x with refcnt := incr32 x.refcnt })
        (fun _ => ⟨rfl, rfl⟩) hwf, Or.inl ⟨h1, rfl, rfl⟩⟩
  · rw [h3] at h
    obtain ⟨hl, hp, hs⟩ := acquiresleep_ok _ _ _ _ _ h
    refine ⟨v, lg, bufinit s.mem (.buf v) dev blockno, L,
      hp, by rw [hs], by rw [hs], h2, by rw [hs], hl,
      wf_bufinit cfg s.mem L _ _ _ hwf, Or.inr (Or.inl ⟨h0, h1, rfl, rfl⟩)⟩
  · rw [h3] at h
    obtain ⟨hl, hp, hs⟩ := acquiresleep_ok _ _ _ _ _ h
    have hvj := (pickVictim_idle _ _ _ _ hv).1
    refine ⟨v, lg, insert_head (unlink (bufinit s.mem (.buf v) dev blockno) (.buf v))
        (myhash cfg blockno).toNat (.buf v),
      Function.update (Function.update L j ((L j).erase v))
        (myhash cfg blockno).toNat (v :: L (myhash cfg blockno).toNat),
      hp, by rw [hs], by rw [hs], h2, by rw [hs], hl,
      wf_move cfg _ L j _ v (wf_bufinit cfg s.mem L _ _ _ hwf) hj hid hjne hvj,
      Or.inr (Or.inr ⟨h0, h1, j, hj, hjne, hv, hfirst, rfl, rfl⟩)⟩
  · rw [h3] at h
    cases h

theorem wf_of_acquiresleep (cfg : BConfig) (pid : Nat) (b : Ptr) (s s1 : Bcache)
    (L : Nat → List Nat) (hwf : WF cfg s.mem L)
    (h : (acquiresleep pid b s).state? = some s1) : WF cfg s1.mem L := by
  obtain ⟨_, _, hp⟩ := acquiresleep_state pid b s s1 h
  exact wf_of_ptr_eq cfg s.mem s1.mem L (fun x => (hp x).1) (fun x => (hp x).2) hwf

/-- On a well-formed cache `bget` leaves a well-formed cache, and no buffer whose
`refcnt` is not 0 changes its bucket. -/
theorem bget_membership (cfg : BConfig) (fuel pid dev blockno : Nat) (s s1 : Bcache)
    (L : Nat → List Nat) (hwf : WF cfg s.mem L) (hfuel : cfg.NBUF < fuel)
    (h : (bget cfg fuel pid dev blockno s).state? = some s1) :
    ∃ L1, WF cfg s1.mem L1 ∧
      ∀ i k, (s.mem (.buf i)).refcnt ≠ 0 → k < cfg.NBUCKET → (i ∈ L1 k ↔ i ∈ L k) := by
  have hb : inBounds cfg (myhash cfg blockno) := by
    by_contra hc
    unfold bget at h
    rw [if_pos hc] at h
    cases h
  have hid := inBounds_toNat_lt cfg _ hb
  rcases bget_spec cfg fuel pid dev blockno s L hwf hfuel hb with
    ⟨b, _, lg, _, h3⟩ | ⟨_, v, _, lg, _, h3⟩ |
    ⟨_, _, j, v, hj, hjne, hv, _, lg, _, h3⟩ | ⟨_, _, lg, _, h3⟩
  · rw [h3] at h
    refine ⟨L, wf_of_acquiresleep cfg pid _ _ s1 L ?_ h, fun i k _ _ => Iff.rfl⟩
    exact wf_write_data cfg s.mem L (.buf b) (fun x => { x with refcnt := incr32 x.refcnt })
      (fun _ => ⟨rfl, rfl⟩) hwf
  · rw [h3] at h
    exact ⟨L, wf_of_acquiresleep cfg pid _ _ s1 L (wf_bufinit cfg s.mem L _ _ _ hwf) h,
      fun i k _ _ => Iff.rfl⟩
  · rw [h3] at h
    obtain ⟨hvj, hidle⟩ := pickVictim_idle _ _ _ _ hv
    refine ⟨_, wf_of_acquiresleep cfg pid _ _ s1 _
      (wf_move cfg _ L j _ v (wf_bufinit cfg s.mem L _ _ _ hwf) hj hid hjne hvj) h, ?_⟩
    intro i k hi _
    have hiv : i ≠ v := fun e => hi (e ▸ hidle)
    by_cases hkid : k = (myhash cfg blockno).toNat
    · rw [hkid, Function.update_same]
      simp [hiv]
    · rw [Function.update_noteq hkid]
      by_cases hkj : k = j
      · rw [hkj, Function.update_same]
        exact List.mem_erase_of_ne hiv
      · rw [Function.update_noteq hkj]
  · rw [h3] at h
    simp only [Res.state?, Option.some.injEq] at h
    subst h
    exact ⟨L, hwf, fun i k _ _ => Iff.rfl⟩

/-- C10. No eviction while busy (P4).  For every state of memory and every call of `bget`
that ends in a state (return, sleep in `acquiresleep`, or panic): on a miss the node that
is re-initialised and returned had `refcnt = 0` before the call; every node whose
`refcnt` was not 0 keeps its `dev`, `blockno` and `valid`, and keeps its `refcnt` unless
it is the entry the hit loop stopped at; and when the cache is well-formed with bucket
lists `L`, it is well-formed afterwards with lists `L1` in which every buffer whose
`refcnt` was not 0 is a member of the same bucket as before. -/
theorem bget_no_eviction_while_busy (cfg : BConfig) (fuel pid dev blockno : Nat)
    (s s1 : Bcache) (h : (bget cfg fuel pid dev blockno s).state? = some s1) :
    (∀ p, bget cfg fuel pid dev blockno s = .ok p s1 →
      scan_hit s.mem (.bucket (myhash cfg blockno).toNat) dev blockno fuel
        (s.mem (.bucket (myhash cfg blockno).toNat)).next = some none →
      (s.mem p).refcnt = 0) ∧
    (∀ x, (s.mem x).refcnt ≠ 0 →
      (s1.mem x).dev = (s.mem x).dev ∧ (s1.mem x).blockno = (s.mem x).blockno ∧
      (s1.mem x).valid = (s.mem x).valid ∧
      ((s1.mem x).refcnt ≠ (s.mem x).refcnt →
        scan_hit s.mem (.bucket (myhash cfg blockno).toNat) dev blockno fuel
          (s.mem (.bucket (myhash cfg blockno).toNat)).next = some (some x))) ∧
    (∀ L, WF cfg s.mem L → cfg.NBUF < fuel →
      ∃ L1, WF cfg s1.mem L1 ∧
        ∀ i k, (s.mem (.buf i)).refcnt ≠ 0 → k < cfg.NBUCKET → (i ∈ L1 k ↔ i ∈ L k)) :=
  ⟨fun p hp hmiss => bget_miss_idle cfg fuel pid dev blockno s s1 p hp hmiss,
    fun x hx => bget_keeps_busy cfg fuel pid dev blockno s s1 h x hx,
    fun L hwf hfuel => bget_membership cfg fuel pid dev blockno s s1 L hwf hfuel h⟩

/-- Witness for C10: in `st1` buffer 0 is busy in bucket 1; `bget(1, 3)` by process 8
misses in bucket 1 and steals the idle buffer 1 from bucket 0. -/
theorem bget_no_eviction_while_busy_witness :
    (bget c22 3 8 1 3 st1).state? = some (bget c22 3 8 1 3 st1).stateD ∧
    ((∀ p, bget c22 3 8 1 3 st1 = .ok p (bget c22 3 8 1 3 st1).stateD →
      scan_hit st1.mem (.bucket (myhash c22 3).toNat) 1 3 3
        (st1.mem (.bucket (myhash c22 3).toNat)).next = some none →
      (st1.mem p).refcnt = 0) ∧
    (∀ x, (st1.mem x).refcnt ≠ 0 →
      ((bget c22 3 8 1 3 st1).stateD.mem x).dev = (st1.mem x).dev ∧
      ((bget c22 3 8 1 3 st1).stateD.mem x).blockno = (st1.mem x).blockno ∧
      ((bget c22 3 8 1 3 st1).stateD.mem x).valid = (st1.mem x).valid ∧
      (((bget c22 3 8 1 3 st1).stateD.mem x).refcnt ≠ (st1.mem x).refcnt →
        scan_hit st1.mem (.bucket (myhash c22 3).toNat) 1 3 3
          (st1.mem (.bucket (myhash c22 3).toNat)).next = some (some x))) ∧
    (∀ L, WF c22 st1.mem L → c22.NBUF < 3 →
      ∃ L1, WF c22 (bget c22 3 8 1 3 st1).stateD.mem L1 ∧
        ∀ i k, (st1.mem (.buf i)).refcnt ≠ 0 → k < c22.NBUCKET → (i ∈ L1 k ↔ i ∈ L k))) :=
  ⟨rfl, bget_no_eviction_while_busy c22 3 8 1 3 st1 (bget c22 3 8 1 3 st1).stateD rfl⟩

theorem find_congr (l : List Nat) (f g : Nat → Bool) (h : ∀ i, i ∈ l → f i = g i) :
    l.find? f = l.find? g := by
  induction l with
  | nil => rfl
  | cons a l ih =>
    simp only [List.find?_cons, h a (List.mem_cons_self _ _)]
    rw [ih (fun i hi => h i (List.mem_cons_of_mem _ hi))]

theorem find_unique (l : List Nat) (f : Nat → Bool) (b : Nat) (hb : b ∈ l) (hf : f b = true)
    (h : ∀ i, i ∈ l → i ≠ b → f i = false) : l.find? f = some b := by
  induction l with
  | nil => exact absurd hb (List.not_mem_nil b)
  | cons a l ih =>
    by_cases hab : a = b
    · subst hab
      simp only [List.find?_cons, hf]
    · simp only [List.find?_cons, h a (List.mem_cons_self _ _) hab]
      rcases List.mem_cons.mp hb with e | hbl
      · exact absurd e.symm hab
      · exact ih hbl (fun i hi => h i (List.mem_cons_of_mem _ hi))

theorem isKey_iff (mem : Ptr → Buf) (dev blockno i : Nat) :
    isKey mem dev blockno i = true ↔
      (mem (.buf i)).dev = dev ∧ (mem (.buf i)).blockno = blockno := by
  simp only [isKey, decide_eq_true_eq]

theorem wf_mem_lt (cfg : BConfig) (mem : Ptr → Buf) (L : Nat → List Nat) (h : WF cfg mem L)
    (k i : Nat) (hk : k < cfg.NBUCKET) (hi : i ∈ L k) : i < cfg.NBUF :=
  (h.cover i).mp ((mem_allBufs _ _ _).mpr ⟨k, hk, hi⟩)

/-- The buffer a returning `bget` hands out: it is one of the `NBUF` buffers, a member
of the home bucket and the first member of that bucket with the requested key, and it is
locked by the caller; on a hit its `valid` is as before and its `refcnt` one more, on a
miss `valid = 0` and `refcnt = 1`. -/
theorem bget_ok_buffer (cfg : BConfig) (fuel pid dev blockno : Nat) (s s1 : Bcache) (p : Ptr)
    (L : Nat → List Nat) (hwf : WF cfg s.mem L) (hfuel : cfg.NBUF < fuel)
    (h : bget cfg fuel pid dev blockno s = .ok p s1) :
    ∃ b L1, p = .buf b ∧ b < cfg.NBUF ∧ WF cfg s1.mem L1 ∧
      (L1 (myhash cfg blockno).toNat).find? (isKey s1.mem dev blockno) = some b ∧
      (s1.mem (.buf b)).lock = some pid ∧
      (((L (myhash cfg blockno).toNat).find? (isKey s.mem dev blockno) = some b ∧ L1 = L ∧
          (s1.mem (.buf b)).valid = (s.mem (.buf b)).valid ∧
          (s1.mem (.buf b)).refcnt = incr32 (s.mem (.buf b)).refcnt) ∨
        ((L (myhash cfg blockno).toNat).find? (isKey s.mem dev blockno) = none ∧
          (s1.mem (.buf b)).valid = 0 ∧ (s1.mem (.buf b)).refcnt = 1)) := by
  obtain ⟨hb, b, lg, M, L1, hp, _, _, _, hmem, _, hwfM, hcase⟩ :=
    bget_ok_spec cfg fuel pid dev blockno s s1 p L hwf hfuel h
  have hid := inBounds_toNat_lt cfg _ hb
  have hwf1 : WF cfg s1.mem L1 := by
    rw [hmem]
    exact wf_write_data cfg M L1 _ _ (fun _ => ⟨rfl, rfl⟩) hwfM
  have hcell : s1.mem (.buf b) = { M (.buf b) with lock := some pid } := by
    rw [hmem, write_same]
  have hother : ∀ i, i ≠ b → s1.mem (.buf i) = M (.buf i) := by
    intro i hi
    rw [hmem, write_other _ _ _ _ (fun e => hi (Ptr.buf.inj e))]
  have hinit : ∀ m : Ptr → Buf, SameData (m (.buf b)) (bufinit s.mem (.buf b) dev blockno (.buf b)) →
      (m (.buf b)).dev = dev ∧ (m (.buf b)).blockno = blockno ∧ (m (.buf b)).valid = 0 ∧
      (m (.buf b)).refcnt = 1 := by
    intro m hm
    have e : bufinit s.mem (.buf b) dev blockno (.buf b) =
        { s.mem (.buf b) with dev := dev, blockno := blockno, valid := 0, refcnt := 1 } := by
      unfold bufinit; rw [write_same]
    rw [e] at hm
    exact ⟨hm.2.1, hm.2.2.1, hm.1, hm.2.2.2.2.1⟩
  rcases hcase with ⟨hfind, hM, hL⟩ | ⟨hfind, hpv, hM, hL⟩ | ⟨hfind, _, j, hj, hjne, hpv, _, hM, hL⟩
  · have hbin : b ∈ L (myhash cfg blockno).toNat := List.mem_of_find?_eq_some hfind
    have hMb : M (.buf b) = { s.mem (.buf b) with refcnt := incr32 (s.mem (.buf b)).refcnt } := by
      rw [hM, write_same]
    refine ⟨b, L1, hp, wf_mem_lt cfg _ L hwf _ b hid hbin, hwf1, ?_, ?_,
      Or.inl ⟨hfind, hL, ?_, ?_⟩⟩
    · rw [hL, ← hfind]
      apply find_congr
      intro i _
      by_cases hib : i = b
      · subst hib
        simp only [isKey, hcell, hMb]
      · simp only [isKey, hother i hib, hM,
          write_other _ _ _ _ (fun e => hib (Ptr.buf.inj e))]
    · rw [hcell]
    · rw [hcell, hMb]
    · rw [hcell, hMb]
  · have hbin : b ∈ L (myhash cfg blockno).toNat := (pickVictim_idle _ _ _ _ hpv).1
    obtain ⟨h1, h2, h3, h4⟩ := hinit M (by rw [hM]; exact sameData_refl _)
    refine ⟨b, L1, hp, wf_mem_lt cfg _ L hwf _ b hid hbin, hwf1, ?_, ?_,
      Or.inr ⟨hfind, ?_, ?_⟩⟩
    · rw [hL]
      apply find_unique _ _ b hbin
      · rw [isKey_iff, hcell]; exact ⟨h1, h2⟩
      · intro i hi hib
        have := List.find?_eq_none.mp hfind i hi
        rw [Bool.not_eq_true] at this
        rw [← this]
        simp only [isKey, hother i hib, hM, bufinit,
          write_other _ _ _ _ (fun e => hib (Ptr.buf.inj e))]
    · rw [hcell]
    · rw [hcell]; exact h3
    · rw [hcell]; exact h4
  · have hbin : b ∈ L j := (pickVictim_idle _ _ _ _ hpv).1
    obtain ⟨h1, h2, h3, h4⟩ := hinit M (by
      rw [hM]
      exact sameData_trans _ _ _ (insert_head_data _ _ _ _) (unlink_data _ _ _))
    refine ⟨b, L1, hp, wf_mem_lt cfg _ L hwf _ b hj hbin, hwf1, ?_, ?_,
      Or.inr ⟨hfind, ?_, ?_⟩⟩
    · rw [hL, Function.update_same]
      have : isKey s1.mem dev blockno b = true := by
        rw [isKey_iff, hcell]; exact ⟨h1, h2⟩
      simp only [List.find?_cons, this]
    · rw [hcell]
    · rw [hcell]; exact h3
    · rw [hcell]; exact h4

/-! ### `bread` -/

theorem bread_of_bget_ok (cfg : BConfig) (fuel pid dev blockno : Nat) (s s0 : Bcache) (p : Ptr)
    (h : bget cfg fuel pid dev blockno s = .ok p s0) :
    bread cfg fuel pid dev blockno s =
      if (s0.mem p).valid = 0 then
        .ok p (modify (emit s0 (.disk_rw p false)) p (fun x => { x with valid := 1 }))
      else .ok p s0 := by
  simp only [bread, h]

/-- A returning `bread` is a returning `bget` followed by the disk read of line 174 when
the buffer is not valid. -/
theorem bread_ok (cfg : BConfig) (fuel pid dev blockno : Nat) (s s1 : Bcache) (p : Ptr)
    (h : bread cfg fuel pid dev blockno s = .ok p s1) :
    ∃ s0, bget cfg fuel pid dev blockno s = .ok p s0 ∧
      (((s0.mem p).valid = 0 ∧
          s1 = modify (emit s0 (.disk_rw p false)) p (fun x => { x with valid := 1 })) ∨
        ((s0.mem p).valid ≠ 0 ∧ s1 = s0)) := by
  cases hg : bget cfg fuel pid dev blockno s with
  | ok q s0 =>
    rw [bread_of_bget_ok cfg fuel pid dev blockno s s0 q hg] at h
    by_cases hv : (s0.mem q).valid = 0
    · rw [if_pos hv] at h
      injection h with h1 h2
      subst h1
      exact ⟨s0, rfl, Or.inl ⟨hv, h2.symm⟩⟩
    · rw [if_neg hv] at h
      injection h with h1 h2
      subst h1
      exact ⟨s0, rfl, Or.inr ⟨hv, h2.symm⟩⟩
  | panic m s0 => simp only [bread, hg] at h; cases h
  | sleeps s0 => simp only [bread, hg] at h; cases h
  | undefined => simp only [bread, hg] at h; cases h
  | timeout => simp only [bread, hg] at h; cases h

/-- C8, amended.  On a well-formed cache whose `valid` fields are flags, a call of
`bread` that returns hands out one of the `NBUF` buffers, with `dev` and `blockno` equal
to the requested key, `valid = 1` and the sleep-lock held by the caller.  Its `refcnt` is
1 after a miss and the old `refcnt` plus one, modulo `2^32`, after a hit; so it is at
least 1 whenever the `refcnt` of the buffer was below `2^32 - 1` before the call.  The
call is the call of `bget` followed by exactly one disk read when the buffer `bget`
returned had `valid = 0`, and by no disk read otherwise; `bget` itself issues none. -/
theorem bread_returns_valid_locked (cfg : BConfig) (fuel pid dev blockno : Nat)
    (s s1 : Bcache) (p : Ptr) (L : Nat → List Nat)
    (hwf : WF cfg s.mem L) (hflag : ValidFlags cfg s.mem) (hfuel : cfg.NBUF < fuel)
    (h : bread cfg fuel pid dev blockno s = .ok p s1) :
    (∃ b, p = .buf b ∧ b < cfg.NBUF) ∧
    (s1.mem p).dev = dev ∧ (s1.mem p).blockno = blockno ∧ (s1.mem p).valid = 1 ∧
    (s1.mem p).lock = some pid ∧
    ((∃ b, p = .buf b ∧
        (L (myhash cfg blockno).toNat).find? (isKey s.mem dev blockno) = some b ∧
        (s1.mem p).refcnt = incr32 (s.mem p).refcnt) ∨
      ((L (myhash cfg blockno).toNat).find? (isKey s.mem dev blockno) = none ∧
        (s1.mem p).refcnt = 1)) ∧
    ((s.mem p).refcnt < 2 ^ 32 - 1 → 1 ≤ (s1.mem p).refcnt) ∧
    ∃ s0 lg, bget cfg fuel pid dev blockno s = .ok p s0 ∧
      s0.log = s.log ++ lg ∧ (∀ e, e ∈ lg → e.isDisk = false) ∧
      ((s0.mem p).valid = 0 → s1.log = s0.log ++ [.disk_rw p false]) ∧
      ((s0.mem p).valid ≠ 0 → s1.log = s0.log) := by
  obtain ⟨s0, hg, hcase⟩ := bread_ok cfg fuel pid dev blockno s s1 p h
  obtain ⟨b, L1, hp, hbn, _, hfst, hlock, hkind⟩ :=
    bget_ok_buffer cfg fuel pid dev blockno s s0 p L hwf hfuel hg
  obtain ⟨hdev, hblk⟩ := (isKey_iff _ _ _ _).mp (List.find?_some hfst)
  obtain ⟨_, b2, lg, _, _, hp2, _, hlog, hnd, _⟩ :=
    bget_ok_spec cfg fuel pid dev blockno s s0 p L hwf hfuel hg
  subst hp
  have hv0 : (s0.mem (.buf b)).valid ≤ 1 := by
    rcases hkind with ⟨_, _, h1, _⟩ | ⟨_, h1, _⟩
    · rw [h1]
      exact hflag b hbn
    · rw [h1]
      exact Nat.zero_le _
  have hcnt0 : ((L (myhash cfg blockno).toNat).find? (isKey s.mem dev blockno) = some b ∧
        (s0.mem (.buf b)).refcnt = incr32 (s.mem (.buf b)).refcnt) ∨
      ((L (myhash cfg blockno).toNat).find? (isKey s.mem dev blockno) = none ∧
        (s0.mem (.buf b)).refcnt = 1) := by
    rcases hkind with ⟨h0, _, _, h2⟩ | ⟨h0, _, h2⟩
    · exact Or.inl ⟨h0, h2⟩
    · exact Or.inr ⟨h0, h2⟩
  have hpos0 : (s.mem (.buf b)).refcnt < 2 ^ 32 - 1 → 1 ≤ (s0.mem (.buf b)).refcnt := by
    intro hlt
    rcases hcnt0 with ⟨_, h2⟩ | ⟨_, h2⟩
    · rw [h2]
      unfold incr32
      omega
    · rw [h2]
  have hlogs : ∃ lg2, s0.log = s.log ++ lg2 ∧ ∀ e, e ∈ lg2 → e.isDisk = false := by
    refine ⟨lg ++ [.acquiresleep (.buf b2)], by rw [hlog, List.append_assoc], ?_⟩
    exact noDisk_append _ _ hnd (by simp [Event.isDisk])
  obtain ⟨lg2, hlg2, hnd2⟩ := hlogs
  have hfin : ∀ r, r = (s0.mem (.buf b)).refcnt →
      ((∃ b3, Ptr.buf b = .buf b3 ∧
          (L (myhash cfg blockno).toNat).find? (isKey s.mem dev blockno) = some b3 ∧
          r = incr32 (s.mem (.buf b)).refcnt) ∨
        ((L (myhash cfg blockno).toNat).find? (isKey s.mem dev blockno) = none ∧ r = 1)) ∧
      ((s.mem (.buf b)).refcnt < 2 ^ 32 - 1 → 1 ≤ r) := by
    intro r hr
    rw [hr]
    refine ⟨?_, hpos0⟩
    rcases hcnt0 with ⟨h1, h2⟩ | ⟨h1, h2⟩
    · exact Or.inl ⟨b, rfl, h1, h2⟩
    · exact Or.inr ⟨h1, h2⟩
  rcases hcase with ⟨hv, hs1⟩ | ⟨hv, hs1⟩
  · have hcell : s1.mem (.buf b) = { s0.mem (.buf b) with valid := 1 } := by
      rw [hs1]
      simp only [modify, emit, write_same]
    obtain ⟨hc1, hc2⟩ := hfin (s1.mem (.buf b)).refcnt (by rw [hcell])
    refine ⟨⟨b, rfl, hbn⟩, ?_, ?_, ?_, ?_, hc1, hc2, s0, lg2, hg, hlg2, hnd2, ?_, ?_⟩
    · rw [hcell]; exact hdev
    · rw [hcell]; exact hblk
    · rw [hcell]
    · rw [hcell]; exact hlock
    · intro _
      rw [hs1]
      simp only [modify, emit]
    · intro hne
      exact absurd hv hne
  · subst hs1
    obtain ⟨hc1, hc2⟩ := hfin (s1.mem (.buf b)).refcnt rfl
    refine ⟨⟨b, rfl, hbn⟩, hdev, hblk, ?_, hlock, hc1, hc2, s1, lg2, hg, hlg2, hnd2, ?_, ?_⟩
    · omega
    · intro he
      exact absurd he hv
    · intro _
      rfl

/-! ### `brelse`, `bpin`, `bunpin` -/

/-- What `brelse` does when the caller holds the sleep-lock and the bucket index is in
bounds: it returns; only node `b` changes; its lock is free, its `refcnt` one less, its
`lastuse` set to `ticks` exactly when the new `refcnt` is 0. -/
theorem brelse_spec (cfg : BConfig) (pid : Nat) (b : Ptr) (s : Bcache)
    (hl : (s.mem b).lock = some pid) (hb : inBounds cfg (myhash cfg (s.mem b).blockno)) :
    ∃ s2, brelse cfg pid b s = .ok () s2 ∧ s2.ticks = s.ticks ∧
      s2.log = s.log ++ [.releasesleep b, .acquire (myhash cfg (s.mem b).blockno).toNat,
        .release (myhash cfg (s.mem b).blockno).toNat] ∧
      (∀ x, x ≠ b → s2.mem x = s.mem x) ∧
      s2.mem b = { s.mem b with
        lock := none
        refcnt := decr32 (s.mem b).refcnt
        lastuse := if decr32 (s.mem b).refcnt = 0 then s.ticks else (s.mem b).lastuse } := by
  have hh : holdingsleep pid b s = true := by
    simp only [holdingsleep, hl, beq_self_eq_true]
  have hblk : ((releasesleep b s).mem b).blockno = (s.mem b).blockno := by
    simp only [releasesleep, modify, emit, write_same]
  unfold brelse
  rw [if_neg (by simp [hh])]
  simp only
  rw [if_neg (by rw [hblk]; exact not_not.mpr hb)]
  by_cases hz : decr32 (s.mem b).refcnt = 0
  · refine ⟨_, rfl, ?_, ?_, ?_, ?_⟩
    · simp only [releasesleep, modify, emit, write_same, hz, if_true]
    · simp only [releasesleep, modify, emit, write_same, hz, if_true, List.append_assoc,
        List.singleton_append, List.cons_append, List.nil_append]
    · intro x hx
      simp only [releasesleep, modify, emit, write_same, hz, if_true, write_other _ _ _ _ hx]
    · simp only [releasesleep, modify, emit, write_same, hz, if_true]
  · refine ⟨_, rfl, ?_, ?_, ?_, ?_⟩
    · simp only [releasesleep, modify, emit, write_same, hz, if_false]
    · simp only [releasesleep, modify, emit, write_same, hz, if_false, List.append_assoc,
        List.singleton_append, List.cons_append, List.nil_append]
    · intro x hx
      simp only [releasesleep, modify, emit, write_same, hz, if_false, write_other _ _ _ _ hx]
    · simp only [releasesleep, modify, emit, write_same, hz, if_false]

/-- A returning `brelse`: the caller held the lock, the index was in bounds. -/
theorem brelse_ok (cfg : BConfig) (pid : Nat) (b : Ptr) (s s2 : Bcache)
    (h : brelse cfg pid b s = .ok () s2) :
    (s.mem b).lock = some pid ∧ inBounds cfg (myhash cfg (s.mem b).blockno) := by
  have hblk : ((releasesleep b s).mem b).blockno = (s.mem b).blockno := by
    simp only [releasesleep, modify, emit, write_same]
  unfold brelse at h
  by_cases hh : holdingsleep pid b s = true
  · rw [if_neg (by simp [hh])] at h
    simp only at h
    by_cases hb : inBounds cfg (myhash cfg (s.mem b).blockno)
    · refine ⟨?_, hb⟩
      simpa only [holdingsleep, beq_iff_eq] using hh
    · rw [if_pos (by rw [hblk]; exact hb)] at h
      cases h
  · rw [if_pos (by simp [hh])] at h
    cases h

theorem bpin_spec (cfg : BConfig) (b : Ptr) (s s2 : Bcache) (h : bpin cfg b s = .ok () s2) :
    inBounds cfg (myhash cfg (s.mem b).blockno) ∧ s2.ticks = s.ticks ∧
    s2.mem = write s.mem b (fun x => { x with refcnt := incr32 x.refcnt }) ∧
    s2.log = s.log ++ [.acquire (myhash cfg (s.mem b).blockno).toNat,
      .release (myhash cfg (s.mem b).blockno).toNat] := by
  unfold bpin at h
  by_cases hb : inBounds cfg (myhash cfg (s.mem b).blockno)
  · rw [if_neg (not_not.mpr hb)] at h
    injection h with _ h2
    subst h2
    refine ⟨hb, rfl, rfl, ?_⟩
    simp only [modify, emit, List.append_assoc, List.singleton_append]
  · rw [if_pos hb] at h
    cases h

theorem bunpin_spec (cfg : BConfig) (b : Ptr) (s s2 : Bcache) (h : bunpin cfg b s = .ok () s2) :
    inBounds cfg (myhash cfg (s.mem b).blockno) ∧ s2.ticks = s.ticks ∧
    s2.mem = write s.mem b (fun x => { x with refcnt := decr32 x.refcnt }) ∧
    s2.log = s.log ++ [.acquire (myhash cfg (s.mem b).blockno).toNat,
      .release (myhash cfg (s.mem b).blockno).toNat] := by
  unfold bunpin at h
  by_cases hb : inBounds cfg (myhash cfg (s.mem b).blockno)
  · rw [if_neg (not_not.mpr hb)] at h
    injection h with _ h2
    subst h2
    refine ⟨hb, rfl, rfl, ?_⟩
    simp only [modify, emit, List.append_assoc, List.singleton_append]
  · rw [if_pos hb] at h
    cases h

/-- The hit path of `bget`, when the first member of the home bucket with the requested
key is `b` and its sleep-lock is free. -/
theorem bget_hit (cfg : BConfig) (fuel pid dev blockno : Nat) (s : Bcache)
    (L : Nat → List Nat) (b : Nat) (hwf : WF cfg s.mem L) (hfuel : cfg.NBUF < fuel)
    (hb : inBounds cfg (myhash cfg blockno))
    (hfst : (L (myhash cfg blockno).toNat).find? (isKey s.mem dev blockno) = some b)
    (hl : (s.mem (.buf b)).lock = none) :
    ∃ lg, (∀ e, e ∈ lg → e.isDisk = false) ∧
      bget cfg fuel pid dev blockno s =
        .ok (.buf b)
          { mem := write (write s.mem (.buf b) (fun x => { x with refcnt := incr32 x.refcnt }))
              (.buf b) (fun x => { x with lock := some pid })
            ticks := s.ticks, log := s.log ++ lg } := by
  rcases bget_spec cfg fuel pid dev blockno s L hwf hfuel hb with
    ⟨b2, h1, lg, h2, h3⟩ | ⟨h0, _⟩ | ⟨h0, _⟩ | ⟨h0, _⟩
  · rw [hfst] at h1
    have : b = b2 := Option.some.inj h1
    subst this
    refine ⟨lg ++ [.acquiresleep (.buf b)],
      noDisk_append _ _ h2 (by simp [Event.isDisk]), ?_⟩
    rw [h3, acquiresleep_free]
    · simp only [List.append_assoc]
    · simp only [write_same]
      exact hl
  · rw [hfst] at h0; cases h0
  · rw [hfst] at h0; cases h0
  · rw [hfst] at h0; cases h0

/-- C7. Cache hit.  On a well-formed cache, if `bread(dev, blockno)` returns buffer `p`,
then `brelse(p)` by the same process returns, and a second `bread(dev, blockno)` returns
the same buffer `p`; the second `bread` logs no call of the disk driver; it increments
the `refcnt` of `p` and leaves its `dev`, `blockno` and `valid` as they were; and the
bucket lists before and after the second `bread` are the same lists. -/
theorem bread_brelse_bread_hit (cfg : BConfig) (fuel pid dev blockno : Nat)
    (s s1 : Bcache) (p : Ptr) (L : Nat → List Nat)
    (hwf : WF cfg s.mem L) (hfuel : cfg.NBUF < fuel)
    (h : bread cfg fuel pid dev blockno s = .ok p s1) :
    ∃ s2 s3, brelse cfg pid p s1 = .ok () s2 ∧
      bread cfg fuel pid dev blockno s2 = .ok p s3 ∧
      (∃ lg, s3.log = s2.log ++ lg ∧ ∀ e, e ∈ lg → e.isDisk = false) ∧
      (s3.mem p).refcnt = incr32 (s2.mem p).refcnt ∧
      (s3.mem p).dev = (s2.mem p).dev ∧ (s3.mem p).blockno = (s2.mem p).blockno ∧
      (s3.mem p).valid = (s2.mem p).valid ∧
      ∃ L1, WF cfg s2.mem L1 ∧ WF cfg s3.mem L1 := by
  obtain ⟨s0, hg, hcase⟩ := bread_ok cfg fuel pid dev blockno s s1 p h
  obtain ⟨b, L1, hp, _, hwf0, hfst0, hlock0, _⟩ :=
    bget_ok_buffer cfg fuel pid dev blockno s s0 p L hwf hfuel hg
  obtain ⟨hb, _⟩ := bget_ok_spec cfg fuel pid dev blockno s s0 p L hwf hfuel hg
  subst hp
  -- the state after the first `bread`
  have hs1 : (∀ x, x ≠ Ptr.buf b → s1.mem x = s0.mem x) ∧
      (∃ v, v ≠ 0 ∧ s1.mem (.buf b) = { s0.mem (.buf b) with valid := v }) := by
    rcases hcase with ⟨_, e⟩ | ⟨hv, e⟩
    · subst e
      refine ⟨fun x hx => ?_, 1, by decide, ?_⟩
      · simp only [modify, emit, write_other _ _ _ _ hx]
      · simp only [modify, emit, write_same]
    · subst e
      exact ⟨fun _ _ => rfl, (s1.mem (.buf b)).valid, hv, rfl⟩
  obtain ⟨hoth1, v, hv, hcell1⟩ := hs1
  have hkey1 : ∀ i, isKey s1.mem dev blockno i = isKey s0.mem dev blockno i := by
    intro i
    by_cases hi : i = b
    · subst hi
      simp only [isKey, hcell1]
    · simp only [isKey, hoth1 _ (fun e => hi (Ptr.buf.inj e))]
  have hwf1 : WF cfg s1.mem L1 := by
    apply wf_of_ptr_eq cfg s0.mem s1.mem L1 _ _ hwf0
    · intro x
      by_cases hx : x = .buf b
      · rw [hx, hcell1]
      · rw [hoth1 x hx]
    · intro x
      by_cases hx : x = .buf b
      · rw [hx, hcell1]
      · rw [hoth1 x hx]
  have hblk1 : (s1.mem (.buf b)).blockno = blockno := by
    rw [hcell1]
    exact ((isKey_iff _ _ _ _).mp (List.find?_some hfst0)).2
  have hlock1 : (s1.mem (.buf b)).lock = some pid := by
    rw [hcell1]; exact hlock0
  -- `brelse`
  obtain ⟨s2, hrel, _, _, hoth2, hcell2⟩ :=
    brelse_spec cfg pid (.buf b) s1 hlock1 (by rw [hblk1]; exact hb)
  have hkey2 : ∀ i, isKey s2.mem dev blockno i = isKey s0.mem dev blockno i := by
    intro i
    rw [← hkey1 i]
    by_cases hi : i = b
    · subst hi
      simp only [isKey, hcell2]
    · simp only [isKey, hoth2 _ (fun e => hi (Ptr.buf.inj e))]
  have hwf2 : WF cfg s2.mem L1 := by
    apply wf_of_ptr_eq cfg s1.mem s2.mem L1 _ _ hwf1
    · intro x
      by_cases hx : x = .buf b
      · rw [hx, hcell2]
      · rw [hoth2 x hx]
    · intro x
      by_cases hx : x = .buf b
      · rw [hx, hcell2]
      · rw [hoth2 x hx]
  have hfst2 : (L1 (myhash cfg blockno).toNat).find? (isKey s2.mem dev blockno) = some b := by
    rw [← hfst0]
    exact find_congr _ _ _ (fun i _ => hkey2 i)
  have hlock2 : (s2.mem (.buf b)).lock = none := by rw [hcell2]
  have hvalid2 : (s2.mem (.buf b)).valid ≠ 0 := by
    rw [hcell2, hcell1]; exact hv
  -- the second `bread`
  obtain ⟨lg, hnd, hget⟩ := bget_hit cfg fuel pid dev blockno s2 L1 b hwf2 hfuel hb hfst2 hlock2
  have hread := bread_of_bget_ok cfg fuel pid dev blockno s2 _ _ hget
  have hvalid3 : (write (write s2.mem (.buf b) (fun x => { x with refcnt := incr32 x.refcnt }))
      (.buf b) (fun x => { x with lock := some pid }) (.buf b)).valid ≠ 0 := by
    simp only [write_same]
    exact hvalid2
  rw [if_neg hvalid3] at hread
  refine ⟨s2, _, hrel, hread, ⟨lg, rfl, hnd⟩, ?_, ?_, ?_, ?_, L1, hwf2, ?_⟩
  · simp only [write_same]
  · simp only [write_same]
  · simp only [write_same]
  · simp only [write_same]
  · show WF cfg (write (write s2.mem (.buf b) (fun x => { x with refcnt := incr32 x.refcnt }))
      (.buf b) (fun x => { x with lock := some pid })) L1
    apply wf_write_data
    · exact fun _ => ⟨rfl, rfl⟩
    · apply wf_write_data
      · exact fun _ => ⟨rfl, rfl⟩
      · exact hwf2

/-! ### `binit` -/

theorem write_pristine (mem : Ptr → Buf) (p : Ptr) (f : Buf → Buf)
    (hf : ∀ y, Pristine y → Pristine (f y)) (h : ∀ x, Pristine (mem x)) :
    ∀ x, Pristine (write mem p f x) := by
  intro x
  by_cases hx : x = p
  · rw [hx, write_same]; exact hf _ (h p)
  · rw [write_other _ _ _ _ hx]; exact h x

theorem binit_bucket_spec (mem : Ptr → Buf) (i : Nat) (h : ∀ x, Pristine (mem x)) :
    (∀ x, Pristine (binit_bucket mem i x)) ∧ IsBucket (binit_bucket mem i) i [] ∧
    (∀ x, x ≠ .bucket i → binit_bucket mem i x = mem x) := by
  unfold binit_bucket
  refine ⟨?_, ⟨?_, ?_⟩, ?_⟩
  · exact write_pristine _ _ _ (fun y hy => hy) (write_pristine _ _ _ (fun y hy => hy) h)
  · simp only [write_same]
  · simp only [write_same]
  · intro x hx
    simp only [write_other _ _ _ _ hx]

theorem binit_buckets_spec (mem : Ptr → Buf) (h : ∀ x, Pristine (mem x)) (n : Nat) :
    (∀ x, Pristine ((List.range n).foldl binit_bucket mem x)) ∧
    (∀ k, k < n → IsBucket ((List.range n).foldl binit_bucket mem) k []) := by
  induction n with
  | zero => exact ⟨h, fun k hk => absurd hk (Nat.not_lt_zero k)⟩
  | succ n ih =>
    rw [List.range_succ, List.foldl_append]
    simp only [List.foldl_cons, List.foldl_nil]
    obtain ⟨h1, h2, h3⟩ := binit_bucket_spec _ n ih.1
    refine ⟨h1, ?_⟩
    intro k hk
    by_cases hkn : k = n
    · rw [hkn]; exact h2
    · have hne : Ptr.bucket k ≠ Ptr.bucket n := fun e => hkn (Ptr.bucket.inj e)
      have := ih.2 k (by omega)
      unfold IsBucket IsChain at this ⊢
      rw [h3 _ hne]
      exact this

/-- The stores of `binit_buf` are those of `insert_head` into bucket 0, followed by
`initsleeplock`. -/
theorem binit_buf_eq (mem : Ptr → Buf) (v : Nat) (h : (mem (.bucket 0)).next ≠ .buf v) :
    binit_buf mem v =
      write (insert_head mem 0 (.buf v)) (.buf v) (fun x => { x with lock := none }) := by
  rw [insert_head_eq]
  unfold binit_buf
  have hvh : Ptr.buf v ≠ Ptr.bucket 0 := buf_ne_bucket v 0
  have e1 : (write (write (write mem (.buf v) (fun x => { x with next := (mem (.bucket 0)).next }))
      (.buf v) (fun x => { x with prev := .bucket 0 })) (.buf v)
      (fun x => { x with lock := none }) (.bucket 0)).next = (mem (.bucket 0)).next := by
    rw [write_other _ _ _ _ hvh.symm, write_other _ _ _ _ hvh.symm,
      write_other _ _ _ _ hvh.symm]
  simp only [e1]
  generalize (mem (.bucket 0)).next = f at h
  funext x
  by_cases hxv : x = .buf v
  · subst hxv
    simp only [write_same, write_other _ _ _ _ hvh, write_other _ _ _ _ h.symm]
  · by_cases hxh : x = .bucket 0
    · subst hxh
      simp only [write_same, write_other _ _ _ _ hvh.symm]
      by_cases hf : Ptr.bucket 0 = f
      · subst hf
        simp only [write_same, write_other _ _ _ _ hvh.symm]
      · simp only [write_other _ _ _ _ hf, write_other _ _ _ _ hvh.symm]
    · simp only [write_other _ _ _ _ hxv, write_other _ _ _ _ hxh]
      by_cases hf : x = f
      · subst hf
        simp only [write_same, write_other _ _ _ _ hxv]
      · simp only [write_other _ _ _ _ hf, write_other _ _ _ _ hxv]

theorem binit_bufs_spec (cfg : BConfig) (mem : Ptr → Buf) (h : ∀ x, Pristine (mem x))
    (hb : ∀ k, k < cfg.NBUCKET → IsBucket mem k []) (h0 : 0 < cfg.NBUCKET) (n : Nat) :
    (∀ x, Pristine ((List.range n).foldl binit_buf mem x)) ∧
    IsBucket ((List.range n).foldl binit_buf mem) 0 (List.range n).reverse ∧
    (∀ k, k < cfg.NBUCKET → k ≠ 0 → IsBucket ((List.range n).foldl binit_buf mem) k []) := by
  induction n with
  | zero => exact ⟨h, hb 0 h0, fun k hk _ => hb k hk⟩
  | succ n ih =>
    obtain ⟨ih1, ih2, ih3⟩ := ih
    rw [List.range_succ, List.foldl_append]
    simp only [List.foldl_cons, List.foldl_nil, List.reverse_append, List.reverse_cons,
      List.reverse_nil, List.nil_append, List.singleton_append]
    generalize (List.range n).foldl binit_buf mem = m at ih1 ih2 ih3
    have hnin : n ∉ (List.range n).reverse := by
      rw [List.mem_reverse, List.mem_range]; exact Nat.lt_irrefl n
    have hnd : (List.range n).reverse.Nodup := List.nodup_reverse.mpr (List.nodup_range n)
    have hfirst : (m (.bucket 0)).next ≠ .buf n := by
      rw [isChain_first m _ _ _ ih2]
      rcases firstPtr_mem (List.range n).reverse (.bucket 0) with e | ⟨j, hj, e⟩
      · rw [e]; exact bucket_ne_buf n 0
      · rw [e]
        intro e2
        exact hnin ((Ptr.buf.inj e2) ▸ hj)
    rw [binit_buf_eq m n hfirst]
    refine ⟨?_, ?_, ?_⟩
    · apply write_pristine
      · intro y hy
        exact ⟨hy.1, hy.2.1, hy.2.2.1, rfl, hy.2.2.2.2.1, hy.2.2.2.2.2⟩
      · intro x
        have hd := insert_head_data m 0 (.buf n) x
        have hp := ih1 x
        exact ⟨hd.1.trans hp.1, hd.2.1.trans hp.2.1, hd.2.2.1.trans hp.2.2.1,
          hd.2.2.2.1.trans hp.2.2.2.1, hd.2.2.2.2.1.trans hp.2.2.2.2.1,
          hd.2.2.2.2.2.trans hp.2.2.2.2.2⟩
    · apply isChain_of_ptr_eq (insert_head m 0 (.buf n)) _ _ _ _ _ _
        (insert_bucket m 0 n _ ih2 hnin hnd)
      · intro x
        by_cases hx : x = .buf n
        · rw [hx, write_same]
        · rw [write_other _ _ _ _ hx]
      · intro x
        by_cases hx : x = .buf n
        · rw [hx, write_same]
        · rw [write_other _ _ _ _ hx]
    · intro k hk hk0
      apply isChain_of_ptr_eq (insert_head m 0 (.buf n)) _ _ _ _ _ _
        (insert_other_bucket m 0 n k _ [] ih2 (ih3 k hk hk0) hk0 (List.not_mem_nil n)
          (fun i hi => absurd hi (List.not_mem_nil i)))
      · intro x
        by_cases hx : x = .buf n
        · rw [hx, write_same]
        · rw [write_other _ _ _ _ hx]
      · intro x
        by_cases hx : x = .buf n
        · rw [hx, write_same]
        · rw [write_other _ _ _ _ hx]

theorem allBufs_initLists (cfg : BConfig) (n : Nat) (h : 0 < n) :
    allBufs n (initLists cfg) = (List.range cfg.NBUF).reverse := by
  induction n with
  | zero => omega
  | succ n ih =>
    rw [allBufs_succ]
    by_cases hn : n = 0
    · subst hn
      simp [allBufs, initLists]
    · rw [ih (by omega)]
      simp [initLists, hn]

theorem myhash_zero (cfg : BConfig) : myhash cfg 0 = ((0 : Nat) : Int) := by
  simp [myhash, toInt32]

/-- `binit` establishes the invariant: all buffers are in bucket 0, none is in use. -/
theorem binit_inv (cfg : BConfig) (h0 : 0 < cfg.NBUCKET) :
    Inv cfg (binit cfg zeroed).mem (initLists cfg) [] ∧
    ∀ x, Pristine ((binit cfg zeroed).mem x) := by
  have hz : ∀ x, Pristine (zeroed.mem x) := fun _ => ⟨rfl, rfl, rfl, rfl, rfl, rfl⟩
  obtain ⟨h1, h2⟩ := binit_buckets_spec zeroed.mem hz cfg.NBUCKET
  obtain ⟨h3, h4, h5⟩ := binit_bufs_spec cfg _ h1 h2 h0 cfg.NBUF
  have hmem : (binit cfg zeroed).mem =
      (List.range cfg.NBUF).foldl binit_buf
        ((List.range cfg.NBUCKET).foldl binit_bucket zeroed.mem) := rfl
  rw [hmem]
  refine ⟨⟨⟨?_, ?_, ?_⟩, ?_, fun p hp => absurd hp (List.not_mem_nil p), ?_⟩, h3⟩
  · intro k hk
    by_cases hk0 : k = 0
    · subst hk0
      simp only [initLists, if_true]
      exact h4
    · simp only [initLists, if_neg hk0]
      exact h5 k hk hk0
  · rw [allBufs_initLists cfg _ h0]
    exact List.nodup_reverse.mpr (List.nodup_range _)
  · intro i
    rw [allBufs_initLists cfg _ h0, List.mem_reverse, List.mem_range]
  · intro k hk i hi
    by_cases hk0 : k = 0
    · subst hk0
      rw [(h3 (.buf i)).2.2.1]
      exact myhash_zero cfg
    · simp only [initLists, if_neg hk0] at hi
      exact absurd hi (List.not_mem_nil i)
  · intro k _
    apply List.pairwise_of_forall_mem_list
    intro a _ b _ hact
    exfalso
    have hp := h3 (.buf b)
    rcases hact with (h | h | h) | h
    · exact h hp.1
    · exact h hp.2.2.2.2.1
    · exact h hp.2.2.2.1
    · exact absurd h (List.not_mem_nil _)

/-! ### Buffer uniqueness: the invariant and its preservation -/

theorem active_of_sameData (mem mem1 : Ptr → Buf) (i : Nat)
    (h : SameData (mem1 (.buf i)) (mem (.buf i))) : Active mem1 i ↔ Active mem i := by
  unfold Active
  rw [h.1, h.2.2.2.1, h.2.2.2.2.1]

theorem sameBlock_of_sameData (mem mem1 : Ptr → Buf) (a c : Nat)
    (ha : SameData (mem1 (.buf a)) (mem (.buf a)))
    (hc : SameData (mem1 (.buf c)) (mem (.buf c))) :
    SameBlock mem1 a c ↔ SameBlock mem a c := by
  unfold SameBlock
  rw [ha.2.1, ha.2.2.1, hc.2.1, hc.2.2.1]

theorem isKey_false_iff (mem : Ptr → Buf) (dev blockno i : Nat) :
    isKey mem dev blockno i = false ↔
      ¬ ((mem (.buf i)).dev = dev ∧ (mem (.buf i)).blockno = blockno) := by
  rw [← isKey_iff, Bool.not_eq_true]

/-- After buffer `b` has received the key `(dev, blockno)`, in a list in which no other
member carries that key, the first-match property still holds. -/
theorem first_after_init (mem mem1 : Ptr → Buf) (dev blockno b : Nat) (l : List Nat)
    (R R1 : List Ptr) (hnd : l.Nodup)
    (hR : ∀ c, c ≠ b → Ptr.buf c ∈ R1 → Ptr.buf c ∈ R)
    (hoth : ∀ i, i ≠ b → SameData (mem1 (.buf i)) (mem (.buf i)))
    (hkeyb : (mem1 (.buf b)).dev = dev ∧ (mem1 (.buf b)).blockno = blockno)
    (hno : b ∈ l → ∀ i, i ∈ l → i ≠ b → isKey mem dev blockno i = false)
    (h : l.Pairwise (fun a c => (Active mem c ∨ Ptr.buf c ∈ R) → ¬ SameBlock mem a c)) :
    l.Pairwise (fun a c => (Active mem1 c ∨ Ptr.buf c ∈ R1) → ¬ SameBlock mem1 a c) := by
  have hne : l.Pairwise (fun a c => a ≠ c) := hnd
  refine (h.and hne).imp_of_mem ?_
  intro a c ha hc hR0 hact hsb
  obtain ⟨hR0, hac⟩ := hR0
  by_cases hcb : c = b
  · subst hcb
    have hab : a ≠ c := hac
    have hk := (isKey_false_iff _ _ _ _).mp (hno hc a ha hab)
    apply hk
    have hda := hoth a hab
    rw [← hda.2.1, ← hda.2.2.1]
    exact ⟨hsb.1.trans hkeyb.1, hsb.2.trans hkeyb.2⟩
  · by_cases hab : a = b
    · subst hab
      have hk := (isKey_false_iff _ _ _ _).mp (hno ha c hc hcb)
      apply hk
      have hdc := hoth c hcb
      rw [← hdc.2.1, ← hdc.2.2.1]
      exact ⟨hsb.1.symm.trans hkeyb.1, hsb.2.symm.trans hkeyb.2⟩
    · refine hR0 ?_ ((sameBlock_of_sameData mem mem1 a c (hoth a hab) (hoth c hcb)).mp hsb)
      rcases hact with h1 | h1
      · exact Or.inl ((active_of_sameData mem mem1 c (hoth c hcb)).mp h1)
      · exact Or.inr (hR c hcb h1)

theorem pairwise_first_of_find (l : List Nat) (f : Nat → Bool) (b : Nat) (hnd : l.Nodup)
    (h : l.find? f = some b) : l.Pairwise (fun a c => c = b → f a = false) := by
  induction l with
  | nil => exact List.Pairwise.nil
  | cons x l ih =>
    have hnd1 := List.nodup_cons.mp hnd
    rw [List.pairwise_cons]
    by_cases hx : f x = true
    · simp only [List.find?_cons, hx] at h
      have hxb : x = b := Option.some.inj h
      subst hxb
      refine ⟨fun c hc e => absurd (e ▸ hc) hnd1.1, ?_⟩
      apply List.pairwise_of_forall_mem_list
      intro a _ c hc e
      exact absurd (e ▸ hc) hnd1.1
    · rw [Bool.not_eq_true] at hx
      simp only [List.find?_cons, hx] at h
      exact ⟨fun c _ _ => hx, ih hnd1.2 h⟩

/-- After a hit on `b`, the first member of the list with the key, the first-match
property still holds whatever `b` has become. -/
theorem first_after_hit (mem mem1 : Ptr → Buf) (dev blockno b : Nat) (l : List Nat)
    (R R1 : List Ptr) (hnd : l.Nodup)
    (hR : ∀ c, c ≠ b → Ptr.buf c ∈ R1 → Ptr.buf c ∈ R)
    (hoth : ∀ i, i ≠ b → SameData (mem1 (.buf i)) (mem (.buf i)))
    (hkeyb : (mem1 (.buf b)).dev = (mem (.buf b)).dev ∧
      (mem1 (.buf b)).blockno = (mem (.buf b)).blockno)
    (hfind : l.find? (isKey mem dev blockno) = some b)
    (h : l.Pairwise (fun a c => (Active mem c ∨ Ptr.buf c ∈ R) → ¬ SameBlock mem a c)) :
    l.Pairwise (fun a c => (Active mem1 c ∨ Ptr.buf c ∈ R1) → ¬ SameBlock mem1 a c) := by
  have hne : l.Pairwise (fun a c => a ≠ c) := hnd
  have hq := pairwise_first_of_find l _ b hnd hfind
  have hkb := (isKey_iff _ _ _ _).mp (List.find?_some hfind)
  refine ((h.and hne).and hq).imp ?_
  intro a c hR0 hact hsb
  obtain ⟨⟨hR0, hac⟩, hq⟩ := hR0
  have hblock : SameBlock mem a c := by
    unfold SameBlock at hsb ⊢
    by_cases hab : a = b
    · by_cases hcb : c = b
      · exact absurd (hab.trans hcb.symm) hac
      · have hdc := hoth c hcb
        rw [hdc.2.1, hdc.2.2.1, hab, hkeyb.1, hkeyb.2] at hsb
        rw [hab]; exact hsb
    · have hda := hoth a hab
      by_cases hcb : c = b
      · rw [hda.2.1, hda.2.2.1, hcb, hkeyb.1, hkeyb.2] at hsb
        rw [hcb]; exact hsb
      · have hdc := hoth c hcb
        rw [hda.2.1, hda.2.2.1, hdc.2.1, hdc.2.2.1] at hsb
        exact hsb
  by_cases hcb : c = b
  · have hk := (isKey_false_iff _ _ _ _).mp (hq hcb)
    apply hk
    rw [hcb] at hblock
    exact ⟨hblock.1.trans hkb.1, hblock.2.trans hkb.2⟩
  · refine hR0 ?_ hblock
    rcases hact with h1 | h1
    · exact Or.inl ((active_of_sameData mem mem1 c (hoth c hcb)).mp h1)
    · exact Or.inr (hR c hcb h1)

/-- Stores that keep the pointers and the keys, and put in use only buffers that have
been handed out, keep the invariant. -/
theorem inv_of_same (cfg : BConfig) (mem mem1 : Ptr → Buf) (L : Nat → List Nat)
    (R : List Ptr) (h : Inv cfg mem L R)
    (hn : ∀ x, (mem1 x).next = (mem x).next) (hp : ∀ x, (mem1 x).prev = (mem x).prev)
    (hkey : ∀ i, (mem1 (.buf i)).dev = (mem (.buf i)).dev ∧
      (mem1 (.buf i)).blockno = (mem (.buf i)).blockno)
    (hact : ∀ i, Active mem1 i → Active mem i ∨ Ptr.buf i ∈ R) : Inv cfg mem1 L R := by
  refine ⟨wf_of_ptr_eq cfg mem mem1 L hn hp h.wf, ?_, h.pool, ?_⟩
  · intro k hk i hi
    rw [(hkey i).2]
    exact h.homed k hk i hi
  · intro k hk
    refine (h.first k hk).imp ?_
    intro a c hR hact1 hsb
    refine hR ?_ ?_
    · rcases hact1 with h1 | h1
      · exact hact c h1
      · exact Or.inr h1
    · unfold SameBlock at hsb ⊢
      rw [(hkey a).1, (hkey a).2, (hkey c).1, (hkey c).2] at hsb
      exact hsb

/-- The invariant implies property P3. -/
theorem p3_of_inv (cfg : BConfig) (mem : Ptr → Buf) (L : Nat → List Nat) (R : List Ptr)
    (h : Inv cfg mem L R) : P3 cfg mem := by
  intro i j hi hj hsb hai haj
  by_contra hij
  obtain ⟨k1, hk1, hik⟩ := (mem_allBufs _ _ _).mp ((h.wf.cover i).mpr hi)
  obtain ⟨k2, hk2, hjk⟩ := (mem_allBufs _ _ _).mp ((h.wf.cover j).mpr hj)
  have e1 := h.homed k1 hk1 i hik
  have e2 := h.homed k2 hk2 j hjk
  rw [hsb.2, e2] at e1
  have hk : k2 = k1 := by exact_mod_cast e1
  subst hk
  have acti : Active mem i := by
    rcases hai with h1 | h1
    · left; rw [h1]; decide
    · right; left; omega
  have actj : Active mem j := by
    rcases haj with h1 | h1
    · left; rw [h1]; decide
    · right; left; omega
  have hsym : (L k2).Pairwise (fun a c =>
      ((Active mem c ∨ Ptr.buf c ∈ R) → ¬ SameBlock mem a c) ∨
      ((Active mem a ∨ Ptr.buf a ∈ R) → ¬ SameBlock mem c a)) :=
    (h.first k2 hk1).imp (fun hR => Or.inl hR)
  have hS : Symmetric (fun a c : Nat =>
      ((Active mem c ∨ Ptr.buf c ∈ R) → ¬ SameBlock mem a c) ∨
      ((Active mem a ∨ Ptr.buf a ∈ R) → ¬ SameBlock mem c a)) := by
    intro a c hac
    exact hac.symm
  rcases hsym.forall hS hik hjk hij with h1 | h1
  · exact h1 (Or.inl actj) hsb
  · exact h1 (Or.inl acti) ⟨hsb.1.symm, hsb.2.symm⟩

/-- A returning `bget` keeps the invariant. -/
theorem bget_inv (cfg : BConfig) (fuel pid dev blockno : Nat) (s s1 : Bcache) (p : Ptr)
    (L : Nat → List Nat) (R : List Ptr) (hinv : Inv cfg s.mem L R) (hfuel : cfg.NBUF < fuel)
    (h : bget cfg fuel pid dev blockno s = .ok p s1) :
    ∃ L1, Inv cfg s1.mem L1 (p :: R) := by
  obtain ⟨b0, _, hp0, hb0, _⟩ :=
    bget_ok_buffer cfg fuel pid dev blockno s s1 p L hinv.wf hfuel h
  obtain ⟨hb, b, lg, M, L1, hp, _, _, _, hmem, _, hwfM, hcase⟩ :=
    bget_ok_spec cfg fuel pid dev blockno s s1 p L hinv.wf hfuel h
  have hbb : b = b0 := Ptr.buf.inj (hp.symm.trans hp0)
  subst hbb
  subst hp
  have hpool : ∀ q, q ∈ Ptr.buf b :: R → ∃ i, i < cfg.NBUF ∧ q = .buf i := by
    intro q hq
    rcases List.mem_cons.mp hq with e | e
    · exact ⟨b, hb0, e⟩
    · exact hinv.pool q e
  have hR : ∀ c, c ≠ b → Ptr.buf c ∈ Ptr.buf b :: R → Ptr.buf c ∈ R := by
    intro c hc hm
    rcases List.mem_cons.mp hm with e | e
    · exact absurd (Ptr.buf.inj e) hc
    · exact e
  have hid := inBounds_toNat_lt cfg _ hb
  have hidz : ((myhash cfg blockno).toNat : Int) = myhash cfg blockno :=
    Int.toNat_of_nonneg hb.1
  generalize (myhash cfg blockno).toNat = id at hid hidz hcase
  obtain ⟨hnd, hdis⟩ := allBufs_nodup_parts cfg.NBUCKET L hinv.wf.nodup
  have hwf1 : WF cfg s1.mem L1 := by
    rw [hmem]
    exact wf_write_data cfg M L1 _ _ (fun _ => ⟨rfl, rfl⟩) hwfM
  have hcell : s1.mem (.buf b) = { M (.buf b) with lock := some pid } := by
    rw [hmem, write_same]
  have hother : ∀ i, i ≠ b → s1.mem (.buf i) = M (.buf i) := by
    intro i hi
    rw [hmem, write_other _ _ _ _ (fun e => hi (Ptr.buf.inj e))]
  have hinitb : bufinit s.mem (.buf b) dev blockno (.buf b) =
      { s.mem (.buf b) with dev := dev, blockno := blockno, valid := 0, refcnt := 1 } := by
    unfold bufinit; rw [write_same]
  have hinito : ∀ i, i ≠ b → bufinit s.mem (.buf b) dev blockno (.buf i) = s.mem (.buf i) :=
    fun i hi => bufinit_key _ _ _ _ _ (fun e => hi (Ptr.buf.inj e))
  rcases hcase with ⟨hfind, hM, hL⟩ | ⟨hfind, hpv, hM, hL⟩ |
    ⟨hfind, _, j, hj, hjne, hpv, _, hM, hL⟩
  · -- hit
    subst hL
    have hbin : b ∈ L1 id := List.mem_of_find?_eq_some hfind
    have hoth : ∀ i, i ≠ b → SameData (s1.mem (.buf i)) (s.mem (.buf i)) := by
      intro i hi
      rw [hother i hi, hM, write_other _ _ _ _ (fun e => hi (Ptr.buf.inj e))]
      exact sameData_refl _
    have hkb : (s1.mem (.buf b)).dev = (s.mem (.buf b)).dev ∧
        (s1.mem (.buf b)).blockno = (s.mem (.buf b)).blockno := by
      rw [hcell, hM, write_same]
      exact ⟨rfl, rfl⟩
    have hkey := (isKey_iff _ _ _ _).mp (List.find?_some hfind)
    refine ⟨L1, hwf1, ?_, hpool, ?_⟩
    · intro k hk i hi
      by_cases hib : i = b
      · rw [hib, hkb.2, ← hib]; exact hinv.homed k hk i hi
      · rw [(hoth i hib).2.2.1]; exact hinv.homed k hk i hi
    · intro k hk
      by_cases hkid : k = id
      · subst hkid
        exact first_after_hit s.mem s1.mem dev blockno b _ R _ (hnd k hk) hR hoth hkb hfind
          (hinv.first k hk)
      · apply first_after_init s.mem s1.mem dev blockno b _ R _ (hnd k hk) hR hoth
          ⟨hkb.1.trans hkey.1, hkb.2.trans hkey.2⟩ _ (hinv.first k hk)
        intro hbk
        exact absurd hbk (hdis id k hid hk (Ne.symm hkid) b hbin)
  · -- victim in the home bucket
    subst hL
    have hbin : b ∈ L1 id := (pickVictim_idle _ _ _ _ hpv).1
    have hoth : ∀ i, i ≠ b → SameData (s1.mem (.buf i)) (s.mem (.buf i)) := by
      intro i hi
      rw [hother i hi, hM, hinito i hi]
      exact sameData_refl _
    have hkb : (s1.mem (.buf b)).dev = dev ∧ (s1.mem (.buf b)).blockno = blockno := by
      rw [hcell, hM, hinitb]
      exact ⟨rfl, rfl⟩
    refine ⟨L1, hwf1, ?_, hpool, ?_⟩
    · intro k hk i hi
      by_cases hib : i = b
      · subst hib
        have hkid : k = id := by
          by_contra hne
          exact hdis id k hid hk (Ne.symm hne) i hbin hi
        rw [hkb.2, hkid, hidz]
      · rw [(hoth i hib).2.2.1]; exact hinv.homed k hk i hi
    · intro k hk
      apply first_after_init s.mem s1.mem dev blockno b _ R _ (hnd k hk) hR hoth hkb _
        (hinv.first k hk)
      intro hbk i hi _
      have hkid : k = id := by
        by_contra hne
        exact hdis id k hid hk (Ne.symm hne) b hbin hbk
      subst hkid
      have := List.find?_eq_none.mp hfind i hi
      rw [Bool.not_eq_true] at this
      exact this
  · -- steal
    have hbin : b ∈ L j := (pickVictim_idle _ _ _ _ hpv).1
    have hbid : b ∉ L id := hdis j id hj hid hjne b hbin
    have hoth : ∀ i, i ≠ b → SameData (s1.mem (.buf i)) (s.mem (.buf i)) := by
      intro i hi
      rw [hother i hi, hM]
      have := sameData_trans _ _ _ (insert_head_data (unlink (bufinit s.mem (.buf b) dev blockno)
        (.buf b)) id (.buf b) (.buf i)) (unlink_data _ _ _)
      rw [hinito i hi] at this
      exact this
    have hkb : (s1.mem (.buf b)).dev = dev ∧ (s1.mem (.buf b)).blockno = blockno := by
      have := sameData_trans _ _ _ (insert_head_data (unlink (bufinit s.mem (.buf b) dev blockno)
        (.buf b)) id (.buf b) (.buf b)) (unlink_data _ _ _)
      rw [hinitb] at this
      rw [hcell, hM]
      exact ⟨this.2.1, this.2.2.1⟩
    have hmemL1 : ∀ k i, i ∈ L1 k → i ≠ b → i ∈ L k := by
      intro k i hi hib
      rw [hL] at hi
      by_cases hkid : k = id
      · rw [hkid, Function.update_same] at hi
        rcases List.mem_cons.mp hi with e | e
        · exact absurd e hib
        · rw [hkid]; exact e
      · rw [Function.update_noteq hkid] at hi
        by_cases hkj : k = j
        · rw [hkj, Function.update_same] at hi
          rw [hkj]; exact List.mem_of_mem_erase hi
        · rw [Function.update_noteq hkj] at hi
          exact hi
    have hnoid : ∀ c, c ∈ L id → isKey s.mem dev blockno c = false := by
      intro c hc
      have := List.find?_eq_none.mp hfind c hc
      rw [Bool.not_eq_true] at this
      exact this
    refine ⟨L1, hwf1, ?_, hpool, ?_⟩
    · intro k hk i hi
      by_cases hib : i = b
      · subst hib
        have hkid : k = id := by
          by_contra hne
          have h1 : i ∈ L1 id := by rw [hL, Function.update_same]; exact List.mem_cons_self _ _
          exact (allBufs_nodup_parts cfg.NBUCKET L1 hwf1.nodup).2 id k hid hk (Ne.symm hne) i h1 hi
        rw [hkb.2, hkid, hidz]
      · rw [(hoth i hib).2.2.1]
        exact hinv.homed k hk i (hmemL1 k i hi hib)
    · intro k hk
      by_cases hkid : k = id
      · rw [hL, hkid, Function.update_same, List.pairwise_cons]
        constructor
        · intro c hc _ hsb
          have hcb : c ≠ b := fun e => hbid (e ▸ hc)
          have hk2 := (isKey_false_iff _ _ _ _).mp (hnoid c hc)
          apply hk2
          have hdc := hoth c hcb
          rw [← hdc.2.1, ← hdc.2.2.1]
          exact ⟨hsb.1.symm.trans hkb.1, hsb.2.symm.trans hkb.2⟩
        · exact first_after_init s.mem s1.mem dev blockno b _ R _ (hnd id hid) hR hoth hkb
            (fun hbk => absurd hbk hbid) (hinv.first id hid)
      · rw [hL, Function.update_noteq hkid]
        by_cases hkj : k = j
        · rw [hkj, Function.update_same]
          have hsub := List.erase_sublist b (L j)
          apply first_after_init s.mem s1.mem dev blockno b _ R _ ((hnd j hj).sublist hsub) hR hoth hkb
            _ ((hinv.first j hj).sublist hsub)
          intro hbk
          exact absurd hbk (fun hm => ((List.Nodup.mem_erase_iff (hnd j hj)).mp hm).1 rfl)
        · rw [Function.update_noteq hkj]
          apply first_after_init s.mem s1.mem dev blockno b _ R _ (hnd k hk) hR hoth hkb _
            (hinv.first k hk)
          intro hbk
          exact absurd hbk (hdis j k hj hk (Ne.symm hkj) b hbin)

theorem bread_inv (cfg : BConfig) (fuel pid dev blockno : Nat) (s s1 : Bcache) (p : Ptr)
    (L : Nat → List Nat) (R : List Ptr) (hinv : Inv cfg s.mem L R) (hfuel : cfg.NBUF < fuel)
    (h : bread cfg fuel pid dev blockno s = .ok p s1) :
    ∃ L1, Inv cfg s1.mem L1 (p :: R) := by
  obtain ⟨s0, hg, hcase⟩ := bread_ok cfg fuel pid dev blockno s s1 p h
  obtain ⟨L1, hinv0⟩ := bget_inv cfg fuel pid dev blockno s s0 p L R hinv hfuel hg
  obtain ⟨b, _, hp, _, _, _, hlock, _⟩ :=
    bget_ok_buffer cfg fuel pid dev blockno s s0 p L hinv.wf hfuel hg
  rcases hcase with ⟨_, e⟩ | ⟨_, e⟩
  · subst e hp
    refine ⟨L1, inv_of_same cfg s0.mem _ L1 _ hinv0 ?_ ?_ ?_ ?_⟩
    · intro x
      show (write s0.mem (.buf b) (fun x => { x with valid := 1 }) x).next = _
      by_cases hx : x = .buf b
      · rw [hx, write_same]
      · rw [write_other _ _ _ _ hx]
    · intro x
      show (write s0.mem (.buf b) (fun x => { x with valid := 1 }) x).prev = _
      by_cases hx : x = .buf b
      · rw [hx, write_same]
      · rw [write_other _ _ _ _ hx]
    · intro i
      show (write s0.mem (.buf b) (fun x => { x with valid := 1 }) (.buf i)).dev = _ ∧
        (write s0.mem (.buf b) (fun x => { x with valid := 1 }) (.buf i)).blockno = _
      by_cases hx : Ptr.buf i = .buf b
      · rw [hx, write_same]; exact ⟨rfl, rfl⟩
      · rw [write_other _ _ _ _ hx]; exact ⟨rfl, rfl⟩
    · intro i hact
      by_cases hib : i = b
      · subst hib
        exact Or.inr (List.mem_cons_self _ _)
      · left
        have e : (modify (emit s0 (.disk_rw (.buf b) false)) (.buf b)
            (fun x => { x with valid := 1 })).mem (.buf i) = s0.mem (.buf i) := by
          simp only [modify, emit]
          rw [write_other _ _ _ _ (fun e => hib (Ptr.buf.inj e))]
        unfold Active at hact ⊢
        rw [e] at hact
        exact hact
  · subst e
    exact ⟨L1, hinv0⟩

theorem brelse_inv (cfg : BConfig) (pid : Nat) (p : Ptr) (s s1 : Bcache) (L : Nat → List Nat)
    (R : List Ptr) (hinv : Inv cfg s.mem L R) (hp : p ∈ R)
    (h : brelse cfg pid p s = .ok () s1) : Inv cfg s1.mem L R := by
  obtain ⟨i, _, hpi⟩ := hinv.pool p hp
  subst hpi
  obtain ⟨hl, hb⟩ := brelse_ok cfg pid _ s s1 h
  obtain ⟨s2, h2, _, _, hoth, hcell⟩ := brelse_spec cfg pid (.buf i) s hl hb
  rw [h2] at h
  injection h with _ h
  subst h
  refine inv_of_same cfg s.mem _ L R hinv ?_ ?_ ?_ ?_
  · intro x
    by_cases hx : x = .buf i
    · rw [hx, hcell]
    · rw [hoth x hx]
  · intro x
    by_cases hx : x = .buf i
    · rw [hx, hcell]
    · rw [hoth x hx]
  · intro j
    by_cases hx : Ptr.buf j = .buf i
    · rw [hx, hcell]; exact ⟨rfl, rfl⟩
    · rw [hoth _ hx]; exact ⟨rfl, rfl⟩
  · intro j hact
    by_cases hji : j = i
    · subst hji
      exact Or.inr hp
    · left
      unfold Active at hact ⊢
      rw [hoth _ (fun e => hji (Ptr.buf.inj e))] at hact
      exact hact

theorem refcnt_write_inv (cfg : BConfig) (p : Ptr) (mem : Ptr → Buf) (f : Nat → Nat)
    (L : Nat → List Nat) (R : List Ptr) (hinv : Inv cfg mem L R) (hp : p ∈ R) :
    Inv cfg (write mem p (fun x => { x with refcnt := f x.refcnt })) L R := by
  obtain ⟨i, _, hpi⟩ := hinv.pool p hp
  subst hpi
  refine inv_of_same cfg mem _ L R hinv ?_ ?_ ?_ ?_
  · intro x
    by_cases hx : x = .buf i
    · rw [hx, write_same]
    · rw [write_other _ _ _ _ hx]
  · intro x
    by_cases hx : x = .buf i
    · rw [hx, write_same]
    · rw [write_other _ _ _ _ hx]
  · intro j
    by_cases hx : Ptr.buf j = .buf i
    · rw [hx, write_same]; exact ⟨rfl, rfl⟩
    · rw [write_other _ _ _ _ hx]; exact ⟨rfl, rfl⟩
  · intro j hact
    by_cases hji : j = i
    · subst hji
      exact Or.inr hp
    · left
      unfold Active at hact ⊢
      rw [write_other _ _ _ _ (fun e => hji (Ptr.buf.inj e))] at hact
      exact hact

/-- Every state reachable by calls on pointers that `bget` or `bread` handed out
satisfies the invariant. -/
theorem reach_inv (cfg : BConfig) (h0 : 0 < cfg.NBUCKET) (s : Bcache) (R : List Ptr)
    (hr : Reach cfg false s R) : ∃ L, Inv cfg s.mem L R := by
  induction hr with
  | init => exact ⟨initLists cfg, (binit_inv cfg h0).1⟩
  | tick s R _ ih => exact ih
  | bget s s1 R fuel pid dev blockno p _ hfuel hcall ih =>
    obtain ⟨L, hinv⟩ := ih
    exact bget_inv cfg fuel pid dev blockno s s1 p L R hinv hfuel hcall
  | bread s s1 R fuel pid dev blockno p _ hfuel hcall ih =>
    obtain ⟨L, hinv⟩ := ih
    exact bread_inv cfg fuel pid dev blockno s s1 p L R hinv hfuel hcall
  | brelse s s1 R pid p _ hp hcall ih =>
    obtain ⟨L, hinv⟩ := ih
    exact ⟨L, brelse_inv cfg pid p s s1 L R hinv hp hcall⟩
  | bpin s s1 R p _ hp hcall ih =>
    obtain ⟨L, hinv⟩ := ih
    obtain ⟨_, _, hmem, _⟩ := bpin_spec cfg _ s s1 hcall
    rw [hmem]
    rcases hp with e | hp
    · cases e
    · exact ⟨L, refcnt_write_inv cfg p s.mem incr32 L R hinv hp⟩
  | bunpin s s1 R p _ hp hcall ih =>
    obtain ⟨L, hinv⟩ := ih
    obtain ⟨_, _, hmem, _⟩ := bunpin_spec cfg _ s s1 hcall
    rw [hmem]
    exact ⟨L, refcnt_write_inv cfg p s.mem decr32 L R hinv hp⟩

theorem reach_stTwo : Reach c22 true stTwo [.buf 1] :=
  Reach.bread stPin stTwo [] 3 7 0 0 (.buf 1)
    (Reach.bpin st0 stPin [] (.buf 0) Reach.init (Or.inl rfl) rfl) (by decide) rfl

/-- Remark on the protocol.  `bpin` itself has no guard: if it is given a buffer that
nobody holds, P3 fails.  After `binit` all buffers carry the key `(0, 0)`; `bpin` of
`&bcache.buf[0]`, which no call has handed out, gives buffer 0 `refcnt = 1`;
`bread(0, 0)` then hits buffer 1, the first member of bucket 0.  Two buffers now have the
key `(0, 0)` and `refcnt > 0`.  Such a call is outside the protocol. -/
theorem bpin_unheld_breaks_uniqueness :
    ¬ (∀ s R, Reach c22 true s R → P3 c22 s.mem) := by
  intro h
  have h1 := h stTwo _ reach_stTwo 0 1 (by decide) (by decide) (by decide) (by decide)
    (by decide)
  exact absurd h1 (by decide)

/-- C9. Buffer uniqueness P3: in every state reachable from `binit` by timer ticks and
returning calls of `bget`, `bread`, `brelse`, `bpin` and `bunpin` that respect the
protocol (the last three applied only to buffers that `bget` or `bread` handed out, a
returning `brelse` being one whose caller holds the sleep-lock), for every key
`(dev, blockno)` at most one of the `NBUF` buffers has that key together with `valid = 1`
or `refcnt > 0`. -/
theorem buffer_uniqueness (cfg : BConfig) (s : Bcache) (R : List Ptr) (h0 : 0 < cfg.NBUCKET)
    (hr : Reach cfg false s R) : P3 cfg s.mem := by
  obtain ⟨L, hinv⟩ := reach_inv cfg h0 s R hr
  exact p3_of_inv cfg s.mem L R hinv

theorem reach_st1 : Reach c22 false st1 [.buf 0] :=
  Reach.bread st0 st1 [] 3 7 1 1 (.buf 0) Reach.init (by decide) rfl

/-- Witness for C9: the state after `binit` and one `bread(1, 1)`. -/
theorem buffer_uniqueness_witness :
    (0 < c22.NBUCKET) ∧ Reach c22 false st1 [.buf 0] ∧ P3 c22 st1.mem :=
  ⟨by decide, reach_st1, buffer_uniqueness c22 st1 [.buf 0] (by decide) reach_st1⟩

/-! ### Concrete runs on two buffers and two buckets -/

theorem st0_wf : WF c22 st0.mem (initLists c22) :=
  (binit_inv c22 (by decide)).1.wf

theorem st0_flags : ValidFlags c22 st0.mem := by
  intro i _
  have hp := (binit_inv c22 (by decide)).2 (.buf i)
  have h1 : (st0.mem (.buf i)).valid = 0 := hp.1
  rw [h1]
  exact Nat.zero_le _

theorem bread_st0 : bread c22 3 7 1 1 st0 = .ok (.buf 0) st1 := rfl

/-- Witness for C7: `bread(1, 1)` by process 7 right after `binit`. -/
theorem bread_brelse_bread_hit_witness :
    WF c22 st0.mem (initLists c22) ∧ c22.NBUF < 3 ∧
    bread c22 3 7 1 1 st0 = .ok (.buf 0) st1 ∧
    ∃ s2 s3, brelse c22 7 (.buf 0) st1 = .ok () s2 ∧
      bread c22 3 7 1 1 s2 = .ok (.buf 0) s3 ∧
      (∃ lg, s3.log = s2.log ++ lg ∧ ∀ e, e ∈ lg → e.isDisk = false) ∧
      (s3.mem (.buf 0)).refcnt = incr32 (s2.mem (.buf 0)).refcnt ∧
      (s3.mem (.buf 0)).dev = (s2.mem (.buf 0)).dev ∧
      (s3.mem (.buf 0)).blockno = (s2.mem (.buf 0)).blockno ∧
      (s3.mem (.buf 0)).valid = (s2.mem (.buf 0)).valid ∧
      ∃ L1, WF c22 s2.mem L1 ∧ WF c22 s3.mem L1 :=
  ⟨st0_wf, by decide, bread_st0,
    bread_brelse_bread_hit c22 3 7 1 1 st0 st1 (.buf 0) (initLists c22) st0_wf (by decide)
      bread_st0⟩

/-- Witness for C8: `bread(1, 1)` by process 7 right after `binit`. -/
theorem bread_returns_valid_locked_witness :
    WF c22 st0.mem (initLists c22) ∧ ValidFlags c22 st0.mem ∧ c22.NBUF < 3 ∧
    bread c22 3 7 1 1 st0 = .ok (.buf 0) st1 ∧
    ((∃ b, Ptr.buf 0 = .buf b ∧ b < c22.NBUF) ∧
    (st1.mem (.buf 0)).dev = 1 ∧ (st1.mem (.buf 0)).blockno = 1 ∧
    (st1.mem (.buf 0)).valid = 1 ∧ (st1.mem (.buf 0)).lock = some 7 ∧
    ((∃ b, Ptr.buf 0 = .buf b ∧
        (initLists c22 (myhash c22 1).toNat).find? (isKey st0.mem 1 1) = some b ∧
        (st1.mem (.buf 0)).refcnt = incr32 (st0.mem (.buf 0)).refcnt) ∨
      ((initLists c22 (myhash c22 1).toNat).find? (isKey st0.mem 1 1) = none ∧
        (st1.mem (.buf 0)).refcnt = 1)) ∧
    ((st0.mem (.buf 0)).refcnt < 2 ^ 32 - 1 → 1 ≤ (st1.mem (.buf 0)).refcnt) ∧
    ∃ s0 lg, bget c22 3 7 1 1 st0 = .ok (.buf 0) s0 ∧
      s0.log = st0.log ++ lg ∧ (∀ e, e ∈ lg → e.isDisk = false) ∧
      ((s0.mem (.buf 0)).valid = 0 → st1.log = s0.log ++ [.disk_rw (.buf 0) false]) ∧
      ((s0.mem (.buf 0)).valid ≠ 0 → st1.log = s0.log)) :=
  ⟨st0_wf, st0_flags, by decide, bread_st0,
    bread_returns_valid_locked c22 3 7 1 1 st0 st1 (.buf 0) (initLists c22) st0_wf
      st0_flags (by decide) bread_st0⟩

end Bio

namespace Kalloc

/-! ### `kalloc` on the free lists -/

/-- A shard whose free list is `a :: t` has head pointer `a`, which is not null. -/
theorem head_of_cons (mem : Nat → Nat) (h a : Nat) (t l : List Nat)
    (hl : IsFreeList mem h l) (e : l = a :: t) : h = a ∧ h ≠ 0 := by
  subst e
  exact ⟨hl.1, fun h0 => hl.2.1 (hl.1 ▸ h0)⟩

/-- A shard whose free list is empty has a null head pointer. -/
theorem head_of_nil (mem : Nat → Nat) (h : Nat) (l : List Nat)
    (hl : IsFreeList mem h l) (e : l = []) : h = 0 := by
  subst e
  exact hl

/-- C15. `kalloc` on the free lists.  In every allocator state whose free lists `L` and
held frames `H` form a partition, and for every CPU `id`:
if the list of shard `id` is `a :: t`, `kalloc` returns `a`, shard `id` is left with `t`
and every other shard keeps its list;
if the list of shard `id` is empty and `j ≠ id` is the lowest-indexed other shard with a
non-empty list `a :: t`, `kalloc` returns `a`, shard `j` is left with `t`, shard `id` is
still empty and every shard other than `j` keeps its list. -/
theorem kalloc_characterised (cfg : KConfig) (id : Nat) (s : KState) (L : Nat → List Nat)
    (H : List Nat) (hP : Partition cfg s L H) (hid : id < cfg.NCPU) :
    (∀ a t, L id = a :: t →
      (kalloc cfg id s).1 = a ∧
      IsFreeList (kalloc cfg id s).2.mem ((kalloc cfg id s).2.freelist id) t ∧
      ∀ k, k < cfg.NCPU → k ≠ id →
        IsFreeList (kalloc cfg id s).2.mem ((kalloc cfg id s).2.freelist k) (L k)) ∧
    (L id = [] → ∀ j a t, j < cfg.NCPU → j ≠ id → L j = a :: t →
      (∀ k, k < j → k ≠ id → L k = []) →
      (kalloc cfg id s).1 = a ∧
      IsFreeList (kalloc cfg id s).2.mem ((kalloc cfg id s).2.freelist j) t ∧
      IsFreeList (kalloc cfg id s).2.mem ((kalloc cfg id s).2.freelist id) [] ∧
      ∀ k, k < cfg.NCPU → k ≠ j →
        IsFreeList (kalloc cfg id s).2.mem ((kalloc cfg id s).2.freelist k) (L k)) := by
  -- what a successful pop from shard `j` leaves behind
  have pop : ∀ j, j < cfg.NCPU → s.freelist j ≠ 0 →
      kalloc cfg id s =
        (s.freelist j,
          { freelist := setHead s.freelist j (s.mem (s.freelist j))
            mem := memset s.mem (s.freelist j) 5 PGSIZE }) →
      ∀ a t, L j = a :: t →
        (kalloc cfg id s).1 = a ∧
        IsFreeList (kalloc cfg id s).2.mem ((kalloc cfg id s).2.freelist j) t ∧
        ∀ k, k < cfg.NCPU → k ≠ j →
          IsFreeList (kalloc cfg id s).2.mem ((kalloc cfg id s).2.freelist k) (L k) := by
    intro j hj h0 hk a t hLj
    obtain ⟨t2, hLj2, hP2⟩ := partition_pop cfg j s L H hP hj h0
    rw [hLj] at hLj2
    injection hLj2 with e1 e2
    subst e2
    rw [hk]
    refine ⟨e1.symm, ?_, ?_⟩
    · have := hP2.lists j hj
      rwa [Function.update_same] at this
    · intro k hk2 hkj
      have := hP2.lists k hk2
      rwa [Function.update_noteq hkj] at this
  constructor
  · intro a t hLid
    obtain ⟨_, hne⟩ := head_of_cons s.mem _ a t _ (hP.lists id hid) hLid
    obtain ⟨h1, h2, h3⟩ := pop id hid hne (kalloc_home cfg id s hne) a t hLid
    exact ⟨h1, h2, h3⟩
  · intro hLid j a t hj hjid hLj hfirst
    have hid0 : s.freelist id = 0 := head_of_nil s.mem _ _ (hP.lists id hid) hLid
    obtain ⟨_, hjne⟩ := head_of_cons s.mem _ a t _ (hP.lists j hj) hLj
    rcases kalloc_spec cfg id s hid with ⟨hall, _⟩ | ⟨j2, hj2, h0, hsel, hk⟩
    · exact absurd (hall j hj) hjne
    · have hj2id : j2 ≠ id := fun e => h0 (e ▸ hid0)
      have hbefore : ∀ k, k < j2 → k ≠ id → s.freelist k = 0 := by
        rcases hsel with e | ⟨_, h⟩
        · exact absurd e hj2id
        · exact h
      have hjj : j2 = j := by
        rcases Nat.lt_trichotomy j2 j with hlt | heq | hgt
        · exact absurd (head_of_nil s.mem _ _ (hP.lists j2 hj2) (hfirst j2 hlt hj2id)) h0
        · exact heq
        · exact absurd (hbefore j hgt hjid) hjne
      subst hjj
      obtain ⟨h1, h2, h3⟩ := pop j2 hj2 h0 hk a t hLj
      refine ⟨h1, h2, ?_, h3⟩
      have := h3 id hid (Ne.symm hj2id)
      rwa [hLid] at this

/-- Witness for C15: `twoShards`, nothing held, `kalloc` on CPU 0. -/
theorem kalloc_characterised_witness :
    Partition cfg0 twoShards twoShardsLists [] ∧ 0 < cfg0.NCPU ∧
    ((∀ a t, twoShardsLists 0 = a :: t →
      (kalloc cfg0 0 twoShards).1 = a ∧
      IsFreeList (kalloc cfg0 0 twoShards).2.mem ((kalloc cfg0 0 twoShards).2.freelist 0) t ∧
      ∀ k, k < cfg0.NCPU → k ≠ 0 →
        IsFreeList (kalloc cfg0 0 twoShards).2.mem ((kalloc cfg0 0 twoShards).2.freelist k)
          (twoShardsLists k)) ∧
    (twoShardsLists 0 = [] → ∀ j a t, j < cfg0.NCPU → j ≠ 0 → twoShardsLists j = a :: t →
      (∀ k, k < j → k ≠ 0 → twoShardsLists k = []) →
      (kalloc cfg0 0 twoShards).1 = a ∧
      IsFreeList (kalloc cfg0 0 twoShards).2.mem ((kalloc cfg0 0 twoShards).2.freelist j) t ∧
      IsFreeList (kalloc cfg0 0 twoShards).2.mem ((kalloc cfg0 0 twoShards).2.freelist 0) [] ∧
      ∀ k, k < cfg0.NCPU → k ≠ j →
        IsFreeList (kalloc cfg0 0 twoShards).2.mem ((kalloc cfg0 0 twoShards).2.freelist k)
          (twoShardsLists k))) :=
  have hP : Partition cfg0 twoShards twoShardsLists [] :=
    ⟨twoShards_lists, by decide, by decide⟩
  ⟨hP, by decide, kalloc_characterised cfg0 0 twoShards twoShardsLists [] hP (by decide)⟩

end Kalloc

namespace Bio

/-! ### `brelse`, `bpin`/`bunpin` and `clockintr` in full -/

theorem decr32_pred (r : Nat) (h0 : 0 < r) (h : r < 2 ^ 32) : decr32 r = r - 1 := by
  unfold decr32
  omega

theorem decr32_incr32 (r : Nat) (h : r < 2 ^ 32) : decr32 (incr32 r) = r := by
  unfold decr32 incr32
  omega

/-- Stores that leave all list pointers alone keep every bucket list. -/
theorem isBucket_of_ptr_eq (mem mem1 : Ptr → Buf) (k : Nat) (l : List Nat)
    (h1 : ∀ x, (mem1 x).next = (mem x).next) (h2 : ∀ x, (mem1 x).prev = (mem x).prev) :
    IsBucket mem k l ↔ IsBucket mem1 k l :=
  ⟨isChain_of_ptr_eq mem mem1 l _ _ h1 h2,
    isChain_of_ptr_eq mem1 mem l _ _ (fun x => (h1 x).symm) (fun x => (h2 x).symm)⟩

/-- C12. `brelse` in full.  If the caller does not hold the sleep-lock of `b`, `brelse`
panics in the state it was called in.  If the caller holds it (and the bucket index
`myhash(b->blockno)` is in bounds), `brelse` returns; the sleep-lock of `b` is free; its
`refcnt` is decremented (`refcnt - 1` for a `refcnt` of at least 1); its `lastuse` is the
current `ticks` if the new `refcnt` is 0 and is unchanged otherwise; its `dev`,
`blockno`, `valid` and list pointers are unchanged; every other node is unchanged, so
every bucket has the members it had, in the same order; `ticks` is unchanged. -/
theorem brelse_characterised (cfg : BConfig) (pid : Nat) (b : Ptr) (s : Bcache) :
    ((s.mem b).lock ≠ some pid → brelse cfg pid b s = .panic "brelse" s) ∧
    ((s.mem b).lock = some pid → inBounds cfg (myhash cfg (s.mem b).blockno) →
      ∃ s2, brelse cfg pid b s = .ok () s2 ∧ s2.ticks = s.ticks ∧
        (s2.mem b).lock = none ∧
        (s2.mem b).refcnt = decr32 (s.mem b).refcnt ∧
        (0 < (s.mem b).refcnt → (s.mem b).refcnt < 2 ^ 32 →
          (s2.mem b).refcnt = (s.mem b).refcnt - 1) ∧
        ((s2.mem b).refcnt = 0 → (s2.mem b).lastuse = s.ticks) ∧
        ((s2.mem b).refcnt ≠ 0 → (s2.mem b).lastuse = (s.mem b).lastuse) ∧
        (s2.mem b).dev = (s.mem b).dev ∧ (s2.mem b).blockno = (s.mem b).blockno ∧
        (s2.mem b).valid = (s.mem b).valid ∧
        (s2.mem b).next = (s.mem b).next ∧ (s2.mem b).prev = (s.mem b).prev ∧
        (∀ x, x ≠ b → s2.mem x = s.mem x) ∧
        (∀ k l, IsBucket s.mem k l ↔ IsBucket s2.mem k l)) := by
  constructor
  · intro hl
    have hh : ¬ holdingsleep pid b s = true := by
      simpa only [holdingsleep, beq_iff_eq] using hl
    unfold brelse
    rw [if_pos hh]
  · intro hl hb
    obtain ⟨s2, hcall, htick, _, hother, hcell⟩ := brelse_spec cfg pid b s hl hb
    have hptr : ∀ x, (s2.mem x).next = (s.mem x).next ∧ (s2.mem x).prev = (s.mem x).prev := by
      intro x
      by_cases hx : x = b
      · rw [hx, hcell]
        exact ⟨rfl, rfl⟩
      · rw [hother x hx]
        exact ⟨rfl, rfl⟩
    have hrc : (s2.mem b).refcnt = decr32 (s.mem b).refcnt := by rw [hcell]
    have hlu : (s2.mem b).lastuse =
        if decr32 (s.mem b).refcnt = 0 then s.ticks else (s.mem b).lastuse := by rw [hcell]
    refine ⟨s2, hcall, htick, ?_, hrc, ?_, ?_, ?_, ?_, ?_, ?_, ?_, ?_, hother, ?_⟩
    · rw [hcell]
    · intro h0 h32
      rw [hrc]
      exact decr32_pred _ h0 h32
    · intro hz
      rw [hrc] at hz
      rw [hlu, if_pos hz]
    · intro hz
      rw [hrc] at hz
      rw [hlu, if_neg hz]
    · rw [hcell]
    · rw [hcell]
    · rw [hcell]
    · exact (hptr b).1
    · exact (hptr b).2
    · intro k l
      exact isBucket_of_ptr_eq s.mem s2.mem k l (fun x => (hptr x).1) (fun x => (hptr x).2)

/-- Witness for C12: in `st1` process 7 holds buffer 0 (key `(1, 1)`, `refcnt = 1`);
its `brelse` returns. -/
theorem brelse_characterised_witness :
    (st1.mem (.buf 0)).lock = some 7 ∧ inBounds c22 (myhash c22 (st1.mem (.buf 0)).blockno) ∧
    ∃ s2, brelse c22 7 (.buf 0) st1 = .ok () s2 ∧ s2.ticks = st1.ticks ∧
      (s2.mem (.buf 0)).lock = none ∧
      (s2.mem (.buf 0)).refcnt = decr32 (st1.mem (.buf 0)).refcnt ∧
      (0 < (st1.mem (.buf 0)).refcnt → (st1.mem (.buf 0)).refcnt < 2 ^ 32 →
        (s2.mem (.buf 0)).refcnt = (st1.mem (.buf 0)).refcnt - 1) ∧
      ((s2.mem (.buf 0)).refcnt = 0 → (s2.mem (.buf 0)).lastuse = st1.ticks) ∧
      ((s2.mem (.buf 0)).refcnt ≠ 0 → (s2.mem (.buf 0)).lastuse = (st1.mem (.buf 0)).lastuse) ∧
      (s2.mem (.buf 0)).dev = (st1.mem (.buf 0)).dev ∧
      (s2.mem (.buf 0)).blockno = (st1.mem (.buf 0)).blockno ∧
      (s2.mem (.buf 0)).valid = (st1.mem (.buf 0)).valid ∧
      (s2.mem (.buf 0)).next = (st1.mem (.buf 0)).next ∧
      (s2.mem (.buf 0)).prev = (st1.mem (.buf 0)).prev ∧
      (∀ x, x ≠ Ptr.buf 0 → s2.mem x = st1.mem x) ∧
      (∀ k l, IsBucket st1.mem k l ↔ IsBucket s2.mem k l) :=
  ⟨by decide, by decide, (brelse_characterised c22 7 (.buf 0) st1).2 (by decide) (by decide)⟩

/-- C13. Round trip R2.  For every state and every node `b` whose `refcnt` is a 32-bit
value: if `bpin(b)` returns then `bunpin(b)` returns, and after the pair the whole
memory (the `refcnt` of `b`, every other field of `b`, every other node, hence every
bucket list) and `ticks` are what they were before the pair. -/
theorem bpin_bunpin_roundtrip (cfg : BConfig) (b : Ptr) (s s1 : Bcache)
    (hr : (s.mem b).refcnt < 2 ^ 32) (h : bpin cfg b s = .ok () s1) :
    (s1.mem b).refcnt = incr32 (s.mem b).refcnt ∧
    ∃ s2, bunpin cfg b s1 = .ok () s2 ∧
      (s2.mem b).refcnt = (s.mem b).refcnt ∧ s2.mem = s.mem ∧ s2.ticks = s.ticks ∧
      (∀ k l, IsBucket s.mem k l ↔ IsBucket s2.mem k l) := by
  obtain ⟨hb, ht1, hm1, _⟩ := bpin_spec cfg b s s1 h
  have hblk : (s1.mem b).blockno = (s.mem b).blockno := by
    rw [hm1, write_same]
  have hb1 : inBounds cfg (myhash cfg (s1.mem b).blockno) := by
    rw [hblk]; exact hb
  have hcall : ∃ s2, bunpin cfg b s1 = .ok () s2 := by
    unfold bunpin
    rw [if_neg (not_not.mpr hb1)]
    exact ⟨_, rfl⟩
  obtain ⟨s2, hcall⟩ := hcall
  obtain ⟨_, ht2, hm2, _⟩ := bunpin_spec cfg b s1 s2 hcall
  have hmem : s2.mem = s.mem := by
    funext x
    rw [hm2, hm1]
    by_cases hx : x = b
    · rw [hx, write_same, write_same]
      show { s.mem b with refcnt := decr32 (incr32 (s.mem b).refcnt) } = s.mem b
      rw [decr32_incr32 _ hr]
    · rw [write_other _ _ _ _ hx, write_other _ _ _ _ hx]
  refine ⟨by rw [hm1, write_same], s2, hcall, by rw [hmem], hmem, by rw [ht2, ht1], ?_⟩
  intro k l
  rw [hmem]

/-- Witness for C13: `bpin`/`bunpin` of buffer 0 in `st1`. -/
theorem bpin_bunpin_roundtrip_witness :
    (st1.mem (.buf 0)).refcnt < 2 ^ 32 ∧
    bpin c22 (.buf 0) st1 = .ok () (bpin c22 (.buf 0) st1).stateD ∧
    ((bpin c22 (.buf 0) st1).stateD.mem (.buf 0)).refcnt = incr32 (st1.mem (.buf 0)).refcnt ∧
    ∃ s2, bunpin c22 (.buf 0) (bpin c22 (.buf 0) st1).stateD = .ok () s2 ∧
      (s2.mem (.buf 0)).refcnt = (st1.mem (.buf 0)).refcnt ∧ s2.mem = st1.mem ∧
      s2.ticks = st1.ticks ∧
      (∀ k l, IsBucket st1.mem k l ↔ IsBucket s2.mem k l) :=
  ⟨by decide, rfl,
    bpin_bunpin_roundtrip c22 (.buf 0) st1 (bpin c22 (.buf 0) st1).stateD (by decide) rfl⟩

/-- C14, counterexample.  At the top of the unsigned 32-bit range `ticks++` wraps to 0:
the value after `clockintr` is smaller than the value before. -/
theorem clockintr_monotone_counterexample :
    (clockintr { zeroed with ticks := 2 ^ 32 - 1 }).ticks = 0 ∧
    ¬ ({ zeroed with ticks := 2 ^ 32 - 1 } : Bcache).ticks ≤
      (clockintr { zeroed with ticks := 2 ^ 32 - 1 }).ticks := by
  decide

/-- C14, amended.  For every value of the unsigned 32-bit counter `ticks` other than the
largest, `2^32 - 1`, the value after `clockintr` is the value before plus one, hence
greater than or equal to it; at `2^32 - 1` the counter wraps to 0.  So the value after is
greater than or equal to the value before exactly when the value before is not
`2^32 - 1`.  Nothing but `ticks` changes. -/
theorem clockintr_ticks (s : Bcache) (h : s.ticks < 2 ^ 32) :
    (s.ticks ≠ 2 ^ 32 - 1 → (clockintr s).ticks = s.ticks + 1) ∧
    (s.ticks = 2 ^ 32 - 1 → (clockintr s).ticks = 0) ∧
    (s.ticks ≤ (clockintr s).ticks ↔ s.ticks ≠ 2 ^ 32 - 1) ∧
    (clockintr s).mem = s.mem ∧ (clockintr s).log = s.log := by
  have e : (clockintr s).ticks = (s.ticks + 1) % 2 ^ 32 := rfl
  refine ⟨?_, ?_, ?_, rfl, rfl⟩
  · intro hne
    rw [e]
    omega
  · intro heq
    rw [e]
    omega
  · rw [e]
    omega

/-- Witness for C14: the first tick after boot. -/
theorem clockintr_ticks_witness :
    st0.ticks < 2 ^ 32 ∧
    ((st0.ticks ≠ 2 ^ 32 - 1 → (clockintr st0).ticks = st0.ticks + 1) ∧
    (st0.ticks = 2 ^ 32 - 1 → (clockintr st0).ticks = 0) ∧
    (st0.ticks ≤ (clockintr st0).ticks ↔ st0.ticks ≠ 2 ^ 32 - 1) ∧
    (clockintr st0).mem = st0.mem ∧ (clockintr st0).log = st0.log) :=
  ⟨by decide, clockintr_ticks st0 (by decide)⟩

/-! ### Which buffer the victim loop picks -/

/-- The victim loop returns the least recently used of the buffers it accepts: a buffer
picked from `l` has a `lastuse` not above the starting bound and not above the `lastuse`
of any idle buffer of `l`; when nothing of `l` is picked, every idle buffer of `l` has a
`lastuse` above the starting bound. -/
theorem pickVictim_min (mem : Ptr → Buf) (l : List Nat) :
    ∀ (m : Nat) (v0 : Option Nat) (v : Nat), pickVictim mem l m v0 = some v →
      (v0 = some v ∧ ∀ j, j ∈ l → (mem (.buf j)).refcnt = 0 → m < (mem (.buf j)).lastuse) ∨
      (v ∈ l ∧ (mem (.buf v)).refcnt = 0 ∧ (mem (.buf v)).lastuse ≤ m ∧
        ∀ j, j ∈ l → (mem (.buf j)).refcnt = 0 →
          (mem (.buf v)).lastuse ≤ (mem (.buf j)).lastuse) := by
  induction l with
  | nil =>
    intro m v0 v h
    exact Or.inl ⟨h, fun j hj => absurd hj (List.not_mem_nil j)⟩
  | cons i l ih =>
    intro m v0 v h
    unfold pickVictim at h
    by_cases hc : (mem (.buf i)).refcnt = 0 ∧ (mem (.buf i)).lastuse ≤ m
    · rw [if_pos hc] at h
      right
      rcases ih _ _ _ h with ⟨e, hall⟩ | ⟨h1, h2, h3, h4⟩
      · have hiv : i = v := Option.some.inj e
        subst hiv
        refine ⟨List.mem_cons_self _ _, hc.1, hc.2, ?_⟩
        intro j hj hidle
        rcases List.mem_cons.mp hj with e1 | e1
        · rw [e1]
        · exact Nat.le_of_lt (hall j e1 hidle)
      · refine ⟨List.mem_cons_of_mem _ h1, h2, le_trans h3 hc.2, ?_⟩
        intro j hj hidle
        rcases List.mem_cons.mp hj with e1 | e1
        · rw [e1]; exact h3
        · exact h4 j e1 hidle
    · rw [if_neg hc] at h
      have hi : (mem (.buf i)).refcnt = 0 → m < (mem (.buf i)).lastuse := by
        intro hidle
        by_contra hlt
        exact hc ⟨hidle, Nat.le_of_not_lt hlt⟩
      rcases ih _ _ _ h with ⟨e, hall⟩ | ⟨h1, h2, h3, h4⟩
      · left
        refine ⟨e, ?_⟩
        intro j hj hidle
        rcases List.mem_cons.mp hj with e1 | e1
        · rw [e1]; exact hi (e1 ▸ hidle)
        · exact hall j e1 hidle
      · right
        refine ⟨List.mem_cons_of_mem _ h1, h2, h3, ?_⟩
        intro j hj hidle
        rcases List.mem_cons.mp hj with e1 | e1
        · rw [e1]; exact le_trans h3 (Nat.le_of_lt (hi (e1 ▸ hidle)))
        · exact h4 j e1 hidle

/-- A victim picked with no victim in hand: a member of the list, idle, last used no
later than the starting bound, and least recently used among the idle members. -/
theorem pickVictim_spec (mem : Ptr → Buf) (l : List Nat) (m v : Nat)
    (h : pickVictim mem l m none = some v) :
    v ∈ l ∧ (mem (.buf v)).refcnt = 0 ∧ (mem (.buf v)).lastuse ≤ m ∧
    ∀ j, j ∈ l → (mem (.buf j)).refcnt = 0 →
      (mem (.buf v)).lastuse ≤ (mem (.buf j)).lastuse := by
  rcases pickVictim_min mem l m none v h with ⟨e, _⟩ | h1
  · cases e
  · exact h1

/-- No victim is picked exactly when no member is idle with `lastuse` within the bound. -/
theorem pickVictim_none_iff (mem : Ptr → Buf) (l : List Nat) (m : Nat) :
    pickVictim mem l m none = none ↔
      ∀ j, j ∈ l → ¬ ((mem (.buf j)).refcnt = 0 ∧ (mem (.buf j)).lastuse ≤ m) := by
  rw [pickVictim_none]
  exact ⟨fun h => h.2, fun h => ⟨rfl, h⟩⟩

/-- The two ways `acquiresleep` ends: with the lock when it was free, asleep when it was
held. -/
theorem acquiresleep_cases (pid : Nat) (b : Ptr) (s : Bcache) :
    ((s.mem b).lock = none ∧ ∃ s1, acquiresleep pid b s = .ok b s1) ∨
    ((s.mem b).lock ≠ none ∧ ∃ s1, acquiresleep pid b s = .sleeps s1) := by
  by_cases hl : (s.mem b).lock = none
  · exact Or.inl ⟨hl, _, acquiresleep_free pid b s hl⟩
  · exact Or.inr ⟨hl, _, acquiresleep_held pid b s hl⟩

theorem bufinit_lock (mem : Ptr → Buf) (v x : Ptr) (dev blockno : Nat) :
    (bufinit mem v dev blockno x).lock = (mem x).lock := by
  unfold bufinit
  by_cases h : x = v
  · rw [h, write_same]
  · rw [write_other _ _ _ _ h]

theorem moved_lock (mem : Ptr → Buf) (v x : Ptr) (id dev blockno : Nat) :
    (insert_head (unlink (bufinit mem v dev blockno) v) id v x).lock = (mem x).lock := by
  rw [(insert_head_data _ _ _ _).2.2.2.1, (unlink_data _ _ _).2.2.2.1, bufinit_lock]

/-- A miss in the home bucket, said of the list. -/
theorem find_none_of_miss (mem : Ptr → Buf) (dev blockno : Nat) (l : List Nat)
    (h : ∀ i, i ∈ l → ¬ ((mem (.buf i)).dev = dev ∧ (mem (.buf i)).blockno = blockno)) :
    l.find? (isKey mem dev blockno) = none := by
  rw [List.find?_eq_none]
  intro i hi hk
  exact h i hi ((isKey_iff _ _ _ _).mp hk)

/-- What a call that reaches `acquiresleep` on an idle buffer `v` does: it returns `v`
when the sleep-lock of `v` is free and sleeps when it is held; it does not panic. -/
theorem via_acquiresleep (pid v : Nat) (S : Bcache) (r : Res Ptr) (lk : Option Nat)
    (hr : r = acquiresleep pid (.buf v) S) (hlk : (S.mem (.buf v)).lock = lk) :
    (∀ m s1, r ≠ .panic m s1) ∧
    (lk = none → ∃ s1, r = .ok (.buf v) s1) ∧ (lk ≠ none → ∃ s1, r = .sleeps s1) := by
  subst hr
  subst hlk
  rcases acquiresleep_cases pid (.buf v) S with ⟨h1, s1, h2⟩ | ⟨h1, s1, h2⟩
  · refine ⟨fun m s2 e => ?_, fun _ => ⟨s1, h2⟩, fun hn => absurd h1 hn⟩
    rw [h2] at e
    cases e
  · refine ⟨fun m s2 e => ?_, fun hn => absurd hn h1, fun _ => ⟨s1, h2⟩⟩
    rw [h2] at e
    cases e

/-- What `bget` does after a miss, as the victim loops are written (they start from
`minticks = ticks`).  On a well-formed cache, for a key whose bucket index is in bounds and
that has no matching entry in its home bucket: `bget` panics with "bget: no buf" if and
only if no buffer in any bucket has `refcnt = 0` together with `lastuse ≤ ticks`; and
whenever some buffer has `refcnt = 0` and `lastuse ≤ ticks`, `bget` does not panic: it
picks such a buffer `v` and returns it if the sleep-lock of `v` is free, and sleeps in
`acquiresleep` on `v` if that lock is held. -/
theorem bget_saturation (cfg : BConfig) (fuel pid dev blockno : Nat) (s : Bcache)
    (L : Nat → List Nat) (hwf : WF cfg s.mem L) (hfuel : cfg.NBUF < fuel)
    (hb : inBounds cfg (myhash cfg blockno))
    (hmiss : ∀ i, i ∈ L (myhash cfg blockno).toNat →
      ¬ ((s.mem (.buf i)).dev = dev ∧ (s.mem (.buf i)).blockno = blockno)) :
    ((∃ s1, bget cfg fuel pid dev blockno s = .panic "bget: no buf" s1) ↔
      ∀ i, i < cfg.NBUF →
        ¬ ((s.mem (.buf i)).refcnt = 0 ∧ (s.mem (.buf i)).lastuse ≤ s.ticks)) ∧
    ((∃ i, i < cfg.NBUF ∧ (s.mem (.buf i)).refcnt = 0 ∧ (s.mem (.buf i)).lastuse ≤ s.ticks) →
      ∃ v, v < cfg.NBUF ∧ (s.mem (.buf v)).refcnt = 0 ∧ (s.mem (.buf v)).lastuse ≤ s.ticks ∧
        ((s.mem (.buf v)).lock = none → ∃ s1, bget cfg fuel pid dev blockno s = .ok (.buf v) s1) ∧
        ((s.mem (.buf v)).lock ≠ none → ∃ s1, bget cfg fuel pid dev blockno s = .sleeps s1)) := by
  have hid := inBounds_toNat_lt cfg _ hb
  have hfind := find_none_of_miss s.mem dev blockno _ hmiss
  -- a path that picks the victim `v` of bucket `j`
  have picked : ∀ (j v : Nat) (S : Bcache), j < cfg.NBUCKET →
      pickVictim s.mem (L j) s.ticks none = some v →
      bget cfg fuel pid dev blockno s = acquiresleep pid (.buf v) S →
      (S.mem (.buf v)).lock = (s.mem (.buf v)).lock →
      ((∃ s1, bget cfg fuel pid dev blockno s = .panic "bget: no buf" s1) ↔
        ∀ i, i < cfg.NBUF →
          ¬ ((s.mem (.buf i)).refcnt = 0 ∧ (s.mem (.buf i)).lastuse ≤ s.ticks)) ∧
      ∃ v, v < cfg.NBUF ∧ (s.mem (.buf v)).refcnt = 0 ∧ (s.mem (.buf v)).lastuse ≤ s.ticks ∧
        ((s.mem (.buf v)).lock = none →
          ∃ s1, bget cfg fuel pid dev blockno s = .ok (.buf v) s1) ∧
        ((s.mem (.buf v)).lock ≠ none → ∃ s1, bget cfg fuel pid dev blockno s = .sleeps s1) := by
    intro j v S hj hpv hcall hlock
    obtain ⟨hvj, hidle, hle, _⟩ := pickVictim_spec _ _ _ _ hpv
    have hvn := wf_mem_lt cfg s.mem L hwf j v hj hvj
    obtain ⟨hnp, hok, hsl⟩ := via_acquiresleep pid v S _ _ hcall hlock
    refine ⟨⟨?_, ?_⟩, v, hvn, hidle, hle, hok, hsl⟩
    · rintro ⟨s1, hp⟩
      exact absurd hp (hnp _ _)
    · intro hall
      exact absurd ⟨hidle, hle⟩ (hall v hvn)
  rcases bget_spec cfg fuel pid dev blockno s L hwf hfuel hb with
    ⟨b, h1, _⟩ | ⟨_, v, hpv, lg, _, h3⟩ | ⟨_, _, j, v, hj, _, hpv, _, lg, _, h3⟩ |
    ⟨_, hall, lg, _, h3⟩
  · rw [hfind] at h1
    cases h1
  · obtain ⟨h1, h2⟩ := picked _ v _ hid hpv h3 (bufinit_lock _ _ _ _ _)
    exact ⟨h1, fun _ => h2⟩
  · obtain ⟨h1, h2⟩ := picked j v _ hj hpv h3 (moved_lock _ _ _ _ _ _)
    exact ⟨h1, fun _ => h2⟩
  · have hnone : ∀ i, i < cfg.NBUF →
        ¬ ((s.mem (.buf i)).refcnt = 0 ∧ (s.mem (.buf i)).lastuse ≤ s.ticks) := by
      intro i hi
      obtain ⟨k, hk, hik⟩ := (mem_allBufs _ _ _).mp ((hwf.cover i).mpr hi)
      exact (pickVictim_none_iff _ _ _).mp (hall k hk) i hik
    refine ⟨⟨fun _ => hnone, fun _ => ⟨_, h3⟩⟩, ?_⟩
    rintro ⟨i, hi, h1, h2⟩
    exact absurd ⟨h1, h2⟩ (hnone i hi)

/-- An instance of `bget_saturation`: `bget(1, 1)` right after `binit`; both buffers are
idle. -/
theorem bget_saturation_witness :
    WF c22 st0.mem (initLists c22) ∧ c22.NBUF < 3 ∧ inBounds c22 (myhash c22 1) ∧
    (∀ i, i ∈ initLists c22 (myhash c22 1).toNat →
      ¬ ((st0.mem (.buf i)).dev = 1 ∧ (st0.mem (.buf i)).blockno = 1)) ∧
    (((∃ s1, bget c22 3 7 1 1 st0 = .panic "bget: no buf" s1) ↔
      ∀ i, i < c22.NBUF →
        ¬ ((st0.mem (.buf i)).refcnt = 0 ∧ (st0.mem (.buf i)).lastuse ≤ st0.ticks)) ∧
    ((∃ i, i < c22.NBUF ∧ (st0.mem (.buf i)).refcnt = 0 ∧
        (st0.mem (.buf i)).lastuse ≤ st0.ticks) →
      ∃ v, v < c22.NBUF ∧ (st0.mem (.buf v)).refcnt = 0 ∧
        (st0.mem (.buf v)).lastuse ≤ st0.ticks ∧
        ((st0.mem (.buf v)).lock = none → ∃ s1, bget c22 3 7 1 1 st0 = .ok (.buf v) s1) ∧
        ((st0.mem (.buf v)).lock ≠ none → ∃ s1, bget c22 3 7 1 1 st0 = .sleeps s1))) :=
  ⟨st0_wf, by decide, by decide, by decide,
    bget_saturation c22 3 7 1 1 st0 (initLists c22) st0_wf (by decide) (by decide) (by decide)⟩

theorem write_ptrs (mem : Ptr → Buf) (p x : Ptr) (f : Buf → Buf)
    (hf : ∀ y, (f y).next = y.next ∧ (f y).prev = y.prev) :
    (write mem p f x).next = (mem x).next ∧ (write mem p f x).prev = (mem x).prev := by
  by_cases h : x = p
  · rw [h, write_same]; exact hf _
  · rw [write_other _ _ _ _ h]; exact ⟨rfl, rfl⟩

/-- The buffer a returning `bget` re-initialised after a miss in the home bucket: the
bucket `k` it was picked from, the facts the victim loop established about it, its new
contents, and the bucket lists after the call. -/
theorem bget_miss_ok (cfg : BConfig) (fuel pid dev blockno : Nat) (s s1 : Bcache) (p : Ptr)
    (L : Nat → List Nat) (hwf : WF cfg s.mem L) (hfuel : cfg.NBUF < fuel)
    (hmiss : ∀ i, i ∈ L (myhash cfg blockno).toNat →
      ¬ ((s.mem (.buf i)).dev = dev ∧ (s.mem (.buf i)).blockno = blockno))
    (h : bget cfg fuel pid dev blockno s = .ok p s1) :
    ∃ k v, k < cfg.NBUCKET ∧ p = .buf v ∧
      pickVictim s.mem (L k) s.ticks none = some v ∧
      (s1.mem p).dev = dev ∧ (s1.mem p).blockno = blockno ∧ (s1.mem p).valid = 0 ∧
      (s1.mem p).refcnt = 1 ∧
      ((k = (myhash cfg blockno).toNat ∧ WF cfg s1.mem L ∧
          ∀ x, (s1.mem x).next = (s.mem x).next ∧ (s1.mem x).prev = (s.mem x).prev) ∨
        (k ≠ (myhash cfg blockno).toNat ∧
          pickVictim s.mem (L (myhash cfg blockno).toNat) s.ticks none = none ∧
          (∀ j2, j2 < k → j2 ≠ (myhash cfg blockno).toNat →
            pickVictim s.mem (L j2) s.ticks none = none) ∧
          WF cfg s1.mem (Function.update (Function.update L k ((L k).erase v))
            (myhash cfg blockno).toNat (v :: L (myhash cfg blockno).toNat)))) := by
  have hfind := find_none_of_miss s.mem dev blockno _ hmiss
  obtain ⟨b0, _, hp0, _, _, hfst, _, hkind⟩ :=
    bget_ok_buffer cfg fuel pid dev blockno s s1 p L hwf hfuel h
  obtain ⟨hb, b, lg, M, L1, hp, _, _, _, hmem, _, hwfM, hcase⟩ :=
    bget_ok_spec cfg fuel pid dev blockno s s1 p L hwf hfuel h
  have hbb : b = b0 := Ptr.buf.inj (hp.symm.trans hp0)
  subst hbb
  have hid := inBounds_toNat_lt cfg _ hb
  obtain ⟨hdev, hblk⟩ := (isKey_iff _ _ _ _).mp (List.find?_some hfst)
  have hnew : (s1.mem (.buf b)).valid = 0 ∧ (s1.mem (.buf b)).refcnt = 1 := by
    rcases hkind with ⟨h1, _⟩ | ⟨_, h1, h2⟩
    · rw [hfind] at h1
      cases h1
    · exact ⟨h1, h2⟩
  have hwf1 : WF cfg s1.mem L1 := by
    rw [hmem]
    exact wf_write_data cfg M L1 _ _ (fun _ => ⟨rfl, rfl⟩) hwfM
  rcases hcase with ⟨h1, _⟩ | ⟨_, hpv, hM, hL⟩ | ⟨_, hnone, j, hj, hjne, hpv, hfirst, _, hL⟩
  · rw [hfind] at h1
    cases h1
  · refine ⟨_, b, hid, hp, hpv, ?_, ?_, ?_, ?_, Or.inl ⟨rfl, hL ▸ hwf1, ?_⟩⟩
    · rw [hp]; exact hdev
    · rw [hp]; exact hblk
    · rw [hp]; exact hnew.1
    · rw [hp]; exact hnew.2
    · intro x
      rw [hmem, hM]
      have h1 := write_ptrs (bufinit s.mem (.buf b) dev blockno) (.buf b) x
        (fun y => { y with lock := some pid }) (fun _ => ⟨rfl, rfl⟩)
      have h2 : (bufinit s.mem (.buf b) dev blockno x).next = (s.mem x).next ∧
          (bufinit s.mem (.buf b) dev blockno x).prev = (s.mem x).prev :=
        write_ptrs s.mem (.buf b) x _ (fun _ => ⟨rfl, rfl⟩)
      exact ⟨h1.1.trans h2.1, h1.2.trans h2.2⟩
  · refine ⟨j, b, hj, hp, hpv, ?_, ?_, ?_, ?_, Or.inr ⟨hjne, hnone, hfirst, hL ▸ hwf1⟩⟩
    · rw [hp]; exact hdev
    · rw [hp]; exact hblk
    · rw [hp]; exact hnew.1
    · rw [hp]; exact hnew.2

/-- The victim of a miss, as the victim loops are written.  On a well-formed cache, for
every call of `bget` that misses in the home bucket and returns: the buffer `v` it
re-initialised was picked from a bucket `k` (the home bucket, or a candidate bucket on
the steal path), it had `refcnt = 0`, and its `lastuse` before the call was less than or
equal to the `lastuse` of every buffer of bucket `k` with `refcnt = 0`; and whenever the
home bucket contains a buffer with `refcnt = 0` and `lastuse ≤ ticks`, the victim is
taken from the home bucket in place: `k` is the home bucket, no list pointer changes and
the bucket lists are the same as before. -/
theorem bget_timestamp_lru (cfg : BConfig) (fuel pid dev blockno : Nat) (s s1 : Bcache)
    (p : Ptr) (L : Nat → List Nat) (hwf : WF cfg s.mem L) (hfuel : cfg.NBUF < fuel)
    (hmiss : ∀ i, i ∈ L (myhash cfg blockno).toNat →
      ¬ ((s.mem (.buf i)).dev = dev ∧ (s.mem (.buf i)).blockno = blockno))
    (h : bget cfg fuel pid dev blockno s = .ok p s1) :
    ∃ k v, k < cfg.NBUCKET ∧ v ∈ L k ∧ p = .buf v ∧ (s.mem (.buf v)).refcnt = 0 ∧
      (s1.mem p).dev = dev ∧ (s1.mem p).blockno = blockno ∧ (s1.mem p).valid = 0 ∧
      (s1.mem p).refcnt = 1 ∧
      (∀ j, j ∈ L k → (s.mem (.buf j)).refcnt = 0 →
        (s.mem (.buf v)).lastuse ≤ (s.mem (.buf j)).lastuse) ∧
      ((∃ j, j ∈ L (myhash cfg blockno).toNat ∧ (s.mem (.buf j)).refcnt = 0 ∧
          (s.mem (.buf j)).lastuse ≤ s.ticks) →
        k = (myhash cfg blockno).toNat ∧ WF cfg s1.mem L ∧
        ∀ x, (s1.mem x).next = (s.mem x).next ∧ (s1.mem x).prev = (s.mem x).prev) := by
  obtain ⟨k, v, hk, hp, hpv, h1, h2, h3, h4, hcase⟩ :=
    bget_miss_ok cfg fuel pid dev blockno s s1 p L hwf hfuel hmiss h
  obtain ⟨hvk, hidle, _, hmin⟩ := pickVictim_spec _ _ _ _ hpv
  refine ⟨k, v, hk, hvk, hp, hidle, h1, h2, h3, h4, hmin, ?_⟩
  rintro ⟨j, hj, hj0, hjt⟩
  rcases hcase with hin | ⟨_, hnone, _⟩
  · exact hin
  · exact absurd ⟨hj0, hjt⟩ ((pickVictim_none_iff _ _ _).mp hnone j hj)

/-- The steal path, as the victim loops are written.  On a well-formed cache, for every
call of `bget(dev, blockno)` that finds neither a match nor a victim in the home bucket and
returns: the returned buffer `v` comes from the lowest-indexed other bucket `j` that
contains a buffer with `refcnt = 0` and `lastuse ≤ ticks`; it is re-initialised to
`(dev, blockno, valid = 0, refcnt = 1)`; afterwards the cache is well-formed with lists
`L1` in which `v` is the first element of the home bucket, followed by the old home
list; the list of bucket `j` is the old one without `v`; and every other bucket has the
list it had. -/
theorem bget_steal_path (cfg : BConfig) (fuel pid dev blockno : Nat) (s s1 : Bcache)
    (p : Ptr) (L : Nat → List Nat) (hwf : WF cfg s.mem L) (hfuel : cfg.NBUF < fuel)
    (hmiss : ∀ i, i ∈ L (myhash cfg blockno).toNat →
      ¬ ((s.mem (.buf i)).dev = dev ∧ (s.mem (.buf i)).blockno = blockno))
    (hnov : ∀ i, i ∈ L (myhash cfg blockno).toNat →
      ¬ ((s.mem (.buf i)).refcnt = 0 ∧ (s.mem (.buf i)).lastuse ≤ s.ticks))
    (h : bget cfg fuel pid dev blockno s = .ok p s1) :
    ∃ j v, j < cfg.NBUCKET ∧ j ≠ (myhash cfg blockno).toNat ∧ v ∈ L j ∧ p = .buf v ∧
      (s.mem (.buf v)).refcnt = 0 ∧ (s.mem (.buf v)).lastuse ≤ s.ticks ∧
      (∀ j2, j2 < j → j2 ≠ (myhash cfg blockno).toNat → ∀ i, i ∈ L j2 →
        ¬ ((s.mem (.buf i)).refcnt = 0 ∧ (s.mem (.buf i)).lastuse ≤ s.ticks)) ∧
      (s1.mem p).dev = dev ∧ (s1.mem p).blockno = blockno ∧ (s1.mem p).valid = 0 ∧
      (s1.mem p).refcnt = 1 ∧
      ∃ L1, WF cfg s1.mem L1 ∧
        L1 (myhash cfg blockno).toNat = v :: L (myhash cfg blockno).toNat ∧
        L1 j = (L j).erase v ∧ v ∉ L1 j ∧
        ∀ k, k ≠ (myhash cfg blockno).toNat → k ≠ j → L1 k = L k := by
  obtain ⟨k, v, hk, hp, hpv, h1, h2, h3, h4, hcase⟩ :=
    bget_miss_ok cfg fuel pid dev blockno s s1 p L hwf hfuel hmiss h
  obtain ⟨hvk, hidle, hle, _⟩ := pickVictim_spec _ _ _ _ hpv
  rcases hcase with ⟨hkh, _⟩ | ⟨hkne, _, hfirst, hwf1⟩
  · rw [hkh] at hvk
    exact absurd ⟨hidle, hle⟩ (hnov v hvk)
  · have hnd := (allBufs_nodup_parts cfg.NBUCKET L hwf.nodup).1 k hk
    have hLk : Function.update (Function.update L k ((L k).erase v))
        (myhash cfg blockno).toNat (v :: L (myhash cfg blockno).toNat) k = (L k).erase v := by
      rw [Function.update_noteq hkne, Function.update_same]
    refine ⟨k, v, hk, hkne, hvk, hp, hidle, hle, ?_, h1, h2, h3, h4, _, hwf1, ?_, hLk, ?_, ?_⟩
    · intro j2 hj2 hne
      exact (pickVictim_none_iff _ _ _).mp (hfirst j2 hj2 hne)
    · rw [Function.update_same]
    · rw [hLk]
      intro hmem
      exact ((List.Nodup.mem_erase_iff hnd).mp hmem).1 rfl
    · intro k2 hk2 hk2j
      rw [Function.update_noteq hk2, Function.update_noteq hk2j]

/-! ### Concrete runs: states after `ticks` has wrapped -/

/-- Timer ticks keep a state reachable; `n + 1` of them add `n + 1` to `ticks` modulo
`2^32`. -/
theorem reach_ticks (cfg : BConfig) (pinAny : Bool) (s : Bcache) (R : List Ptr)
    (h : Reach cfg pinAny s R) :
    ∀ n, Reach cfg pinAny { s with ticks := (s.ticks + (n + 1)) % 2 ^ 32 } R := by
  intro n
  induction n with
  | zero => exact Reach.tick s R h
  | succ n ih =>
    have e : ({ s with ticks := (s.ticks + (n + 1 + 1)) % 2 ^ 32 } : Bcache) =
        clockintr { s with ticks := (s.ticks + (n + 1)) % 2 ^ 32 } := by
      have : (s.ticks + (n + 1 + 1)) % 2 ^ 32 = ((s.ticks + (n + 1)) % 2 ^ 32 + 1) % 2 ^ 32 := by
        omega
      simp only [clockintr, incr32, this]
    rw [e]
    exact Reach.tick _ R ih

theorem reach_wrapA2 : Reach c22 false wrapA2 [.buf 1, .buf 0] :=
  Reach.brelse (bread c22 3 7 1 0 wrapA1).stateD wrapA2 _ 7 (.buf 1)
    (Reach.bread wrapA1 _ _ 3 7 1 0 (.buf 1)
      (Reach.brelse (bread c22 3 7 1 1 (clockintr st0)).stateD wrapA1 _ 7 (.buf 0)
        (Reach.bread (clockintr st0) _ _ 3 7 1 1 (.buf 0)
          (Reach.tick _ _ Reach.init) (by decide) rfl)
        (by decide) rfl)
      (by decide) rfl)
    (by decide) rfl

/-- The state `wrapA` is reached from `binit` by calls of `bread`, `brelse` and
`clockintr`. -/
theorem reach_wrapA : Reach c22 false wrapA [.buf 1, .buf 0] := by
  have h := reach_ticks c22 false wrapA2 _ reach_wrapA2 (2 ^ 32 - 2)
  have e : (wrapA2.ticks + (2 ^ 32 - 2 + 1)) % 2 ^ 32 = 0 := by decide
  rw [e] at h
  exact h

theorem reach_wrapB2 : Reach c23 false wrapB2 [.buf 1, .buf 0] :=
  Reach.brelse (bread c23 3 7 1 0 wrapB1).stateD wrapB2 _ 7 (.buf 1)
    (Reach.bread wrapB1 _ _ 3 7 1 0 (.buf 1)
      (Reach.tick _ _
        (Reach.brelse (bread c23 3 7 1 1 (binit c23 zeroed)).stateD _ _ 7 (.buf 0)
          (Reach.bread (binit c23 zeroed) _ _ 3 7 1 1 (.buf 0) Reach.init (by decide) rfl)
          (by decide) rfl))
      (by decide) rfl)
    (by decide) rfl

/-- The state `wrapB` is reached from `binit` by calls of `bread`, `brelse` and
`clockintr`. -/
theorem reach_wrapB : Reach c23 false wrapB [.buf 1, .buf 0] := by
  have h := reach_ticks c23 false wrapB2 _ reach_wrapB2 (2 ^ 32 - 2)
  have e : (wrapB2.ticks + (2 ^ 32 - 2 + 1)) % 2 ^ 32 = 0 := by decide
  rw [e] at h
  exact h

/-- A cache of two buffers whose buckets 0 and 1 hold buffer 1 and buffer 0 is
well-formed. -/
theorem wf_scLists (cfg : BConfig) (mem : Ptr → Buf) (hn : cfg.NBUF = 2)
    (hk : 2 ≤ cfg.NBUCKET)
    (h0 : IsBucket mem 0 [1]) (h1 : IsBucket mem 1 [0])
    (hrest : ∀ k, 2 ≤ k → k < cfg.NBUCKET → IsBucket mem k []) : WF cfg mem scLists := by
  have hall : ∀ n, 2 ≤ n → allBufs n scLists = [1, 0] := by
    intro n hn2
    induction n with
    | zero => omega
    | succ n ih =>
      by_cases h2 : n = 1
      · subst h2
        rfl
      · rw [allBufs_succ, ih (by omega)]
        have : scLists n = [] := by
          unfold scLists
          rw [if_neg (by omega), if_neg (by omega)]
        rw [this]
        rfl
  refine ⟨?_, ?_, ?_⟩
  · intro k hkk
    by_cases e0 : k = 0
    · subst e0; exact h0
    · by_cases e1 : k = 1
      · subst e1; exact h1
      · have : scLists k = [] := by
          unfold scLists
          rw [if_neg e0, if_neg e1]
        rw [this]
        exact hrest k (by omega) hkk
  · rw [hall _ hk]
    decide
  · intro i
    rw [hall _ hk, hn]
    simp only [List.mem_cons, List.mem_singleton, List.not_mem_nil, or_false]
    omega

theorem wrapA_wf : WF c22 wrapA.mem scLists :=
  wf_scLists c22 _ rfl (by decide) (by decide) (by decide) (fun k h1 h2 => by
    have : k < 2 := h2
    omega)

theorem wrapB_wf : WF c23 wrapB.mem scLists :=
  wf_scLists c23 _ rfl (by decide) (by decide) (by decide) (fun k h1 h2 => by
    have h3 : k < 3 := h2
    have : k = 2 := by omega
    subst this
    decide)

/-- C11, failing input.  The state `wrapA` is reached from `binit` by two
`bread`/`brelse` pairs at `ticks = 1` followed by timer ticks until the 32-bit counter
has wrapped to 0.  It is well-formed; both buffers have `refcnt = 0`, with
`lastuse = 1 > ticks`.  The key `(1, 2)` has no entry in its home bucket 0, and
`bget(1, 2)` panics with "bget: no buf" although idle buffers exist in both buckets:
the victim loops start from `minticks = ticks` and so pass over an idle buffer whose
`lastuse` is above `ticks`. -/
theorem bget_saturation_failing_input :
    Reach c22 false wrapA [.buf 1, .buf 0] ∧ WF c22 wrapA.mem scLists ∧
    inBounds c22 (myhash c22 2) ∧
    (∀ i, i ∈ scLists (myhash c22 2).toNat →
      ¬ ((wrapA.mem (.buf i)).dev = 1 ∧ (wrapA.mem (.buf i)).blockno = 2)) ∧
    (wrapA.mem (.buf 0)).refcnt = 0 ∧ (wrapA.mem (.buf 1)).refcnt = 0 ∧
    bget c22 3 7 1 2 wrapA = .panic "bget: no buf" (bget c22 3 7 1 2 wrapA).stateD :=
  ⟨reach_wrapA, wrapA_wf, by decide, by decide, by decide, by decide, rfl⟩

/-- C16, failing input.  In the reachable, well-formed state `wrapB` (`ticks` wrapped
to 0) the home bucket 0 of the key `(1, 3)` contains buffer 1 with `refcnt = 0` (and no
entry for the key), yet `bget(1, 3)` does not take its victim from the home bucket in
place: the home scan, started from `minticks = ticks`, passes over buffer 1
(`lastuse = 1`), and `bget` steals buffer 0 from bucket 1 and links it in front of
buffer 1. -/
theorem bget_timestamp_lru_failing_input :
    Reach c23 false wrapB [.buf 1, .buf 0] ∧ WF c23 wrapB.mem scLists ∧
    (myhash c23 3).toNat = 0 ∧ 1 ∈ scLists 0 ∧ (wrapB.mem (.buf 1)).refcnt = 0 ∧
    (∀ i, i ∈ scLists 0 →
      ¬ ((wrapB.mem (.buf i)).dev = 1 ∧ (wrapB.mem (.buf i)).blockno = 3)) ∧
    bget c23 3 7 1 3 wrapB = .ok (.buf 0) (bget c23 3 7 1 3 wrapB).stateD ∧
    0 ∈ scLists 1 ∧
    IsBucket (bget c23 3 7 1 3 wrapB).stateD.mem 0 [0, 1] ∧
    IsBucket (bget c23 3 7 1 3 wrapB).stateD.mem 1 [] :=
  ⟨reach_wrapB, wrapB_wf, by decide, by decide, by decide, by decide, rfl, by decide,
    by decide, by decide⟩

theorem sc1_wf : WF c22 sc1.mem scLists :=
  wf_scLists c22 _ rfl (by decide) (by decide) (by decide) (fun k h1 h2 => by
    have : k < 2 := h2
    omega)

/-- An instance of `bget_timestamp_lru`: after `binit` and `bread`/`brelse` of `(1,1)`,
`bget(1, 3)` misses in its home bucket 1, which holds the idle buffer 0, and
re-initialises it in place. -/
theorem bget_timestamp_lru_witness :
    WF c22 sc1.mem scLists ∧ c22.NBUF < 3 ∧
    (∀ i, i ∈ scLists (myhash c22 3).toNat →
      ¬ ((sc1.mem (.buf i)).dev = 1 ∧ (sc1.mem (.buf i)).blockno = 3)) ∧
    bget c22 3 7 1 3 sc1 = .ok (.buf 0) (bget c22 3 7 1 3 sc1).stateD ∧
    (∃ j, j ∈ scLists (myhash c22 3).toNat ∧ (sc1.mem (.buf j)).refcnt = 0 ∧
      (sc1.mem (.buf j)).lastuse ≤ sc1.ticks) ∧
    ∃ k v, k < c22.NBUCKET ∧ v ∈ scLists k ∧ Ptr.buf 0 = .buf v ∧
      (sc1.mem (.buf v)).refcnt = 0 ∧
      ((bget c22 3 7 1 3 sc1).stateD.mem (.buf 0)).dev = 1 ∧
      ((bget c22 3 7 1 3 sc1).stateD.mem (.buf 0)).blockno = 3 ∧
      ((bget c22 3 7 1 3 sc1).stateD.mem (.buf 0)).valid = 0 ∧
      ((bget c22 3 7 1 3 sc1).stateD.mem (.buf 0)).refcnt = 1 ∧
      (∀ j, j ∈ scLists k → (sc1.mem (.buf j)).refcnt = 0 →
        (sc1.mem (.buf v)).lastuse ≤ (sc1.mem (.buf j)).lastuse) ∧
      ((∃ j, j ∈ scLists (myhash c22 3).toNat ∧ (sc1.mem (.buf j)).refcnt = 0 ∧
          (sc1.mem (.buf j)).lastuse ≤ sc1.ticks) →
        k = (myhash c22 3).toNat ∧ WF c22 (bget c22 3 7 1 3 sc1).stateD.mem scLists ∧
        ∀ x, ((bget c22 3 7 1 3 sc1).stateD.mem x).next = (sc1.mem x).next ∧
          ((bget c22 3 7 1 3 sc1).stateD.mem x).prev = (sc1.mem x).prev) :=
  ⟨sc1_wf, by decide, by decide, rfl, ⟨0, by decide, by decide, by decide⟩,
    bget_timestamp_lru c22 3 7 1 3 sc1 _ (.buf 0) scLists sc1_wf (by decide)
      (by decide) rfl⟩

/-- C17, failing input.  In the reachable, well-formed state `wrapB` (`ticks` wrapped
to 0) the home bucket 2 of the key `(1, 2)` is empty, so `bget(1, 2)` finds neither a
match nor a victim there; it returns.  Bucket 0, the lowest-indexed other bucket,
contains buffer 1 with `refcnt = 0`, yet the returned buffer is buffer 0, taken from
bucket 1: the scan of bucket 0, started from `minticks = ticks`, passes over buffer 1
(`lastuse = 1`). -/
theorem bget_steal_path_failing_input :
    Reach c23 false wrapB [.buf 1, .buf 0] ∧ WF c23 wrapB.mem scLists ∧
    (myhash c23 2).toNat = 2 ∧ scLists 2 = [] ∧
    1 ∈ scLists 0 ∧ (wrapB.mem (.buf 1)).refcnt = 0 ∧
    bget c23 3 7 1 2 wrapB = .ok (.buf 0) (bget c23 3 7 1 2 wrapB).stateD ∧
    0 ∈ scLists 1 ∧ 0 ∉ scLists 0 ∧
    IsBucket (bget c23 3 7 1 2 wrapB).stateD.mem 0 [1] ∧
    IsBucket (bget c23 3 7 1 2 wrapB).stateD.mem 1 [] ∧
    IsBucket (bget c23 3 7 1 2 wrapB).stateD.mem 2 [0] :=
  ⟨reach_wrapB, wrapB_wf, by decide, by decide, by decide, by decide, rfl, by decide,
    by decide, by decide, by decide, by decide⟩

/-- An instance of `bget_steal_path`: `bget(1, 1)` right after `binit` steals buffer 0
from bucket 0. -/
theorem bget_steal_path_witness :
    WF c22 st0.mem (initLists c22) ∧ c22.NBUF < 3 ∧
    (∀ i, i ∈ initLists c22 (myhash c22 1).toNat →
      ¬ ((st0.mem (.buf i)).dev = 1 ∧ (st0.mem (.buf i)).blockno = 1)) ∧
    (∀ i, i ∈ initLists c22 (myhash c22 1).toNat →
      ¬ ((st0.mem (.buf i)).refcnt = 0 ∧ (st0.mem (.buf i)).lastuse ≤ st0.ticks)) ∧
    bget c22 3 7 1 1 st0 = .ok (.buf 0) (bget c22 3 7 1 1 st0).stateD ∧
    ∃ j v, j < c22.NBUCKET ∧ j ≠ (myhash c22 1).toNat ∧ v ∈ initLists c22 j ∧
      Ptr.buf 0 = .buf v ∧
      (st0.mem (.buf v)).refcnt = 0 ∧ (st0.mem (.buf v)).lastuse ≤ st0.ticks ∧
      (∀ j2, j2 < j → j2 ≠ (myhash c22 1).toNat → ∀ i, i ∈ initLists c22 j2 →
        ¬ ((st0.mem (.buf i)).refcnt = 0 ∧ (st0.mem (.buf i)).lastuse ≤ st0.ticks)) ∧
      ((bget c22 3 7 1 1 st0).stateD.mem (.buf 0)).dev = 1 ∧
      ((bget c22 3 7 1 1 st0).stateD.mem (.buf 0)).blockno = 1 ∧
      ((bget c22 3 7 1 1 st0).stateD.mem (.buf 0)).valid = 0 ∧
      ((bget c22 3 7 1 1 st0).stateD.mem (.buf 0)).refcnt = 1 ∧
      ∃ L1, WF c22 (bget c22 3 7 1 1 st0).stateD.mem L1 ∧
        L1 (myhash c22 1).toNat = v :: initLists c22 (myhash c22 1).toNat ∧
        L1 j = (initLists c22 j).erase v ∧ v ∉ L1 j ∧
        ∀ k, k ≠ (myhash c22 1).toNat → k ≠ j → L1 k = initLists c22 k :=
  ⟨st0_wf, by decide, by decide, by decide, rfl,
    bget_steal_path c22 3 7 1 1 st0 _ (.buf 0) (initLists c22) st0_wf (by decide)
      (by decide) (by decide) rfl⟩

/-! ### Scenario 3 -/

/-- C18, counterexample.  Scenario 3 as the code runs it (`NBUF = 2`, `NBUCKET = 2`,
process 7): after `binit`, `bread`/`brelse` of `(1,1)` and `bread`/`brelse` of `(1,3)`,
bucket 0 holds buffer 1 and bucket 1 holds buffer 0.  The last call, `bread(1,0)`, does
find an idle victim in its home bucket 0: the victim loop of lines 104-111 ends with
`victm = &bcache.buf[1]`.  The call returns buffer 1, which was in bucket 0 already;
nothing is stolen from bucket 1, whose list is `[0]` before and after. -/
theorem scenario3_counterexample :
    IsBucket sc2.mem 0 [1] ∧ IsBucket sc2.mem 1 [0] ∧
    (sc2.mem (.buf 1)).refcnt = 0 ∧
    scan_hit sc2.mem (.bucket 0) 1 0 3 (sc2.mem (.bucket 0)).next = some none ∧
    scan_victim sc2.mem (.bucket 0) 3 (sc2.mem (.bucket 0)).next sc2.ticks none =
      some (some (.buf 1)) ∧
    bread c22 3 7 1 0 sc2 = .ok (.buf 1) sc3 ∧
    IsBucket sc3.mem 0 [1] ∧ IsBucket sc3.mem 1 [0] :=
  ⟨by decide, by decide, by decide, by decide, by decide, rfl, by decide, by decide⟩

/-- C18, amended.  Scenario 3 with `NBUF = 2` and `NBUCKET = 2`, starting from the state
produced by `binit` (both buffers in bucket 0, buffer 1 first): `bread(1,1)` finds
bucket 1 empty, steals buffer 0 from bucket 0 and links it at the head of bucket 1;
after its `brelse`, `bread(1,3)` re-initialises buffer 0 in place in bucket 1; after its
`brelse`, the last `bread(1,0)` finds the idle buffer 1 in bucket 0 and re-initialises
it in place: it returns buffer 1 with key `(1,0)`, `valid = 1`, `refcnt = 1`, locked by
the caller; bucket 0 still holds buffer 1 alone and bucket 1 still holds buffer 0, which
keeps the key `(1,3)`; no list pointer of the two buffers and the two sentinels changes
in the last call. -/
theorem scenario3 :
    IsBucket st0.mem 0 [1, 0] ∧ IsBucket st0.mem 1 [] ∧
    bread c22 3 7 1 1 st0 = .ok (.buf 0) st1 ∧
    IsBucket st1.mem 0 [1] ∧ IsBucket st1.mem 1 [0] ∧
    brelse c22 7 (.buf 0) st1 = .ok () sc1 ∧
    bread c22 3 7 1 3 sc1 = .ok (.buf 0) (bread c22 3 7 1 3 sc1).stateD ∧
    IsBucket (bread c22 3 7 1 3 sc1).stateD.mem 0 [1] ∧
    IsBucket (bread c22 3 7 1 3 sc1).stateD.mem 1 [0] ∧
    brelse c22 7 (.buf 0) (bread c22 3 7 1 3 sc1).stateD = .ok () sc2 ∧
    bread c22 3 7 1 0 sc2 = .ok (.buf 1) sc3 ∧
    IsBucket sc3.mem 0 [1] ∧ IsBucket sc3.mem 1 [0] ∧
    (sc3.mem (.buf 1)).dev = 1 ∧ (sc3.mem (.buf 1)).blockno = 0 ∧
    (sc3.mem (.buf 1)).valid = 1 ∧ (sc3.mem (.buf 1)).refcnt = 1 ∧
    (sc3.mem (.buf 1)).lock = some 7 ∧
    (sc3.mem (.buf 0)).dev = 1 ∧ (sc3.mem (.buf 0)).blockno = 3 ∧
    (sc3.mem (.buf 0)).refcnt = 0 ∧
    (∀ x, x ∈ [Ptr.buf 0, Ptr.buf 1, Ptr.bucket 0, Ptr.bucket 1] →
      (sc3.mem x).next = (sc2.mem x).next ∧ (sc3.mem x).prev = (sc2.mem x).prev) :=
  ⟨by decide, by decide, rfl, by decide, by decide, rfl, rfl, by decide, by decide,
    rfl, rfl, by decide, by decide, by decide, by decide, by decide, by decide, by decide,
    by decide, by decide, by decide, by decide⟩

/-! ### Bucket membership in every reachable state -/

/-- In a chain `next` and `prev` are mutually inverse at every node. -/
theorem isChain_inverse (mem : Ptr → Buf) (l : List Nat) :
    ∀ (p q : Ptr), IsChain mem p l q →
      ((mem (mem p).next).prev = p ∧ (mem (mem q).prev).next = q) ∧
      ∀ i, i ∈ l → (mem (mem (.buf i)).next).prev = .buf i ∧
        (mem (mem (.buf i)).prev).next = .buf i := by
  induction l with
  | nil =>
    intro p q h
    obtain ⟨h1, h2⟩ := h
    refine ⟨⟨?_, ?_⟩, fun i hi => absurd hi (List.not_mem_nil i)⟩
    · rw [h1, h2]
    · rw [h2, h1]
  | cons a l ih =>
    intro p q h
    obtain ⟨h1, h2, h3⟩ := h
    obtain ⟨⟨h4, h5⟩, h6⟩ := ih (.buf a) q h3
    refine ⟨⟨?_, h5⟩, ?_⟩
    · rw [h1, h2]
    · intro i hi
      rcases List.mem_cons.mp hi with e | e
      · subst e
        refine ⟨h4, ?_⟩
        rw [h2, h1]
      · exact h6 i e

/-- Stores that leave list pointers and block numbers alone keep bucket membership. -/
theorem memb_of_same (cfg : BConfig) (mem mem1 : Ptr → Buf) (L : Nat → List Nat)
    (hwf : WF cfg mem L) (hh : Homed cfg mem L)
    (h : ∀ x, (mem1 x).next = (mem x).next ∧ (mem1 x).prev = (mem x).prev ∧
      (mem1 x).blockno = (mem x).blockno) :
    WF cfg mem1 L ∧ Homed cfg mem1 L := by
  refine ⟨wf_of_ptr_eq cfg mem mem1 L (fun x => (h x).1) (fun x => (h x).2.1) hwf, ?_⟩
  intro k hk i hi
  rw [(h _).2.2]
  exact hh k hk i hi

theorem write_same_shape (mem : Ptr → Buf) (p x : Ptr) (f : Buf → Buf)
    (hf : ∀ y, (f y).next = y.next ∧ (f y).prev = y.prev ∧ (f y).blockno = y.blockno) :
    (write mem p f x).next = (mem x).next ∧ (write mem p f x).prev = (mem x).prev ∧
    (write mem p f x).blockno = (mem x).blockno := by
  by_cases h : x = p
  · rw [h, write_same]; exact hf _
  · rw [write_other _ _ _ _ h]; exact ⟨rfl, rfl, rfl⟩

/-- Bucket membership when buffer `v`, a member of bucket `k`, is given a block number
that hashes to `k`. -/
theorem homed_rekey (cfg : BConfig) (mem mem1 : Ptr → Buf) (L : Nat → List Nat) (k v : Nat)
    (blockno : Nat) (hwf : WF cfg mem L) (hh : Homed cfg mem L) (hk : k < cfg.NBUCKET)
    (hv : v ∈ L k) (hkey : myhash cfg blockno = (k : Int))
    (hnew : (mem1 (.buf v)).blockno = blockno)
    (hold : ∀ i, i ≠ v → (mem1 (.buf i)).blockno = (mem (.buf i)).blockno) :
    Homed cfg mem1 L := by
  obtain ⟨_, hdis⟩ := allBufs_nodup_parts cfg.NBUCKET L hwf.nodup
  intro k2 hk2 i hi
  by_cases hiv : i = v
  · subst hiv
    have : k2 = k := by
      by_contra hne
      exact hdis k2 k hk2 hk hne i hi hv
    rw [this, hnew]
    exact hkey
  · rw [hold i hiv]
    exact hh k2 hk2 i hi

/-- Bucket membership when buffer `v` moves from bucket `j` to the head of bucket `id`
with a block number that hashes to `id`. -/
theorem homed_move (cfg : BConfig) (mem mem1 : Ptr → Buf) (L : Nat → List Nat) (j id v : Nat)
    (blockno : Nat) (hwf : WF cfg mem L) (hh : Homed cfg mem L)
    (hj : j < cfg.NBUCKET) (hid : id < cfg.NBUCKET) (hne : j ≠ id) (hv : v ∈ L j)
    (hkey : myhash cfg blockno = (id : Int))
    (hnew : (mem1 (.buf v)).blockno = blockno)
    (hold : ∀ i, i ≠ v → (mem1 (.buf i)).blockno = (mem (.buf i)).blockno) :
    Homed cfg mem1 (Function.update (Function.update L j ((L j).erase v)) id (v :: L id)) := by
  intro k hk i hi
  by_cases hkid : k = id
  · subst hkid
    rw [Function.update_same] at hi
    rcases List.mem_cons.mp hi with e | e
    · rw [e, hnew]
      exact hkey
    · have hiv : i ≠ v := by
        intro e2
        subst e2
        exact (allBufs_nodup_parts cfg.NBUCKET L hwf.nodup).2 j k hj hk hne i hv e
      rw [hold i hiv]
      exact hh k hk i e
  · rw [Function.update_noteq hkid] at hi
    by_cases hkj : k = j
    · subst hkj
      rw [Function.update_same] at hi
      have hnd := (allBufs_nodup_parts cfg.NBUCKET L hwf.nodup).1 k hk
      obtain ⟨hiv, hik⟩ := (List.Nodup.mem_erase_iff hnd).mp hi
      rw [hold i hiv]
      exact hh k hk i hik
    · rw [Function.update_noteq hkj] at hi
      have hiv : i ≠ v := by
        intro e2
        subst e2
        exact (allBufs_nodup_parts cfg.NBUCKET L hwf.nodup).2 k j hk hj hkj i hi hv
      rw [hold i hiv]
      exact hh k hk i hi

/-- The state `acquiresleep` ends in has the list pointers and block numbers it started
with. -/
theorem acquiresleep_shape (pid : Nat) (b : Ptr) (s s1 : Bcache)
    (h : (acquiresleep pid b s).state? = some s1) :
    ∀ x, (s1.mem x).next = (s.mem x).next ∧ (s1.mem x).prev = (s.mem x).prev ∧
      (s1.mem x).blockno = (s.mem x).blockno := by
  obtain ⟨_, hk, hp⟩ := acquiresleep_state pid b s s1 h
  exact fun x => ⟨(hp x).1, (hp x).2, (hk x).2.2.1⟩

/-- A call of `bget` that ends in a state keeps bucket membership. -/
theorem bget_memb (cfg : BConfig) (fuel pid dev blockno : Nat) (s s1 : Bcache)
    (L : Nat → List Nat) (hwf : WF cfg s.mem L) (hh : Homed cfg s.mem L)
    (hfuel : cfg.NBUF < fuel)
    (h : (bget cfg fuel pid dev blockno s).state? = some s1) :
    ∃ L1, WF cfg s1.mem L1 ∧ Homed cfg s1.mem L1 := by
  have hb : inBounds cfg (myhash cfg blockno) := by
    by_contra hc
    unfold bget at h
    rw [if_pos hc] at h
    cases h
  have hid := inBounds_toNat_lt cfg _ hb
  have hidz : myhash cfg blockno = ((myhash cfg blockno).toNat : Int) :=
    (Int.toNat_of_nonneg hb.1).symm
  have hinit : ∀ v, (bufinit s.mem (.buf v) dev blockno (.buf v)).blockno = blockno := by
    intro v
    unfold bufinit
    rw [write_same]
  have hinito : ∀ v i, i ≠ v →
      (bufinit s.mem (.buf v) dev blockno (.buf i)).blockno = (s.mem (.buf i)).blockno := by
    intro v i hi
    rw [bufinit_key _ _ _ _ _ (fun e => hi (Ptr.buf.inj e))]
  rcases bget_spec cfg fuel pid dev blockno s L hwf hfuel hb with
    ⟨b, _, lg, _, h3⟩ | ⟨_, v, hpv, lg, _, h3⟩ |
    ⟨_, _, j, v, hj, hjne, hpv, _, lg, _, h3⟩ | ⟨_, _, lg, _, h3⟩
  · rw [h3] at h
    have hs := acquiresleep_shape _ _ _ _ h
    refine ⟨L, memb_of_same cfg s.mem s1.mem L hwf hh ?_⟩
    intro x
    have h1 := write_same_shape s.mem (.buf b) x
      (fun y => { y with refcnt := incr32 y.refcnt }) (fun _ => ⟨rfl, rfl, rfl⟩)
    exact ⟨(hs x).1.trans h1.1, (hs x).2.1.trans h1.2.1, (hs x).2.2.trans h1.2.2⟩
  · rw [h3] at h
    have hs := acquiresleep_shape _ _ _ _ h
    have hvh := (pickVictim_idle _ _ _ _ hpv).1
    refine ⟨L, wf_of_acquiresleep cfg pid _ _ s1 L (wf_bufinit cfg s.mem L _ _ _ hwf) h, ?_⟩
    refine homed_rekey cfg s.mem s1.mem L _ v blockno hwf hh hid hvh hidz ?_ ?_
    · rw [(hs _).2.2]
      exact hinit v
    · intro i hi
      rw [(hs _).2.2]
      exact hinito v i hi
  · rw [h3] at h
    have hs := acquiresleep_shape _ _ _ _ h
    have hvj := (pickVictim_idle _ _ _ _ hpv).1
    refine ⟨_, wf_of_acquiresleep cfg pid _ _ s1 _
      (wf_move cfg _ L j _ v (wf_bufinit cfg s.mem L _ _ _ hwf) hj hid hjne hvj) h, ?_⟩
    have hmv : ∀ i, (s1.mem (.buf i)).blockno =
        (bufinit s.mem (.buf v) dev blockno (.buf i)).blockno := by
      intro i
      rw [(hs _).2.2]
      exact ((insert_head_data _ _ _ _).2.2.1).trans ((unlink_data _ _ _).2.2.1)
    refine homed_move cfg s.mem s1.mem L j _ v blockno hwf hh hj hid hjne hvj hidz ?_ ?_
    · rw [hmv]
      exact hinit v
    · intro i hi
      rw [hmv]
      exact hinito v i hi
  · rw [h3] at h
    simp only [Res.state?, Option.some.injEq] at h
    subst h
    exact ⟨L, hwf, hh⟩

/-- A call of `bread` that ends in a state keeps bucket membership. -/
theorem bread_memb (cfg : BConfig) (fuel pid dev blockno : Nat) (s s1 : Bcache)
    (L : Nat → List Nat) (hwf : WF cfg s.mem L) (hh : Homed cfg s.mem L)
    (hfuel : cfg.NBUF < fuel)
    (h : (bread cfg fuel pid dev blockno s).state? = some s1) :
    ∃ L1, WF cfg s1.mem L1 ∧ Homed cfg s1.mem L1 := by
  cases hg : bget cfg fuel pid dev blockno s with
  | ok q s0 =>
    obtain ⟨L1, hwf1, hh1⟩ := bget_memb cfg fuel pid dev blockno s s0 L hwf hh hfuel
      (by rw [hg]; rfl)
    rw [bread_of_bget_ok cfg fuel pid dev blockno s s0 q hg] at h
    by_cases hv : (s0.mem q).valid = 0
    · rw [if_pos hv] at h
      simp only [Res.state?, Option.some.injEq] at h
      subst h
      exact ⟨L1, memb_of_same cfg s0.mem _ L1 hwf1 hh1
        (fun x => write_same_shape s0.mem q x _ (fun _ => ⟨rfl, rfl, rfl⟩))⟩
    · rw [if_neg hv] at h
      simp only [Res.state?, Option.some.injEq] at h
      subst h
      exact ⟨L1, hwf1, hh1⟩
  | panic m s0 =>
    simp only [bread, hg] at h
    exact bget_memb cfg fuel pid dev blockno s s1 L hwf hh hfuel (by rw [hg]; exact h)
  | sleeps s0 =>
    simp only [bread, hg] at h
    exact bget_memb cfg fuel pid dev blockno s s1 L hwf hh hfuel (by rw [hg]; exact h)
  | undefined => simp only [bread, hg] at h; cases h
  | timeout => simp only [bread, hg] at h; cases h

/-- A call of `brelse` that ends in a state keeps bucket membership. -/
theorem brelse_memb (cfg : BConfig) (pid : Nat) (p : Ptr) (s s1 : Bcache)
    (L : Nat → List Nat) (hwf : WF cfg s.mem L) (hh : Homed cfg s.mem L)
    (h : (brelse cfg pid p s).state? = some s1) :
    WF cfg s1.mem L ∧ Homed cfg s1.mem L := by
  by_cases hl : (s.mem p).lock = some pid
  · by_cases hb : inBounds cfg (myhash cfg (s.mem p).blockno)
    · obtain ⟨s2, hcall, _, _, hother, hcell⟩ := brelse_spec cfg pid p s hl hb
      rw [hcall] at h
      simp only [Res.state?, Option.some.injEq] at h
      subst h
      refine memb_of_same cfg s.mem s2.mem L hwf hh ?_
      intro x
      by_cases hx : x = p
      · rw [hx, hcell]
        exact ⟨rfl, rfl, rfl⟩
      · rw [hother x hx]
        exact ⟨rfl, rfl, rfl⟩
    · have hh2 : holdingsleep pid p s = true := by
        simp only [holdingsleep, hl, beq_self_eq_true]
      have hblk : ((releasesleep p s).mem p).blockno = (s.mem p).blockno := by
        simp only [releasesleep, modify, emit, write_same]
      unfold brelse at h
      rw [if_neg (by simp [hh2])] at h
      simp only at h
      rw [if_pos (by rw [hblk]; exact hb)] at h
      cases h
  · have hh2 : ¬ holdingsleep pid p s = true := by
      simpa only [holdingsleep, beq_iff_eq] using hl
    unfold brelse at h
    rw [if_pos hh2] at h
    simp only [Res.state?, Option.some.injEq] at h
    subst h
    exact ⟨hwf, hh⟩

/-- Calls of `bpin` and `bunpin` that end in a state keep bucket membership. -/
theorem bpin_memb (cfg : BConfig) (p : Ptr) (s s1 : Bcache)
    (L : Nat → List Nat) (hwf : WF cfg s.mem L) (hh : Homed cfg s.mem L)
    (h : (bpin cfg p s).state? = some s1) :
    WF cfg s1.mem L ∧ Homed cfg s1.mem L := by
  unfold bpin at h
  by_cases hb : inBounds cfg (myhash cfg (s.mem p).blockno)
  · rw [if_neg (not_not.mpr hb)] at h
    simp only [Res.state?, Option.some.injEq] at h
    subst h
    exact memb_of_same cfg s.mem _ L hwf hh
      (fun x => write_same_shape s.mem p x _ (fun _ => ⟨rfl, rfl, rfl⟩))
  · rw [if_pos hb] at h
    cases h

theorem bunpin_memb (cfg : BConfig) (p : Ptr) (s s1 : Bcache)
    (L : Nat → List Nat) (hwf : WF cfg s.mem L) (hh : Homed cfg s.mem L)
    (h : (bunpin cfg p s).state? = some s1) :
    WF cfg s1.mem L ∧ Homed cfg s1.mem L := by
  unfold bunpin at h
  by_cases hb : inBounds cfg (myhash cfg (s.mem p).blockno)
  · rw [if_neg (not_not.mpr hb)] at h
    simp only [Res.state?, Option.some.injEq] at h
    subst h
    exact memb_of_same cfg s.mem _ L hwf hh
      (fun x => write_same_shape s.mem p x _ (fun _ => ⟨rfl, rfl, rfl⟩))
  · rw [if_pos hb] at h
    cases h

/-- Every reachable state is well-formed with every buffer in its home bucket. -/
theorem run_memb (cfg : BConfig) (h0 : 0 < cfg.NBUCKET) (s : Bcache) (hr : Run cfg s) :
    ∃ L, WF cfg s.mem L ∧ Homed cfg s.mem L := by
  induction hr with
  | init =>
    have h := (binit_inv cfg h0).1
    exact ⟨initLists cfg, h.wf, h.homed⟩
  | tick s _ ih => exact ih
  | bget s s1 fuel pid dev blockno _ hfuel hcall ih =>
    obtain ⟨L, hwf, hh⟩ := ih
    exact bget_memb cfg fuel pid dev blockno s s1 L hwf hh hfuel hcall
  | bread s s1 fuel pid dev blockno _ hfuel hcall ih =>
    obtain ⟨L, hwf, hh⟩ := ih
    exact bread_memb cfg fuel pid dev blockno s s1 L hwf hh hfuel hcall
  | brelse s s1 pid p _ hcall ih =>
    obtain ⟨L, hwf, hh⟩ := ih
    exact ⟨L, brelse_memb cfg pid p s s1 L hwf hh hcall⟩
  | bpin s s1 p _ hcall ih =>
    obtain ⟨L, hwf, hh⟩ := ih
    exact ⟨L, bpin_memb cfg p s s1 L hwf hh hcall⟩
  | bunpin s s1 p _ hcall ih =>
    obtain ⟨L, hwf, hh⟩ := ih
    exact ⟨L, bunpin_memb cfg p s s1 L hwf hh hcall⟩

/-- C19. Bucket membership invariant.  `binit` (with at least one bucket) produces a
state in which bucket 0 is a list of all `NBUF` buffers and every other bucket is empty.
In every state reachable from it by timer ticks and calls of `bget`, `bread`, `brelse`,
`bpin` and `bunpin` there are bucket lists `L` such that: every bucket `k` is a circular
doubly linked list through its sentinel with members `L k`; each of the `NBUF` buffers
occurs in exactly one bucket's list, exactly once; the lists hold no other node; at every
sentinel and every buffer `next` and `prev` are mutually inverse; and each buffer sits in
the bucket whose index is `myhash` of its `blockno`. -/
theorem bucket_membership (cfg : BConfig) (s : Bcache) (h0 : 0 < cfg.NBUCKET)
    (hr : Run cfg s) :
    (IsBucket (binit cfg zeroed).mem 0 (List.range cfg.NBUF).reverse ∧
      (∀ i, i < cfg.NBUF → i ∈ (List.range cfg.NBUF).reverse) ∧
      ∀ k, 0 < k → k < cfg.NBUCKET → IsBucket (binit cfg zeroed).mem k []) ∧
    ∃ L : Nat → List Nat,
      (∀ k, k < cfg.NBUCKET → IsBucket s.mem k (L k)) ∧
      (∀ i, i < cfg.NBUF → ∃ k, k < cfg.NBUCKET ∧ (L k).count i = 1 ∧
        ∀ k2, k2 < cfg.NBUCKET → k2 ≠ k → i ∉ L k2) ∧
      (∀ k, k < cfg.NBUCKET → ∀ i, i ∈ L k → i < cfg.NBUF) ∧
      (∀ k, k < cfg.NBUCKET →
        (s.mem (s.mem (.bucket k)).next).prev = .bucket k ∧
        (s.mem (s.mem (.bucket k)).prev).next = .bucket k) ∧
      (∀ i, i < cfg.NBUF →
        (s.mem (s.mem (.buf i)).next).prev = .buf i ∧
        (s.mem (s.mem (.buf i)).prev).next = .buf i) ∧
      (∀ k, k < cfg.NBUCKET → ∀ i, i ∈ L k →
        myhash cfg (s.mem (.buf i)).blockno = (k : Int)) := by
  constructor
  · have hwf := (binit_inv cfg h0).1.wf
    refine ⟨?_, ?_, ?_⟩
    · have := hwf.buckets 0 h0
      simpa only [initLists, if_true] using this
    · intro i hi
      exact List.mem_reverse.mpr (List.mem_range.mpr hi)
    · intro k hk hkn
      have := hwf.buckets k hkn
      have e : initLists cfg k = [] := by
        unfold initLists
        rw [if_neg (by omega)]
      rwa [e] at this
  · obtain ⟨L, hwf, hh⟩ := run_memb cfg h0 s hr
    obtain ⟨hnd, hdis⟩ := allBufs_nodup_parts cfg.NBUCKET L hwf.nodup
    have hplace : ∀ i, i < cfg.NBUF → ∃ k, k < cfg.NBUCKET ∧ i ∈ L k := by
      intro i hi
      exact (mem_allBufs _ _ _).mp ((hwf.cover i).mpr hi)
    refine ⟨L, hwf.buckets, ?_, ?_, ?_, ?_, hh⟩
    · intro i hi
      obtain ⟨k, hk, hik⟩ := hplace i hi
      refine ⟨k, hk, List.count_eq_one_of_mem (hnd k hk) hik, ?_⟩
      intro k2 hk2 hne
      exact hdis k k2 hk hk2 (Ne.symm hne) i hik
    · intro k hk i hi
      exact wf_mem_lt cfg s.mem L hwf k i hk hi
    · intro k hk
      exact (isChain_inverse s.mem (L k) _ _ (hwf.buckets k hk)).1
    · intro i hi
      obtain ⟨k, hk, hik⟩ := hplace i hi
      exact (isChain_inverse s.mem (L k) _ _ (hwf.buckets k hk)).2 i hik

theorem run_sc3 : Run c22 sc3 :=
  Run.bread sc2 sc3 3 7 1 0
    (Run.brelse (bread c22 3 7 1 3 sc1).stateD sc2 7 (.buf 0)
      (Run.bread sc1 _ 3 7 1 3
        (Run.brelse st1 sc1 7 (.buf 0)
          (Run.bread st0 st1 3 7 1 1 Run.init (by decide) rfl) rfl)
        (by decide) rfl)
      rfl)
    (by decide) rfl

/-- Witness for C19: the state at the end of scenario 3. -/
theorem bucket_membership_witness :
    0 < c22.NBUCKET ∧ Run c22 sc3 ∧
    ((IsBucket (binit c22 zeroed).mem 0 (List.range c22.NBUF).reverse ∧
      (∀ i, i < c22.NBUF → i ∈ (List.range c22.NBUF).reverse) ∧
      ∀ k, 0 < k → k < c22.NBUCKET → IsBucket (binit c22 zeroed).mem k []) ∧
    ∃ L : Nat → List Nat,
      (∀ k, k < c22.NBUCKET → IsBucket sc3.mem k (L k)) ∧
      (∀ i, i < c22.NBUF → ∃ k, k < c22.NBUCKET ∧ (L k).count i = 1 ∧
        ∀ k2, k2 < c22.NBUCKET → k2 ≠ k → i ∉ L k2) ∧
      (∀ k, k < c22.NBUCKET → ∀ i, i ∈ L k → i < c22.NBUF) ∧
      (∀ k, k < c22.NBUCKET →
        (sc3.mem (sc3.mem (.bucket k)).next).prev = .bucket k ∧
        (sc3.mem (sc3.mem (.bucket k)).prev).next = .bucket k) ∧
      (∀ i, i < c22.NBUF →
        (sc3.mem (sc3.mem (.buf i)).next).prev = .buf i ∧
        (sc3.mem (sc3.mem (.buf i)).prev).next = .buf i) ∧
      (∀ k, k < c22.NBUCKET → ∀ i, i ∈ L k →
        myhash c22 (sc3.mem (.buf i)).blockno = (k : Int))) :=
  ⟨by decide, run_sc3, bucket_membership c22 sc3 (by decide) run_sc3⟩

/-! ### Lock discipline of `bget` -/

theorem allowed_length (home : Nat) (held : List Nat) (h : Allowed home held) :
    held.length ≤ 2 := by
  match held, h with
  | [], _ => simp
  | [_], _ => simp
  | [_, _], _ => simp

/-- A disciplined trace has an allowed held set after each of its prefixes, and an empty
one in front of each `acquiresleep`. -/
theorem discipline_split (home : Nat) (es : List Event) :
    ∀ (held : List Nat), Discipline home held es → ∀ pre suf, es = pre ++ suf →
      Allowed home (heldAfter held pre) ∧
      (∀ b suf2, suf = .acquiresleep b :: suf2 → heldAfter held pre = []) := by
  induction es with
  | nil =>
    intro held h pre suf e
    obtain ⟨e1, e2⟩ := List.append_eq_nil.mp e.symm
    subst e1 e2
    exact ⟨h, fun b suf2 hs => by cases hs⟩
  | cons x es ih =>
    intro held h pre suf e
    cases pre with
    | nil =>
      refine ⟨h.1, ?_⟩
      intro b suf2 hs
      rw [hs] at e
      injection e with e1 _
      exact h.2.1 b e1
    | cons y pre =>
      injection e with e1 e2
      subst e1
      exact ih (lockStep held x) h.2.2 pre suf e2

/-- A call of `acquiresleep` that ends in a state has logged exactly itself. -/
theorem acquiresleep_log (pid : Nat) (b : Ptr) (s s1 : Bcache)
    (h : (acquiresleep pid b s).state? = some s1) : s1.log = s.log ++ [.acquiresleep b] := by
  by_cases hl : (s.mem b).lock = none
  · rw [acquiresleep_free pid b s hl] at h
    simp only [Res.state?, Option.some.injEq] at h
    subst h
    rfl
  · rw [acquiresleep_held pid b s hl] at h
    simp only [Res.state?, Option.some.injEq] at h
    subst h
    rfl

/-- The steal loop, entered with the home lock held: its trace is disciplined and ends
with no lock held. -/
theorem bget_steal_discipline (fuel pid dev blockno id : Nat) (n : Nat) :
    ∀ (i : Nat) (s s1 : Bcache),
      (bget_steal fuel pid dev blockno id n i s).state? = some s1 →
      ∃ lg, s1.log = s.log ++ lg ∧ Discipline id [id] lg ∧ heldAfter [id] lg = [] ∧
        ∀ p, bget_steal fuel pid dev blockno id n i s = .ok p s1 →
          ∃ pre, lg = pre ++ [.acquiresleep p] := by
  induction n with
  | zero =>
    intro i s s1 h
    simp only [bget_steal, Res.state?, Option.some.injEq] at h
    subst h
    refine ⟨[.release id], rfl, ?_, ?_, ?_⟩
    · refine ⟨rfl, (fun b e => by cases e), ?_⟩
      simp only [lockStep, List.erase_cons_head]
      trivial
    · simp only [heldAfter, lockStep, List.erase_cons_head]
    · intro p hp
      simp only [bget_steal] at hp
      cases hp
  | succ n ih =>
    intro i s s1 h
    generalize hr : bget_steal fuel pid dev blockno id (n + 1) i s = r at h ⊢
    unfold bget_steal at hr
    by_cases hi : i = id
    · rw [if_pos hi] at hr
      subst hr
      exact ih _ _ _ h
    · rw [if_neg hi] at hr
      simp only at hr
      have hstep : ∀ lg, Discipline id [id] lg → heldAfter [id] lg = [] →
          Discipline id [id] (.acquire i :: .release i :: lg) ∧
          heldAfter [id] (.acquire i :: .release i :: lg) = [] := by
        intro lg h1 h2
        refine ⟨⟨rfl, (fun b e => by cases e), ⟨rfl, hi⟩, (fun b e => by cases e), ?_⟩, ?_⟩
        · simp only [lockStep, List.erase_cons_head]
          exact h1
        · simp only [heldAfter, lockStep, List.erase_cons_head]
          exact h2
      cases hsc : scan_victim (emit s (.acquire i)).mem (.bucket i) fuel
          ((emit s (.acquire i)).mem (.bucket i)).next (emit s (.acquire i)).ticks none with
      | none =>
        rw [hsc] at hr
        simp only at hr
        subst hr
        cases h
      | some r2 =>
        rw [hsc] at hr
        cases r2 with
        | none =>
          simp only at hr
          subst hr
          obtain ⟨lg, h1, h2, h3, h4⟩ := ih _ _ _ h
          obtain ⟨h5, h6⟩ := hstep lg h2 h3
          refine ⟨.acquire i :: .release i :: lg, ?_, h5, h6, ?_⟩
          · rw [h1]
            simp only [emit, List.append_assoc, List.singleton_append, List.cons_append,
              List.nil_append]
          · intro p hp
            obtain ⟨pre, hpre⟩ := h4 p hp
            exact ⟨.acquire i :: .release i :: pre, by rw [hpre]; rfl⟩
        | some v =>
          simp only at hr
          subst hr
          have hlog := acquiresleep_log _ _ _ _ h
          obtain ⟨h5, h6⟩ := hstep [.release id, .acquiresleep v]
            (by
              refine ⟨rfl, (fun b e => by cases e), ?_⟩
              simp only [lockStep, List.erase_cons_head]
              exact ⟨trivial, fun _ _ => rfl, trivial⟩)
            (by simp only [heldAfter, lockStep, List.erase_cons_head])
          refine ⟨.acquire i :: .release i :: [.release id, .acquiresleep v], ?_, h5, h6, ?_⟩
          · rw [hlog]
            simp only [emit, List.append_assoc, List.singleton_append, List.cons_append,
              List.nil_append]
          · intro p hp
            obtain ⟨_, hpv, _⟩ := acquiresleep_ok _ _ _ _ _ hp
            rw [hpv]
            exact ⟨[.acquire i, .release i, .release id], rfl⟩

/-- The trace of `bget`, started with no lock held, is disciplined and ends with no lock
held. -/
theorem bget_discipline (cfg : BConfig) (fuel pid dev blockno : Nat) (s s1 : Bcache)
    (h : (bget cfg fuel pid dev blockno s).state? = some s1) :
    ∃ lg, s1.log = s.log ++ lg ∧ Discipline (myhash cfg blockno).toNat [] lg ∧
      heldAfter [] lg = [] ∧
      ∀ p, bget cfg fuel pid dev blockno s = .ok p s1 → ∃ pre, lg = pre ++ [.acquiresleep p] := by
  generalize hr : bget cfg fuel pid dev blockno s = r at h ⊢
  unfold bget at hr
  by_cases hb : inBounds cfg (myhash cfg blockno)
  · rw [if_neg (not_not.mpr hb)] at hr
    simp only at hr
    generalize (myhash cfg blockno).toNat = id at hr ⊢
    have hshort : ∀ b : Ptr, Discipline id [] [.acquire id, .release id, .acquiresleep b] ∧
        heldAfter [] [.acquire id, .release id, .acquiresleep b] = [] := by
      intro b
      refine ⟨⟨trivial, (fun b e => by cases e), rfl, (fun b e => by cases e), ?_⟩, ?_⟩
      · simp only [lockStep, List.erase_cons_head]
        exact ⟨trivial, fun _ _ => rfl, trivial⟩
      · simp only [heldAfter, lockStep, List.erase_cons_head]
    have hlast : ∀ (b p : Ptr) (s0 : Bcache), acquiresleep pid b s0 = .ok p s1 →
        ∃ pre, [Event.acquire id, .release id, .acquiresleep b] = pre ++ [.acquiresleep p] := by
      intro b p s0 hp
      obtain ⟨_, hpv, _⟩ := acquiresleep_ok _ _ _ _ _ hp
      rw [hpv]
      exact ⟨[.acquire id, .release id], rfl⟩
    cases hsc : scan_hit (emit s (.acquire id)).mem (.bucket id) dev blockno fuel
        ((emit s (.acquire id)).mem (.bucket id)).next with
    | none =>
      rw [hsc] at hr
      simp only at hr
      subst hr
      cases h
    | some r1 =>
      rw [hsc] at hr
      cases r1 with
      | some b =>
        simp only at hr
        subst hr
        have hlog := acquiresleep_log _ _ _ _ h
        refine ⟨[.acquire id, .release id, .acquiresleep b], ?_, (hshort b).1, (hshort b).2,
          fun p hp => hlast b p _ hp⟩
        rw [hlog]
        simp only [emit, modify, List.append_assoc, List.singleton_append, List.cons_append,
          List.nil_append]
      | none =>
        simp only at hr
        cases hsv : scan_victim (emit s (.acquire id)).mem (.bucket id) fuel
            ((emit s (.acquire id)).mem (.bucket id)).next (emit s (.acquire id)).ticks none with
        | none =>
          rw [hsv] at hr
          simp only at hr
          subst hr
          cases h
        | some r2 =>
          rw [hsv] at hr
          cases r2 with
          | some v =>
            simp only at hr
            subst hr
            have hlog := acquiresleep_log _ _ _ _ h
            refine ⟨[.acquire id, .release id, .acquiresleep v], ?_, (hshort v).1, (hshort v).2,
              fun p hp => hlast v p _ hp⟩
            rw [hlog]
            simp only [emit, List.append_assoc, List.singleton_append, List.cons_append,
              List.nil_append]
          | none =>
            simp only at hr
            subst hr
            obtain ⟨lg, h1, h2, h3, h4⟩ := bget_steal_discipline fuel pid dev blockno id
              cfg.NBUCKET 0 _ s1 h
            refine ⟨.acquire id :: lg, ?_, ⟨trivial, (fun b e => by cases e), h2⟩, h3, ?_⟩
            · rw [h1]
              simp only [emit, List.append_assoc, List.singleton_append, List.cons_append,
                List.nil_append]
            · intro p hp
              obtain ⟨pre, hpre⟩ := h4 p hp
              exact ⟨.acquire id :: pre, by rw [hpre]; rfl⟩
  · rw [if_pos hb] at hr
    subst hr
    cases h

/-- C20. Lock discipline of `bget`.  Every call of `bget` that ends in a state (return
through the hit path, the in-place victim path or the steal path, sleep inside
`acquiresleep`, or the panic) logs calls `lg` such that, for a caller that enters `bget`
holding no bucket spin-lock: after every prefix of `lg` the bucket spin-locks held are
none, the home lock alone, or the home lock and the lock of one candidate bucket other
than the home bucket, hence never more than two; in front of every call of
`acquiresleep` none is held; none is held at the end; and a call that returns `p` ends
with `acquiresleep` on `p`. -/
theorem bget_lock_discipline (cfg : BConfig) (fuel pid dev blockno : Nat) (s s1 : Bcache)
    (h : (bget cfg fuel pid dev blockno s).state? = some s1) :
    ∃ lg, s1.log = s.log ++ lg ∧
      (∀ pre suf, lg = pre ++ suf →
        Allowed (myhash cfg blockno).toNat (heldAfter [] pre) ∧
        (heldAfter [] pre).length ≤ 2) ∧
      (∀ pre b suf, lg = pre ++ .acquiresleep b :: suf → heldAfter [] pre = []) ∧
      heldAfter [] lg = [] ∧
      ∀ p, bget cfg fuel pid dev blockno s = .ok p s1 → ∃ pre, lg = pre ++ [.acquiresleep p] := by
  obtain ⟨lg, h1, h2, h3, h4⟩ := bget_discipline cfg fuel pid dev blockno s s1 h
  refine ⟨lg, h1, ?_, ?_, h3, h4⟩
  · intro pre suf e
    have := (discipline_split _ lg [] h2 pre suf e).1
    exact ⟨this, allowed_length _ _ this⟩
  · intro pre b suf e
    exact (discipline_split _ lg [] h2 pre _ e).2 b suf rfl

/-- Witness for C20: `bget(1, 1)` right after `binit` takes the steal path (home bucket
1, candidate bucket 0). -/
theorem bget_lock_discipline_witness :
    (bget c22 3 7 1 1 st0).state? = some (bget c22 3 7 1 1 st0).stateD ∧
    (bget c22 3 7 1 1 st0).stateD.log =
      [.acquire 1, .acquire 0, .release 0, .release 1, .acquiresleep (.buf 0)] ∧
    ∃ lg, (bget c22 3 7 1 1 st0).stateD.log = st0.log ++ lg ∧
      (∀ pre suf, lg = pre ++ suf →
        Allowed (myhash c22 1).toNat (heldAfter [] pre) ∧
        (heldAfter [] pre).length ≤ 2) ∧
      (∀ pre b suf, lg = pre ++ .acquiresleep b :: suf → heldAfter [] pre = []) ∧
      heldAfter [] lg = [] ∧
      ∀ p, bget c22 3 7 1 1 st0 = .ok p (bget c22 3 7 1 1 st0).stateD →
        ∃ pre, lg = pre ++ [.acquiresleep p] :=
  ⟨rfl, by decide,
    bget_lock_discipline c22 3 7 1 1 st0 (bget c22 3 7 1 1 st0).stateD rfl⟩

/-! ### The bucket index `myhash(blockno)` -/

theorem toInt32_of_lt (x : Nat) (h : x < 2 ^ 31) : toInt32 x = (x : Int) := by
  unfold toInt32
  have e : x % 2 ^ 32 = x := Nat.mod_eq_of_lt (by omega)
  rw [e, if_pos h]

theorem toInt32_of_ge (x : Nat) (h1 : 2 ^ 31 ≤ x) (h2 : x < 2 ^ 32) :
    toInt32 x = (x : Int) - 2 ^ 32 := by
  unfold toInt32
  have e : x % 2 ^ 32 = x := Nat.mod_eq_of_lt h2
  rw [e, if_neg (by omega)]

/-- The remainder of C's `%` has the sign of the dividend: it is not positive for a
negative dividend. -/
theorem tmod_nonpos_of_neg (a b : Int) (h : a < 0) : Int.tmod a b ≤ 0 := by
  match a, b, h with
  | Int.negSucc m, Int.ofNat n, _ =>
    exact Int.neg_nonpos_of_nonneg (Int.ofNat_nonneg _)
  | Int.negSucc m, Int.negSucc n, _ =>
    exact Int.neg_nonpos_of_nonneg (Int.ofNat_nonneg _)

/-- Block numbers below `2^31` hash into `[0, NBUCKET)`. -/
theorem myhash_inBounds_of_lt (cfg : BConfig) (x : Nat) (h0 : 0 < cfg.NBUCKET)
    (hx : x < 2 ^ 31) : inBounds cfg (myhash cfg x) := by
  unfold inBounds myhash
  rw [toInt32_of_lt x hx]
  exact ⟨Int.tmod_nonneg _ (Int.ofNat_nonneg x),
    Int.tmod_lt_of_pos _ (Int.ofNat_pos.mpr h0)⟩

/-- Which 32-bit block numbers hash into `[0, NBUCKET)`: those below `2^31`, and of the
others exactly those whose value as an `int` is a multiple of `NBUCKET`. -/
theorem myhash_inBounds_iff (cfg : BConfig) (x : Nat) (h0 : 0 < cfg.NBUCKET)
    (hx : x < 2 ^ 32) :
    inBounds cfg (myhash cfg x) ↔ x < 2 ^ 31 ∨ (cfg.NBUCKET : Int) ∣ toInt32 x := by
  by_cases hlt : x < 2 ^ 31
  · exact ⟨fun _ => Or.inl hlt, fun _ => myhash_inBounds_of_lt cfg x h0 hlt⟩
  · have hneg : toInt32 x < 0 := by
      rw [toInt32_of_ge x (by omega) hx]
      omega
    have hle := tmod_nonpos_of_neg (toInt32 x) (cfg.NBUCKET : Int) hneg
    constructor
    · intro hb
      right
      apply Int.dvd_of_tmod_eq_zero
      have h1 : 0 ≤ Int.tmod (toInt32 x) (cfg.NBUCKET : Int) := hb.1
      omega
    · rintro (h | h)
      · exact absurd h hlt
      · have hz : myhash cfg x = 0 := Int.tmod_eq_zero_of_dvd h
        unfold inBounds
        rw [hz]
        exact ⟨le_refl _, Int.ofNat_pos.mpr h0⟩

/-- With two or more buckets the block number `2^32 - 1` hashes to `-1`. -/
theorem myhash_max (cfg : BConfig) (h : 2 ≤ cfg.NBUCKET) : myhash cfg (2 ^ 32 - 1) = -1 := by
  have e : toInt32 (2 ^ 32 - 1) = -1 := by decide
  unfold myhash
  rw [e]
  match hn : cfg.NBUCKET, h with
  | n + 2, _ =>
    show -((Nat.succ 0 % (n + 2) : Nat) : Int) = -1
    rw [Nat.mod_eq_of_lt (by omega)]
    rfl

/-- A bucket index outside `[0, NBUCKET)` makes every function of `bio.c` that uses it
index `bcache.lks` and `bcache.buckets` out of bounds. -/
theorem out_of_bounds_undefined (cfg : BConfig) (fuel pid dev blockno : Nat) (b : Ptr)
    (s : Bcache) :
    (¬ inBounds cfg (myhash cfg blockno) → bget cfg fuel pid dev blockno s = .undefined) ∧
    (¬ inBounds cfg (myhash cfg (s.mem b).blockno) →
      bpin cfg b s = .undefined ∧ bunpin cfg b s = .undefined ∧
      ((s.mem b).lock = some pid → brelse cfg pid b s = .undefined)) := by
  refine ⟨fun h => ?_, fun h => ⟨?_, ?_, fun hl => ?_⟩⟩
  · unfold bget
    rw [if_pos h]
  · unfold bpin
    rw [if_pos h]
  · unfold bunpin
    rw [if_pos h]
  · have hh : holdingsleep pid b s = true := by
      simp only [holdingsleep, hl, beq_self_eq_true]
    have hblk : ((releasesleep b s).mem b).blockno = (s.mem b).blockno := by
      simp only [releasesleep, modify, emit, write_same]
    unfold brelse
    rw [if_neg (by simp [hh])]
    simp only
    rw [if_pos (by rw [hblk]; exact h)]

/-- C21, failing input.  With `NBUCKET = 13` the block number `4294967295 = 2^32 - 1`, a
32-bit unsigned value, is converted to the `int` `-1`, and `myhash` returns
`-1 % 13 = -1`; likewise `2147483648 = 2^31` becomes `-2147483648` and hashes to `-11`.
The index is negative, so it does not satisfy `0 ≤ index < NBUCKET`, and `bget` called
with such a block number indexes `bcache.lks` and `bcache.buckets` out of bounds,
whatever the state, the device and the caller. -/
theorem myhash_out_of_bounds (fuel pid dev : Nat) (s : Bcache) :
    toInt32 4294967295 = -1 ∧ myhash c13 4294967295 = -1 ∧
    ¬ inBounds c13 (myhash c13 4294967295) ∧
    bget c13 fuel pid dev 4294967295 s = .undefined ∧
    toInt32 2147483648 = -2147483648 ∧ myhash c13 2147483648 = -11 ∧
    ¬ inBounds c13 (myhash c13 2147483648) ∧
    bget c13 fuel pid dev 2147483648 s = .undefined := by
  have h1 : ¬ inBounds c13 (myhash c13 4294967295) := by decide
  have h2 : ¬ inBounds c13 (myhash c13 2147483648) := by decide
  refine ⟨by decide, by decide, h1, ?_, by decide, by decide, h2, ?_⟩
  · unfold bget
    rw [if_pos h1]
  · unfold bget
    rw [if_pos h2]

/-! ### `valid` is a flag in every reachable state; `refcnt` can wrap -/

theorem write_valid (mem : Ptr → Buf) (p x : Ptr) (f : Buf → Buf)
    (hv : ∀ z, (mem z).valid ≤ 1) (hf : ∀ y, y.valid ≤ 1 → (f y).valid ≤ 1) :
    (write mem p f x).valid ≤ 1 := by
  by_cases h : x = p
  · rw [h, write_same]; exact hf _ (hv p)
  · rw [write_other _ _ _ _ h]; exact hv x

/-- A call of `bget` on a well-formed cache that ends in a state keeps `valid` a flag. -/
theorem bget_valid (cfg : BConfig) (fuel pid dev blockno : Nat) (s s1 : Bcache)
    (L : Nat → List Nat) (hwf : WF cfg s.mem L) (hfuel : cfg.NBUF < fuel)
    (hv : ∀ x, (s.mem x).valid ≤ 1)
    (h : (bget cfg fuel pid dev blockno s).state? = some s1) :
    ∀ x, (s1.mem x).valid ≤ 1 := by
  have hb : inBounds cfg (myhash cfg blockno) := by
    by_contra hc
    unfold bget at h
    rw [if_pos hc] at h
    cases h
  have hinit : ∀ v x, (bufinit s.mem v dev blockno x).valid ≤ 1 := by
    intro v x
    unfold bufinit
    exact write_valid s.mem v x _ hv (fun _ _ => Nat.zero_le _)
  intro x
  rcases bget_spec cfg fuel pid dev blockno s L hwf hfuel hb with
    ⟨b, _, lg, _, h3⟩ | ⟨_, v, _, lg, _, h3⟩ |
    ⟨_, _, j, v, _, _, _, _, lg, _, h3⟩ | ⟨_, _, lg, _, h3⟩
  · rw [h3] at h
    obtain ⟨_, hk, _⟩ := acquiresleep_state _ _ _ _ h
    rw [(hk x).1]
    exact write_valid s.mem _ x _ hv (fun _ hy => hy)
  · rw [h3] at h
    obtain ⟨_, hk, _⟩ := acquiresleep_state _ _ _ _ h
    rw [(hk x).1]
    exact hinit _ x
  · rw [h3] at h
    obtain ⟨_, hk, _⟩ := acquiresleep_state _ _ _ _ h
    rw [(hk x).1, (insert_head_data _ _ _ _).1, (unlink_data _ _ _).1]
    exact hinit _ x
  · rw [h3] at h
    simp only [Res.state?, Option.some.injEq] at h
    subst h
    exact hv x

theorem bread_valid (cfg : BConfig) (fuel pid dev blockno : Nat) (s s1 : Bcache)
    (L : Nat → List Nat) (hwf : WF cfg s.mem L) (hfuel : cfg.NBUF < fuel)
    (hv : ∀ x, (s.mem x).valid ≤ 1)
    (h : (bread cfg fuel pid dev blockno s).state? = some s1) :
    ∀ x, (s1.mem x).valid ≤ 1 := by
  cases hg : bget cfg fuel pid dev blockno s with
  | ok q s0 =>
    have hv0 := bget_valid cfg fuel pid dev blockno s s0 L hwf hfuel hv (by rw [hg]; rfl)
    rw [bread_of_bget_ok cfg fuel pid dev blockno s s0 q hg] at h
    by_cases hz : (s0.mem q).valid = 0
    · rw [if_pos hz] at h
      simp only [Res.state?, Option.some.injEq] at h
      subst h
      intro x
      exact write_valid s0.mem q x _ hv0 (fun _ _ => le_refl _)
    · rw [if_neg hz] at h
      simp only [Res.state?, Option.some.injEq] at h
      subst h
      exact hv0
  | panic m s0 =>
    simp only [bread, hg] at h
    exact bget_valid cfg fuel pid dev blockno s s1 L hwf hfuel hv (by rw [hg]; exact h)
  | sleeps s0 =>
    simp only [bread, hg] at h
    exact bget_valid cfg fuel pid dev blockno s s1 L hwf hfuel hv (by rw [hg]; exact h)
  | undefined => simp only [bread, hg] at h; cases h
  | timeout => simp only [bread, hg] at h; cases h

theorem brelse_valid (cfg : BConfig) (pid : Nat) (p : Ptr) (s s1 : Bcache)
    (hv : ∀ x, (s.mem x).valid ≤ 1) (h : (brelse cfg pid p s).state? = some s1) :
    ∀ x, (s1.mem x).valid ≤ 1 := by
  by_cases hl : (s.mem p).lock = some pid
  · by_cases hb : inBounds cfg (myhash cfg (s.mem p).blockno)
    · obtain ⟨s2, hcall, _, _, hother, hcell⟩ := brelse_spec cfg pid p s hl hb
      rw [hcall] at h
      simp only [Res.state?, Option.some.injEq] at h
      subst h
      intro x
      by_cases hx : x = p
      · rw [hx, hcell]
        exact hv p
      · rw [hother x hx]
        exact hv x
    · have hh2 : holdingsleep pid p s = true := by
        simp only [holdingsleep, hl, beq_self_eq_true]
      have hblk : ((releasesleep p s).mem p).blockno = (s.mem p).blockno := by
        simp only [releasesleep, modify, emit, write_same]
      unfold brelse at h
      rw [if_neg (by simp [hh2])] at h
      simp only at h
      rw [if_pos (by rw [hblk]; exact hb)] at h
      cases h
  · have hh2 : ¬ holdingsleep pid p s = true := by
      simpa only [holdingsleep, beq_iff_eq] using hl
    unfold brelse at h
    rw [if_pos hh2] at h
    simp only [Res.state?, Option.some.injEq] at h
    subst h
    exact hv

theorem bpin_valid (cfg : BConfig) (p : Ptr) (s s1 : Bcache)
    (hv : ∀ x, (s.mem x).valid ≤ 1) (h : (bpin cfg p s).state? = some s1) :
    ∀ x, (s1.mem x).valid ≤ 1 := by
  unfold bpin at h
  by_cases hb : inBounds cfg (myhash cfg (s.mem p).blockno)
  · rw [if_neg (not_not.mpr hb)] at h
    simp only [Res.state?, Option.some.injEq] at h
    subst h
    exact fun x => write_valid s.mem p x _ hv (fun _ hy => hy)
  · rw [if_pos hb] at h
    cases h

theorem bunpin_valid (cfg : BConfig) (p : Ptr) (s s1 : Bcache)
    (hv : ∀ x, (s.mem x).valid ≤ 1) (h : (bunpin cfg p s).state? = some s1) :
    ∀ x, (s1.mem x).valid ≤ 1 := by
  unfold bunpin at h
  by_cases hb : inBounds cfg (myhash cfg (s.mem p).blockno)
  · rw [if_neg (not_not.mpr hb)] at h
    simp only [Res.state?, Option.some.injEq] at h
    subst h
    exact fun x => write_valid s.mem p x _ hv (fun _ hy => hy)
  · rw [if_pos hb] at h
    cases h

/-- In every state reachable from `binit` the `valid` field of every node is 0 or 1. -/
theorem run_valid (cfg : BConfig) (h0 : 0 < cfg.NBUCKET) (s : Bcache) (hr : Run cfg s) :
    ∀ x, (s.mem x).valid ≤ 1 := by
  induction hr with
  | init =>
    intro x
    have hp := (binit_inv cfg h0).2 x
    have h1 : ((binit cfg zeroed).mem x).valid = 0 := hp.1
    rw [h1]
    exact Nat.zero_le _
  | tick s _ ih => exact ih
  | bget s s1 fuel pid dev blockno hrun hfuel hcall ih =>
    obtain ⟨L, hwf, _⟩ := run_memb cfg h0 s hrun
    exact bget_valid cfg fuel pid dev blockno s s1 L hwf hfuel ih hcall
  | bread s s1 fuel pid dev blockno hrun hfuel hcall ih =>
    obtain ⟨L, hwf, _⟩ := run_memb cfg h0 s hrun
    exact bread_valid cfg fuel pid dev blockno s s1 L hwf hfuel ih hcall
  | brelse s s1 pid p _ hcall ih => exact brelse_valid cfg pid p s s1 ih hcall
  | bpin s s1 p _ hcall ih => exact bpin_valid cfg p s s1 ih hcall
  | bunpin s s1 p _ hcall ih => exact bunpin_valid cfg p s s1 ih hcall

/-- Every state reached by calls that respect the protocol is a reachable state. -/
theorem reach_run (cfg : BConfig) (pinAny : Bool) (s : Bcache) (R : List Ptr)
    (hr : Reach cfg pinAny s R) : Run cfg s := by
  induction hr with
  | init => exact Run.init
  | tick s R _ ih => exact Run.tick s ih
  | bget s s1 R fuel pid dev blockno p _ hfuel hcall ih =>
    exact Run.bget s s1 fuel pid dev blockno ih hfuel (by rw [hcall]; rfl)
  | bread s s1 R fuel pid dev blockno p _ hfuel hcall ih =>
    exact Run.bread s s1 fuel pid dev blockno ih hfuel (by rw [hcall]; rfl)
  | brelse s s1 R pid p _ _ hcall ih =>
    exact Run.brelse s s1 pid p ih (by rw [hcall]; rfl)
  | bpin s s1 R p _ _ hcall ih =>
    exact Run.bpin s s1 p ih (by rw [hcall]; rfl)
  | bunpin s s1 R p _ _ hcall ih =>
    exact Run.bunpin s s1 p ih (by rw [hcall]; rfl)

/-- The hypotheses of `bread_returns_valid_locked` hold in every reachable state: the
cache is well-formed and its `valid` fields are flags. -/
theorem run_wf_flags (cfg : BConfig) (h0 : 0 < cfg.NBUCKET) (s : Bcache) (hr : Run cfg s) :
    (∃ L, WF cfg s.mem L) ∧ ValidFlags cfg s.mem := by
  obtain ⟨L, hwf, _⟩ := run_memb cfg h0 s hr
  exact ⟨⟨L, hwf⟩, fun i _ => run_valid cfg h0 s hr (.buf i)⟩

theorem reach_stTop : Reach c22 false stTop [.buf 0] :=
  Reach.brelse (bunpin c22 (.buf 0) st1).stateD stTop _ 7 (.buf 0)
    (Reach.bunpin st1 _ _ (.buf 0) reach_st1 (by decide) rfl)
    (by decide) rfl

theorem stTop_wf : WF c22 stTop.mem scLists :=
  wf_scLists c22 _ rfl (by decide) (by decide) (by decide) (fun k h1 h2 => by
    have : k < 2 := h2
    omega)

/-- C8, counterexample.  The state `stTop` is reached from `binit` by `bread(1, 1)`,
`bunpin` and `brelse` of the returned buffer; it is well-formed and its `valid` fields
are flags.  Buffer 0 carries the key `(1, 1)` with `refcnt = 2^32 - 1` and a free
sleep-lock.  `bread(1, 1)` does not panic: it returns buffer 0 through the hit path,
whose `refcnt++` wraps the unsigned 32-bit counter to 0.  The returned buffer has the
requested key, `valid = 1` and the caller's lock, but `refcnt = 0`, not `refcnt ≥ 1`. -/
theorem bread_returns_valid_locked_counterexample :
    Reach c22 false stTop [.buf 0] ∧ WF c22 stTop.mem scLists ∧
    ValidFlags c22 stTop.mem ∧
    (stTop.mem (.buf 0)).refcnt = 2 ^ 32 - 1 ∧
    bread c22 3 7 1 1 stTop = .ok (.buf 0) (bread c22 3 7 1 1 stTop).stateD ∧
    ((bread c22 3 7 1 1 stTop).stateD.mem (.buf 0)).dev = 1 ∧
    ((bread c22 3 7 1 1 stTop).stateD.mem (.buf 0)).blockno = 1 ∧
    ((bread c22 3 7 1 1 stTop).stateD.mem (.buf 0)).valid = 1 ∧
    ((bread c22 3 7 1 1 stTop).stateD.mem (.buf 0)).lock = some 7 ∧
    ((bread c22 3 7 1 1 stTop).stateD.mem (.buf 0)).refcnt = 0 ∧
    ¬ 1 ≤ ((bread c22 3 7 1 1 stTop).stateD.mem (.buf 0)).refcnt := by
  refine ⟨reach_stTop, stTop_wf, ?_, by decide, rfl, by decide, by decide, by decide,
    by decide, by decide, by decide⟩
  intro i hi
  have h2 : i < 2 := hi
  interval_cases i <;> decide

theorem write_write (mem : Ptr → Buf) (p : Ptr) (f g : Buf → Buf) :
    write (write mem p f) p g = write mem p (fun x => g (f x)) := by
  funext x
  by_cases h : x = p
  · rw [h, write_same, write_same, write_same]
  · rw [write_other _ _ _ _ h, write_other _ _ _ _ h, write_other _ _ _ _ h]

/-- Calls of `bpin` on a buffer that was handed out keep a state reachable within the
protocol; `n + 1` of them add `n + 1` to its `refcnt` modulo `2^32`. -/
theorem reach_pins (cfg : BConfig) (pinAny : Bool) (s : Bcache) (R : List Ptr) (p : Ptr)
    (hr : Reach cfg pinAny s R) (hp : p ∈ R)
    (hb : inBounds cfg (myhash cfg (s.mem p).blockno)) :
    ∀ n, ∃ s1, Reach cfg pinAny s1 R ∧ s1.ticks = s.ticks ∧
      s1.mem = write s.mem p (fun x => { x with refcnt := (x.refcnt + (n + 1)) % 2 ^ 32 }) := by
  have hpin : ∀ t : Bcache, inBounds cfg (myhash cfg (t.mem p).blockno) →
      ∃ t1, bpin cfg p t = .ok () t1 := by
    intro t ht
    unfold bpin
    rw [if_neg (not_not.mpr ht)]
    exact ⟨_, rfl⟩
  intro n
  induction n with
  | zero =>
    obtain ⟨t1, hcall⟩ := hpin s hb
    obtain ⟨_, ht, hm, _⟩ := bpin_spec cfg p s t1 hcall
    exact ⟨t1, Reach.bpin s t1 R p hr (Or.inr hp) hcall, ht, hm⟩
  | succ n ih =>
    obtain ⟨s1, hr1, ht1, hm1⟩ := ih
    have hb1 : inBounds cfg (myhash cfg (s1.mem p).blockno) := by
      rw [hm1, write_same]
      exact hb
    obtain ⟨t1, hcall⟩ := hpin s1 hb1
    obtain ⟨_, ht, hm, _⟩ := bpin_spec cfg p s1 t1 hcall
    refine ⟨t1, Reach.bpin s1 t1 R p hr1 (Or.inr hp) hcall, ht.trans ht1, ?_⟩
    rw [hm, hm1, write_write]
    have e : ∀ x : Buf, incr32 ((x.refcnt + (n + 1)) % 2 ^ 32) =
        (x.refcnt + (n + 1 + 1)) % 2 ^ 32 := by
      intro x
      unfold incr32
      omega
    simp only [e]

/-- The memory of `stTop` is also reached without `bunpin`: by `bread(1, 1)`, `2^32 - 1`
calls of `bpin` on the returned buffer, which wrap its `refcnt` from 1 to 0, and
`brelse`. -/
theorem stTop_by_pins :
    ∃ s, Reach c22 false s [.buf 0] ∧ s.ticks = stTop.ticks ∧ s.mem = stTop.mem := by
  obtain ⟨sP, hrP, htP, hmP⟩ :=
    reach_pins c22 false st1 [.buf 0] (.buf 0) reach_st1 (by decide) (by decide) (2 ^ 32 - 2)
  have hQ : bunpin c22 (.buf 0) st1 = .ok () (bunpin c22 (.buf 0) st1).stateD := rfl
  obtain ⟨_, htQ, hmQ, _⟩ := bunpin_spec c22 _ st1 _ hQ
  have hr1 : (st1.mem (.buf 0)).refcnt = 1 := by decide
  have hPQ : sP.mem = (bunpin c22 (.buf 0) st1).stateD.mem := by
    rw [hmP, hmQ]
    funext x
    by_cases hx : x = .buf 0
    · rw [hx, write_same, write_same]
      show ({ st1.mem (.buf 0) with
          refcnt := ((st1.mem (.buf 0)).refcnt + (2 ^ 32 - 2 + 1)) % 2 ^ 32 } : Buf) =
        { st1.mem (.buf 0) with refcnt := decr32 (st1.mem (.buf 0)).refcnt }
      rw [hr1]
      rfl
    · rw [write_other _ _ _ _ hx, write_other _ _ _ _ hx]
  have hlP : (sP.mem (.buf 0)).lock = some 7 := by
    rw [hmP, write_same]
    decide
  have hbP : inBounds c22 (myhash c22 (sP.mem (.buf 0)).blockno) := by
    rw [hmP, write_same]
    decide
  obtain ⟨s2, hcall, ht2, _, hother, hcell⟩ := brelse_spec c22 7 (.buf 0) sP hlP hbP
  have hlQ : ((bunpin c22 (.buf 0) st1).stateD.mem (.buf 0)).lock = some 7 := by
    rw [← hPQ]; exact hlP
  have hbQ : inBounds c22 (myhash c22 ((bunpin c22 (.buf 0) st1).stateD.mem (.buf 0)).blockno) := by
    rw [← hPQ]; exact hbP
  obtain ⟨s3, hcall3, ht3, _, hother3, hcell3⟩ :=
    brelse_spec c22 7 (.buf 0) (bunpin c22 (.buf 0) st1).stateD hlQ hbQ
  have hs3 : s3 = stTop := by
    have h0 : brelse c22 7 (.buf 0) (bunpin c22 (.buf 0) st1).stateD = .ok () stTop := rfl
    rw [h0] at hcall3
    injection hcall3 with _ h2
    exact h2.symm
  subst hs3
  have hticks : sP.ticks = (bunpin c22 (.buf 0) st1).stateD.ticks := by
    rw [htP, htQ]
  refine ⟨s2, Reach.brelse sP s2 _ 7 (.buf 0) hrP (by decide) hcall, ?_, ?_⟩
  · rw [ht2, ht3, hticks]
  · funext x
    by_cases hx : x = .buf 0
    · rw [hx, hcell, hcell3, hPQ, hticks]
    · rw [hother x hx, hother3 x hx, hPQ]

/-! ### The victim loops while no idle buffer is stamped later than `ticks`

In a state in which no buffer with `refcnt = 0` has a `lastuse` above `ticks`, the victim
loops find every idle buffer. -/

/-- While no idle buffer is stamped later than `ticks`, `bget` after a miss panics exactly
when no buffer in any bucket has `refcnt = 0`. -/
theorem bget_saturation_unwrapped (cfg : BConfig) (fuel pid dev blockno : Nat) (s : Bcache)
    (L : Nat → List Nat) (hwf : WF cfg s.mem L) (hfuel : cfg.NBUF < fuel)
    (hb : inBounds cfg (myhash cfg blockno))
    (hmiss : ∀ i, i ∈ L (myhash cfg blockno).toNat →
      ¬ ((s.mem (.buf i)).dev = dev ∧ (s.mem (.buf i)).blockno = blockno))
    (hts : ∀ i, i < cfg.NBUF → (s.mem (.buf i)).refcnt = 0 →
      (s.mem (.buf i)).lastuse ≤ s.ticks) :
    ((∃ s1, bget cfg fuel pid dev blockno s = .panic "bget: no buf" s1) ↔
      ∀ i, i < cfg.NBUF → (s.mem (.buf i)).refcnt ≠ 0) ∧
    ((∃ i, i < cfg.NBUF ∧ (s.mem (.buf i)).refcnt = 0) →
      ∃ v, v < cfg.NBUF ∧ (s.mem (.buf v)).refcnt = 0 ∧
        ((s.mem (.buf v)).lock = none →
          ∃ s1, bget cfg fuel pid dev blockno s = .ok (.buf v) s1) ∧
        ((s.mem (.buf v)).lock ≠ none →
          ∃ s1, bget cfg fuel pid dev blockno s = .sleeps s1)) := by
  obtain ⟨h1, h2⟩ := bget_saturation cfg fuel pid dev blockno s L hwf hfuel hb hmiss
  constructor
  · rw [h1]
    constructor
    · intro h i hi h0
      exact h i hi ⟨h0, hts i hi h0⟩
    · intro h i hi hc
      exact h i hi hc.1
  · rintro ⟨i, hi, h0⟩
    obtain ⟨v, hv, hv0, _, hok, hsl⟩ := h2 ⟨i, hi, h0, hts i hi h0⟩
    exact ⟨v, hv, hv0, hok, hsl⟩

/-- While no idle buffer of the home bucket is stamped later than `ticks`, a returning
`bget` that misses takes its victim from the home bucket in place whenever the home
bucket contains a buffer with `refcnt = 0`. -/
theorem bget_in_place_unwrapped (cfg : BConfig) (fuel pid dev blockno : Nat) (s s1 : Bcache)
    (p : Ptr) (L : Nat → List Nat) (hwf : WF cfg s.mem L) (hfuel : cfg.NBUF < fuel)
    (hmiss : ∀ i, i ∈ L (myhash cfg blockno).toNat →
      ¬ ((s.mem (.buf i)).dev = dev ∧ (s.mem (.buf i)).blockno = blockno))
    (hts : ∀ i, i ∈ L (myhash cfg blockno).toNat → (s.mem (.buf i)).refcnt = 0 →
      (s.mem (.buf i)).lastuse ≤ s.ticks)
    (h : bget cfg fuel pid dev blockno s = .ok p s1)
    (hidle : ∃ j, j ∈ L (myhash cfg blockno).toNat ∧ (s.mem (.buf j)).refcnt = 0) :
    ∃ v, v ∈ L (myhash cfg blockno).toNat ∧ p = .buf v ∧ WF cfg s1.mem L ∧
      ∀ x, (s1.mem x).next = (s.mem x).next ∧ (s1.mem x).prev = (s.mem x).prev := by
  obtain ⟨k, v, _, hvk, hp, _, _, _, _, _, _, hin⟩ :=
    bget_timestamp_lru cfg fuel pid dev blockno s s1 p L hwf hfuel hmiss h
  obtain ⟨j, hj, hj0⟩ := hidle
  obtain ⟨hk, hwf1, hptr⟩ := hin ⟨j, hj, hj0, hts j hj hj0⟩
  exact ⟨v, hk ▸ hvk, hp, hwf1, hptr⟩

/-- While no idle buffer is stamped later than `ticks`, the buffer a returning `bget`
steals comes from the lowest-indexed other bucket that contains a buffer with
`refcnt = 0`. -/
theorem bget_steal_lowest_unwrapped (cfg : BConfig) (fuel pid dev blockno : Nat)
    (s s1 : Bcache) (p : Ptr) (L : Nat → List Nat) (hwf : WF cfg s.mem L)
    (hfuel : cfg.NBUF < fuel)
    (hmiss : ∀ i, i ∈ L (myhash cfg blockno).toNat →
      ¬ ((s.mem (.buf i)).dev = dev ∧ (s.mem (.buf i)).blockno = blockno))
    (hnov : ∀ i, i ∈ L (myhash cfg blockno).toNat → (s.mem (.buf i)).refcnt ≠ 0)
    (hts : ∀ i, i < cfg.NBUF → (s.mem (.buf i)).refcnt = 0 →
      (s.mem (.buf i)).lastuse ≤ s.ticks)
    (h : bget cfg fuel pid dev blockno s = .ok p s1) :
    ∃ j v, j < cfg.NBUCKET ∧ j ≠ (myhash cfg blockno).toNat ∧ v ∈ L j ∧ p = .buf v ∧
      (s.mem (.buf v)).refcnt = 0 ∧
      ∀ j2, j2 < j → j2 ≠ (myhash cfg blockno).toNat → ∀ i, i ∈ L j2 →
        (s.mem (.buf i)).refcnt ≠ 0 := by
  obtain ⟨j, v, hj, hjne, hvj, hp, hv0, _, hfirst, _⟩ :=
    bget_steal_path cfg fuel pid dev blockno s s1 p L hwf hfuel hmiss
      (fun i hi hc => hnov i hi hc.1) h
  refine ⟨j, v, hj, hjne, hvj, hp, hv0, ?_⟩
  intro j2 hj2 hne i hi h0
  have hin : i < cfg.NBUF := wf_mem_lt cfg s.mem L hwf j2 i (by omega) hi
  exact hfirst j2 hj2 hne i hi ⟨h0, hts i hin h0⟩

end Bio
